import Mathlib

/-!
Verification of the process-discovery / RPC substrate of the typeglance
repository, shallowly embedded in Lean 4.

The embedding covers:
* the graph codec `dehydrateValue` / `hydrateValue` (src/utils/hooks.ts),
* the `MessageChannel` request/response correlation logic (src/utils/env.ts),
* the host-side broadcast `handlers.invoke` (src/utils/hooks.ts),
* the client-side `discoverMessageChannel` connection race (src/utils/hooks.ts),
* the global-context store `exposeGlobalContext` / `purge` / `subscribe` /
  `getAllGlobalContexts` (src/utils/global-context.ts).

JavaScript values are modelled as a primitive layer plus a heap of
mutable objects addressed by natural numbers; object identity is the
heap address, and `Map` keys compare with SameValueZero: value equality
on primitives, address equality on references.
-/

namespace TypeGlance

/-- Association-list lookup (first match wins), mirroring `Map.get`. -/
def lookupA {α β : Type} [DecidableEq α] : List (α × β) → α → Option β
  | [], _ => none
  | (k, v) :: rest, a => if a = k then some v else lookupA rest a

/-- JavaScript primitives that are compared by value (SameValueZero).
`undef` is JavaScript `undefined` (typeof ≠ 'object'). -/
inductive JSPrim where
  | num (n : Int)
  | str (s : String)
  | bool (b : Bool)
  | undef
deriving DecidableEq, Repr

/-- A JavaScript value: a primitive, `null` (which has typeof 'object'
but is not a heap object), or a reference to a heap object. -/
inductive JSVal where
  | prim (p : JSPrim)
  | null
  | ref (r : Nat)
deriving DecidableEq, Repr

/-- A heap object: an array, a plain object with ordered own enumerable
string-keyed properties, or a function (named; possibly ""). -/
inductive HObj where
  | arr (elems : List JSVal)
  | obj (props : List (String × JSVal))
  | func (name : String)
deriving DecidableEq, Repr

/-- The object heap backing a JavaScript value graph. -/
abbrev Heap : Type := List (Nat × HObj)

/-- An encoded node of the dehydrated form: a primitive (function
placeholders are strings), an array of ids, or an object whose property
values are ids. -/
inductive DNode where
  | prim (p : JSPrim)
  | arr (ids : List Nat)
  | obj (props : List (String × Nat))
deriving DecidableEq, Repr

/-- The `Dehydrated` record: a finite mapping from integer id to encoded
node (`Record<number, ...>` in the source). -/
abbrev DTable : Type := List (Nat × DNode)

/-- Errors of the embedded JavaScript: a thrown `Error`/`TypeError`
carrying its message, plus two artifacts of the shallow embedding that
never occur on runs corresponding to real executions: fuel exhaustion
and a dangling heap reference. -/
inductive JSErr where
  | jsError (msg : String)
  | modelOutOfFuel
  | danglingRef
deriving DecidableEq, Repr

/-- `function_${value.name || '[anon]'}` — the placeholder a function is
encoded as. -/
def functionPlaceholder (name : String) : String :=
  "function_" ++ (if name = "" then "[anon]" else name)

/-- The mutable state of one `dehydrateValue` pass: the visited map
`cache : Map<any, {id, value}>` (keyed by SameValueZero), the `nextId`
counter, and the accumulated id-to-node table (the `value` fields of the
cache entries, keyed by `id`). -/
structure DState where
  cache : List (JSVal × Nat)
  nextId : Nat
  table : DTable
deriving Repr

mutual
/-- `serialize` from `dehydrateValue`: on a cache hit returns the stored
id; otherwise allocates the next id, caches it before recursing into
children, and records the encoded node.  `null` reaches the object
branch (typeof null === 'object') where `Object.entries(null)` throws a
TypeError.  The fuel argument only bounds the modelled recursion depth. -/
def serialize (h : Heap) : Nat → JSVal → DState → Except JSErr (Nat × DState)
  | 0, _, _ => .error .modelOutOfFuel
  | fuel + 1, v, s =>
    match lookupA s.cache v with
    | some i => .ok (i, s)
    | none =>
      let i := s.nextId
      let s1 : DState := ⟨(v, i) :: s.cache, i + 1, s.table⟩
      match v with
      | .null => .error (.jsError "Cannot convert undefined or null to object")
      | .prim p => .ok (i, { s1 with table := (i, DNode.prim p) :: s1.table })
      | .ref r =>
        match lookupA h r with
        | none => .error .danglingRef
        | some (.func name) =>
          .ok (i, { s1 with table := (i, DNode.prim (.str (functionPlaceholder name))) :: s1.table })
        | some (.arr elems) => do
          let (ids, s2) ← serializeList h fuel elems s1
          .ok (i, { s2 with table := (i, DNode.arr ids) :: s2.table })
        | some (.obj props) => do
          let (pairs, s2) ← serializeProps h fuel (props.filter (fun kv => kv.1 ≠ "checker")) s1
          .ok (i, { s2 with table := (i, DNode.obj pairs) :: s2.table })
termination_by fuel _ _ => (fuel, 0)

/-- `value.map(v => serialize(v))` threading the mutable state. -/
def serializeList (h : Heap) : Nat → List JSVal → DState → Except JSErr (List Nat × DState)
  | _, [], s => .ok ([], s)
  | fuel, v :: vs, s => do
    let (i, s1) ← serialize h fuel v s
    let (ids, s2) ← serializeList h fuel vs s1
    .ok (i :: ids, s2)
termination_by fuel vs _ => (fuel, vs.length + 1)

/-- `Object.entries(value).map(([key, v]) => [key, serialize(v)])`
threading the mutable state (applied after the `checker` filter). -/
def serializeProps (h : Heap) : Nat → List (String × JSVal) → DState → Except JSErr (List (String × Nat) × DState)
  | _, [], s => .ok ([], s)
  | fuel, (k, v) :: kvs, s => do
    let (i, s1) ← serialize h fuel v s
    let (pairs, s2) ← serializeProps h fuel kvs s1
    .ok ((k, i) :: pairs, s2)
termination_by fuel kvs _ => (fuel, kvs.length + 1)
end

/-- One full `dehydrateValue` pass, returning the root id and the final
state.  Recursion depth is bounded by the number of heap objects, so
`h.length + 2` fuel never runs out. -/
def dehydrateRun (h : Heap) (v : JSVal) : Except JSErr (Nat × DState) :=
  serialize h (h.length + 2) v ⟨[], 0, []⟩

/-- `dehydrateValue`: the id-to-node mapping built from the cache
entries (`Object.fromEntries(cache.entries ...)`). -/
def dehydrateValue (h : Heap) (v : JSVal) : Except JSErr DTable :=
  (dehydrateRun h v).map (fun p => p.2.table)

/-- State of one `hydrateValue` pass.  The hydration cache is keyed by
the encoded nodes themselves; in a dehydrated value each object/array
node is a distinct fresh object held under exactly one id, so those
cache keys are modelled by the node's id (`visited`).  Caching of
primitive encoded nodes is unobservable (the cached value is the
primitive itself) and is not represented.  An array node's cache entry
receives its value only after `val.map(...)` returns, so an array id
that has been begun but not finished (`pending`) still has
`cacheEntry.value === undefined`; an object node assigns
`cacheEntry.value = {}` before recursing and is never pending.  `out`
holds the reconstructed object for each finished object/array id. -/
structure HState where
  visited : List Nat
  pending : List Nat
  out : List (Nat × HObj)
deriving Repr

mutual
/-- `deserialize` from `hydrateValue`, applied to `value[i]`: a missing
id deserializes to `undefined` and a primitive node to itself.  A cache
hit returns the entry's current value: for an object node that is the
pre-published (possibly still being filled) object, but an array node's
entry is assigned only after `val.map(...)` completes, so a hit on a
still-`pending` array yields `undefined`.  Otherwise the node is marked
visited (an array also pending), children are deserialized, and the
finished object is recorded under id `i` (an array leaving pending). -/
def deserialize (t : DTable) : Nat → Nat → HState → Except JSErr (JSVal × HState)
  | 0, _, _ => .error .modelOutOfFuel
  | fuel + 1, i, s =>
    match lookupA t i with
    | none => .ok (JSVal.prim .undef, s)
    | some (DNode.prim p) => .ok (JSVal.prim p, s)
    | some (DNode.arr ids) =>
      if i ∈ s.visited then
        if i ∈ s.pending then .ok (JSVal.prim .undef, s) else .ok (JSVal.ref i, s)
      else do
        let s1 : HState := { s with visited := i :: s.visited, pending := i :: s.pending }
        let (elems, s2) ← deserializeList t fuel ids s1
        .ok (JSVal.ref i,
          { s2 with pending := s2.pending.erase i, out := (i, HObj.arr elems) :: s2.out })
    | some (DNode.obj pairs) =>
      if i ∈ s.visited then .ok (JSVal.ref i, s)
      else do
        let s1 : HState := { s with visited := i :: s.visited }
        let (props, s2) ← deserializeProps t fuel pairs s1
        .ok (JSVal.ref i, { s2 with out := (i, HObj.obj props) :: s2.out })
termination_by fuel _ _ => (fuel, 0)

/-- `val.map(k => deserialize(value[k]))`. -/
def deserializeList (t : DTable) : Nat → List Nat → HState → Except JSErr (List JSVal × HState)
  | _, [], s => .ok ([], s)
  | fuel, k :: ks, s => do
    let (v, s1) ← deserialize t fuel k s
    let (vs, s2) ← deserializeList t fuel ks s1
    .ok (v :: vs, s2)
termination_by fuel ks _ => (fuel, ks.length + 1)

/-- `Object.entries(val).map(([k, v]) => [k, deserialize(value[v])])`
(every property value of a dehydrated object node is an id). -/
def deserializeProps (t : DTable) : Nat → List (String × Nat) → HState → Except JSErr (List (String × JSVal) × HState)
  | _, [], s => .ok ([], s)
  | fuel, (key, k) :: ks, s => do
    let (v, s1) ← deserialize t fuel k s
    let (props, s2) ← deserializeProps t fuel ks s1
    .ok ((key, v) :: props, s2)
termination_by fuel ks _ => (fuel, ks.length + 1)
end

/-- `hydrateValue`: throws `'Hydration error'` on an empty input,
otherwise deserializes the node with id 0.  Returns the root value
together with the heap of reconstructed objects. -/
def hydrateValue (t : DTable) : Except JSErr (JSVal × List (Nat × HObj)) :=
  if t.isEmpty then .error (.jsError "Hydration error")
  else do
    let (v, s) ← deserialize t (t.length + 1) 0 ⟨[], [], []⟩
    .ok (v, s.out)

/-! ## Message Channel: request dispatch (src/utils/env.ts, messageHandler) -/

/-- The body of a RESPONSE frame: an ordinary value, or the
`{ stack: e.stack }` error body.  A stack trace is modelled by the
message that heads it. -/
inductive MCBody where
  | val (v : JSVal)
  | errStack (stack : String)
deriving DecidableEq, Repr

/-- A RESPONSE frame `{type: 'RESPONSE', n, body, isError}` as produced
by `respond(n, isError, body)`. -/
structure RFrame where
  n : Nat
  isError : Bool
  body : MCBody
deriving DecidableEq, Repr

/-- A registered handler; a thrown error is modelled by its stack. -/
abbrev Handler := JSVal → Except String JSVal

/-- `e.stack` of `new Error('no handler for ' + key)`. -/
def noHandlerStack (key : String) : String := "Error: no handler for " ++ key

/-- The REQUEST branch of `MessageChannel.messageHandler`: look the key
up in the Handler Registry; a missing handler throws
`no handler for key`, which the catch turns into an error response; a
found handler's result or thrown error becomes the response.  Responses
are sent only for numbered frames (`n != null`).  The result is the
list of frames sent. -/
def messageHandlerRequest (registry : List (String × Handler)) (n : Option Nat)
    (key : String) (body : JSVal) : List RFrame :=
  match lookupA registry key with
  | none =>
    match n with
    | some m => [⟨m, true, .errStack (noHandlerStack key)⟩]
    | none => []
  | some requestHandler =>
    match requestHandler body with
    | .ok response =>
      match n with
      | some m => [⟨m, false, .val response⟩]
      | none => []
    | .error stack =>
      match n with
      | some m => [⟨m, true, .errStack stack⟩]
      | none => []

/-! ## Message Channel: pending-request lifecycle (src/utils/env.ts) -/

/-- The state of the promise returned by `request`. -/
inductive PromiseSt where
  | pending
  | fulfilled (body : MCBody)
  | rejectedTimeout
  | rejectedResponse (body : MCBody)
deriving DecidableEq, Repr

/-- The state of a `setTimeout` timer handle. -/
inductive TimerSt where
  | armed
  | cleared
  | fired
deriving DecidableEq, Repr

/-- The request-correlation state of one `MessageChannel`: the `n`
counter, the key set of `responseHandlers` (`entries`), the promise of
each issued request, and each request's timeout timer. -/
structure ChanSt where
  nextN : Nat
  entries : List Nat
  promises : List (Nat × PromiseSt)
  timers : List (Nat × TimerSt)
deriving DecidableEq, Repr

/-- Events acting on the correlation state: a `request(key, body)` call,
the firing of request `n`'s timeout, and the arrival of a RESPONSE
frame for sequence number `n`. -/
inductive ChanEv where
  | request
  | timeoutFire (n : Nat)
  | response (n : Nat) (isError : Bool) (body : MCBody)
deriving DecidableEq, Repr

/-- Settle the promise of request `n` (a no-op if already settled:
a promise resolves or rejects at most once). -/
def settlePromise (ps : List (Nat × PromiseSt)) (n : Nat) (p : PromiseSt) :
    List (Nat × PromiseSt) :=
  ps.map (fun q => if q.1 = n then (if q.2 = .pending then (q.1, p) else q) else q)

/-- `clearTimeout` on request `n`'s timer: an armed timer is cleared;
clearing a fired or cleared timer has no effect. -/
def clearTimer (ts : List (Nat × TimerSt)) (n : Nat) : List (Nat × TimerSt) :=
  ts.map (fun q => if q.1 = n ∧ q.2 = .armed then (q.1, TimerSt.cleared) else q)

/-- One step of the correlation state machine, translated from
`request` and the RESPONSE branch of `messageHandler`:
* `request` allocates `n := this.n++`, registers `{resolve, reject,
  timeout}` in `responseHandlers`, and arms the timeout;
* the timeout callback only calls `reject(timed out)` — it does not
  remove the `responseHandlers` entry;
* a RESPONSE with an unknown `n` throws (`none`); otherwise the entry is
  deleted, the timer cleared, and the promise settled per `isError`.
`timeoutFire n` is only deliverable while the timer is armed. -/
def chanStep (st : ChanSt) : ChanEv → Option ChanSt
  | .request =>
    some ⟨st.nextN + 1, st.nextN :: st.entries,
          (st.nextN, PromiseSt.pending) :: st.promises,
          (st.nextN, TimerSt.armed) :: st.timers⟩
  | .timeoutFire n =>
    if lookupA st.timers n = some .armed then
      some { st with
        promises := settlePromise st.promises n .rejectedTimeout,
        timers := st.timers.map (fun q => if q.1 = n then (q.1, TimerSt.fired) else q) }
    else none
  | .response n isError body =>
    if n ∈ st.entries then
      some { st with
        entries := st.entries.filter (fun m => m ≠ n),
        timers := clearTimer st.timers n,
        promises := settlePromise st.promises n
          (if isError then .rejectedResponse body else .fulfilled body) }
    else none

/-- The initial correlation state of a fresh channel. -/
def chanInit : ChanSt := ⟨0, [], [], []⟩

/-- Run a sequence of correlation events from the initial state. -/
def chanRun (evs : List ChanEv) : Option ChanSt :=
  evs.foldlM chanStep chanInit

/-- `evs` contains no RESPONSE frame for sequence number `n`. -/
def NoResponseFor (evs : List ChanEv) (n : Nat) : Prop :=
  ∀ b m, ChanEv.response n b m ∉ evs

/-! ## Host broadcast invoke (src/utils/hooks.ts, hostDiscoverableMessageChannel) -/

/-- One currently connected Message Channel as seen by the host's
broadcast fan-out: `respond key body` is the settled outcome of
`child.handlers.invoke(key, body)` on that connection. -/
structure BroadcastConn where
  respond : String → JSVal → Except String JSVal

/-- `Promise.all` over a list of settled outcomes (the synchronous model
settles children in iteration order): resolves with the list of values
if all fulfil, rejects with the first rejection otherwise. -/
def promiseAll {E A : Type} : List (Except E A) → Except E (List A)
  | [] => .ok []
  | x :: rest =>
    match x with
    | .ok a => (promiseAll rest).map (fun l => a :: l)
    | .error e => .error e

/-- `handlers.invoke` of `hostDiscoverableMessageChannel`:
`Promise.all(Array.from(connections, child =>
child.handlers.invoke(handlerKey, requestMessage)))`. -/
def hostInvoke (connections : List BroadcastConn) (handlerKey : String)
    (requestMessage : JSVal) : Except String (List JSVal) :=
  promiseAll (connections.map (fun child => child.respond handlerKey requestMessage))

/-! ## Discovery connection race (src/utils/hooks.ts, discoverMessageChannel) -/

/-- Lifecycle of one candidate websocket created by `createOpenSocket`:
`connecting` until the handshake settles; `opened` after the `open`
event; `closedS` after `ws.close()` (explicit close of a loser, the
`error` path, or the 65 ms per-candidate timeout, each of which closes
the socket). -/
inductive SockPhase where
  | connecting
  | opened
  | closedS
deriving DecidableEq, Repr

/-- A task in discovery's async queue: a snapshot-handling batch
(carrying the snapshot's `(key, port)` configs; sockets are created
only when the task runs) or the overall-timeout task. -/
inductive QTask where
  | batch (configs : List (String × Nat))
  | timeoutTask
deriving DecidableEq, Repr

/-- A settlement call on the discovery promise. -/
inductive DiscoOutcome where
  | success (sid : Nat)
  | timedOut
deriving DecidableEq, Repr

/-- The batch task currently being awaited by the queue: its not yet
settled candidate sockets and its `hostSelected` flag. -/
structure RunningBatch where
  pending : List Nat
  hostSelected : Bool
deriving DecidableEq, Repr

/-- The state of one `discoverMessageChannel` call: the `finalized`
flag, whether the store watcher is still subscribed, the overall
timeout timer, the pending task queue, the running batch, every
candidate socket ever created with its phase, and the list of
`resolve`/`reject` calls made on the discovery promise. -/
structure DiscoSt where
  finalized : Bool
  watching : Bool
  timer : TimerSt
  queue : List QTask
  running : Option RunningBatch
  sockets : List (Nat × SockPhase)
  nextSock : Nat
  settleCalls : List DiscoOutcome
deriving DecidableEq, Repr

/-- Events driving one discovery attempt: a store snapshot delivered to
the watcher; the single-consumer queue starting its next task; a
candidate socket completing its handshake; a candidate socket failing
(its `error` event or its own 65 ms connect timeout, both of which
close it); the overall discovery timer firing. -/
inductive DiscoEv where
  | snapshot (configs : List (String × Nat))
  | startTask
  | sockOpen (sid : Nat)
  | sockFail (sid : Nat)
  | timerFire
deriving DecidableEq, Repr

/-- `finalize()`: set `finalized`, clear the queue, unwatch, and
`clearTimeout` the overall timer. -/
def finalizeDisco (st : DiscoSt) : DiscoSt :=
  { st with finalized := true, queue := [], watching := false,
            timer := if st.timer = .armed then .cleared else st.timer }

/-- Record one `resolve`/`reject` call on the discovery promise. -/
def appendSettle (st : DiscoSt) (o : DiscoOutcome) : DiscoSt :=
  { st with settleCalls := st.settleCalls ++ [o] }

/-- Update the phase of socket `sid`. -/
def setSock (socks : List (Nat × SockPhase)) (sid : Nat) (ph : SockPhase) :
    List (Nat × SockPhase) :=
  socks.map (fun q => if q.1 = sid then (q.1, ph) else q)

/-- The ports a batch task connects to:
`configs.filter(config => config.key === key).map(c => c.port)`. -/
def batchPorts (key : String) (configs : List (String × Nat)) : List Nat :=
  (configs.filter (fun c => c.1 = key)).map (fun c => c.2)

/-- Fresh socket ids for one batch's candidates. -/
def batchIds (ns : Nat) (ports : List Nat) : List Nat :=
  (List.range ports.length).map (fun j => ns + j)

/-- The pending set of a batch after candidate `sid` settles. -/
def dropPending (pending : List Nat) (sid : Nat) : List Nat :=
  pending.filter (fun j => j ≠ sid)

/-- One step of `discoverMessageChannel` for discovery key `key`:
* `snapshot`: the watcher callback — delivered only while subscribed;
  if `finalized` it returns, otherwise it enqueues a batch task;
* `startTask` (queue idle): a batch task filters its configs by `key`
  and opens one candidate socket per match (`createOpenSocket`); the
  timeout task, unless already finalized, finalizes and rejects;
* `sockOpen`: a candidate of the running batch completes its handshake:
  if a host was already selected the websocket is closed, otherwise it
  is selected, discovery finalizes and resolves with this socket;
* `sockFail`: a candidate of the running batch errors or hits its own
  connect timeout and is closed (`createOpenSocket` resolves null);
* `timerFire`: the overall timer (armed only) enqueues the timeout
  task. -/
def discoStep (key : String) (st : DiscoSt) : DiscoEv → Option DiscoSt
  | .snapshot configs =>
    if st.watching then
      some (if st.finalized then st
            else { st with queue := st.queue ++ [QTask.batch configs] })
    else none
  | .startTask =>
    match st.running, st.queue with
    | none, QTask.batch configs :: rest =>
      some { st with
        queue := rest,
        nextSock := st.nextSock + (batchPorts key configs).length,
        sockets := st.sockets ++ (batchIds st.nextSock (batchPorts key configs)).map
          (fun sid => (sid, SockPhase.connecting)),
        running := if (batchIds st.nextSock (batchPorts key configs)).isEmpty then none
                   else some ⟨batchIds st.nextSock (batchPorts key configs), false⟩ }
    | none, QTask.timeoutTask :: rest =>
      if st.finalized then some { st with queue := rest }
      else some (appendSettle (finalizeDisco st) .timedOut)
    | _, _ => none
  | .sockOpen sid =>
    match st.running with
    | some rb =>
      if sid ∈ rb.pending ∧ lookupA st.sockets sid = some .connecting then
        if rb.hostSelected then
          some { st with
            sockets := setSock st.sockets sid .closedS,
            running := if (dropPending rb.pending sid).isEmpty then none
                       else some ⟨dropPending rb.pending sid, true⟩ }
        else
          some (appendSettle
            { finalizeDisco st with
              sockets := setSock st.sockets sid .opened,
              running := if (dropPending rb.pending sid).isEmpty then none
                         else some ⟨dropPending rb.pending sid, true⟩ }
            (.success sid))
      else none
    | none => none
  | .sockFail sid =>
    match st.running with
    | some rb =>
      if sid ∈ rb.pending ∧ lookupA st.sockets sid = some .connecting then
        some { st with
          sockets := setSock st.sockets sid .closedS,
          running := if (dropPending rb.pending sid).isEmpty then none
                     else some ⟨dropPending rb.pending sid, rb.hostSelected⟩ }
      else none
    | none => none
  | .timerFire =>
    if st.timer = .armed then
      some { st with timer := .fired, queue := st.queue ++ [QTask.timeoutTask] }
    else none

/-- The state right after `discoverMessageChannel` is called: watcher
subscribed, overall timer armed, nothing queued or running. -/
def discoInit : DiscoSt := ⟨false, true, .armed, [], none, [], 0, []⟩

/-- Run a sequence of discovery events from the initial state. -/
def discoRun (key : String) (evs : List DiscoEv) : Option DiscoSt :=
  evs.foldlM (discoStep key) discoInit

/-- A discovery attempt is quiescent when no task is running, the queue
is empty and the overall timer can no longer fire: no further events
are pending (every candidate socket settles within its 65 ms bound and
the overall timer always fires unless cleared, so every real execution
reaches a quiescent state). -/
def DiscoQuiescent (st : DiscoSt) : Prop :=
  st.running = none ∧ st.queue = [] ∧ st.timer ≠ TimerSt.armed

/-- The inductive invariant of the discovery state machine. -/
structure DiscoInv (st : DiscoSt) : Prop where
  settle_len : st.settleCalls.length ≤ 1
  finalized_iff : st.finalized = true ↔ st.settleCalls ≠ []
  final_queue : st.finalized = true → st.queue = []
  final_watch : st.finalized = true → st.watching = false
  final_timer : st.finalized = true → st.timer ≠ TimerSt.armed
  final_running : st.finalized = true → ∀ rb, st.running = some rb →
    rb.hostSelected = true
  selected_settled : ∀ rb, st.running = some rb → rb.hostSelected = true →
    ∃ sid, st.settleCalls = [DiscoOutcome.success sid]
  opened_won : ∀ sid, lookupA st.sockets sid = some SockPhase.opened →
    st.settleCalls = [DiscoOutcome.success sid]
  won_opened : ∀ sid, DiscoOutcome.success sid ∈ st.settleCalls →
    lookupA st.sockets sid = some SockPhase.opened
  connecting_pending : ∀ sid, lookupA st.sockets sid = some SockPhase.connecting →
    ∃ rb, st.running = some rb ∧ sid ∈ rb.pending
  fired_queued : st.timer = TimerSt.fired →
    QTask.timeoutTask ∈ st.queue ∨ st.finalized = true
  cleared_final : st.timer = TimerSt.cleared → st.finalized = true
  sock_keys_lt : ∀ q ∈ st.sockets, q.1 < st.nextSock
  sock_keys_nodup : (st.sockets.map Prod.fst).Nodup

/-! ## Global Context Store (src/utils/global-context.ts) -/

/-- One file in the per-key registry directory.  `exposeGlobalContext`
names files `pid-seq.json`, so a filename is modelled as the pair
`(pid, seq)` (which is exactly what the `^(\d+)-\d+\.json$` pattern of
`purge` recovers), plus the file's mtime and JSON content. -/
structure GCFile (C : Type) where
  pid : Nat
  seq : Nat
  mtime : Nat
  content : C
deriving DecidableEq, Repr

/-- `exposeGlobalContext(key, context)`: create the per-key directory
and write `context` to a fresh `pid-seq.json` file. -/
def exposeGlobalContext {C : Type} (pid seq now : Nat) (context : C)
    (dir : List (GCFile C)) : List (GCFile C) :=
  dir ++ [⟨pid, seq, now, context⟩]

/-- Find the file named `(pid, seq)` in the directory. -/
def findFile {C : Type} : List (GCFile C) → Nat × Nat → Option (GCFile C)
  | [], _ => none
  | f :: rest, nm => if (f.pid, f.seq) = nm then some f else findFile rest nm

/-- `Map.set`: update in place if present, else append (preserving
insertion order, which `Map.values()` iterates in). -/
def mapSet {α β : Type} [DecidableEq α] (l : List (α × β)) (k : α) (v : β) :
    List (α × β) :=
  if k ∈ l.map Prod.fst then l.map (fun q => if q.1 = k then (k, v) else q)
  else l ++ [(k, v)]

/-- The per-key cache `configByFileName`. -/
abbrev GCCache (C : Type) := List ((Nat × Nat) × C)

/-- `eventTriggered(filename)`: re-read the one file, updating the
cache; a missing file (ENOENT) deletes its cache entry. -/
def eventTriggered {C : Type} (dir : List (GCFile C)) (cache : GCCache C)
    (nm : Nat × Nat) : GCCache C :=
  match findFile dir nm with
  | some f => mapSet cache nm f.content
  | none => cache.filter (fun q => q.1 ≠ nm)

/-- `readAll()` on first watch of a key: files with mtime before the
machine's boot time (`minTime`) are deleted outright; each surviving
file is loaded into the cache (via `eventTriggered`) in directory
order. -/
def readAll {C : Type} (minTime : Nat) (dir : List (GCFile C)) :
    List (GCFile C) × GCCache C :=
  (dir.filter (fun f => minTime ≤ f.mtime),
   (dir.filter (fun f => minTime ≤ f.mtime)).map (fun f => ((f.pid, f.seq), f.content)))

/-- The `throttle(fn, ms)` wrapper runs `fn` iff `now - lastCalled >= ms`. -/
def throttleFires (ms lastCalled now : Nat) : Bool := ms ≤ now - lastCalled

/-- The body of the throttled `purge` sweep: for every cached entry
whose writer process is not alive (the `process.kill(pid, 0)` probe),
unlink its file and delete its cache entry; entries whose file is
already gone (ENOENT) are skipped.  Returns the new directory, the new
cache, and the `purged` flag (true iff something was deleted, in which
case `emit()` re-notifies all subscribers). -/
def purge {C : Type} (alive : Nat → Bool) (dir : List (GCFile C))
    (cache : GCCache C) : List (GCFile C) × GCCache C × Bool :=
  let deadNames := (cache.filter
    (fun q => !(alive q.1.1) && (findFile dir q.1).isSome)).map Prod.fst
  (dir.filter (fun f => (f.pid, f.seq) ∉ deadNames),
   cache.filter (fun q => q.1 ∉ deadNames),
   !deadNames.isEmpty)

/-- `Array.from(configByFileName.values())`: the payload delivered to
every subscriber by `emit()`, and by `subscribe`'s immediate first
notification. -/
def gcValues {C : Type} (cache : GCCache C) : List C := cache.map Prod.snd

/-- Initialization of a fresh per-key watcher (`getGlobalContextWatcher`
for an unwatched key): `readAll()` then the initial `purge()`. -/
def watcherInit {C : Type} (minTime : Nat) (alive : Nat → Bool)
    (dir : List (GCFile C)) : List (GCFile C) × GCCache C × Bool :=
  let ra := readAll minTime dir
  purge alive ra.1 ra.2

/-! ## getAllGlobalContexts (src/utils/global-context.ts) -/

/-- The observable actions `getAllGlobalContexts`'s executor performs,
in order: unsubscribe its internal watcher, clear its timer, resolve
with a snapshot, or reject (`rejectWith none` is a bare `reject()`,
i.e. a rejection with `undefined` and no Error value). -/
inductive GAAction (C : Type) where
  | unwatch
  | clearTimer
  | resolveWith (configs : List C)
  | rejectWith (err : Option String)
deriving DecidableEq, Repr

/-- The delay passed to `setTimeout` in `getAllGlobalContexts`. -/
def getAllTimeoutMs : Nat := 500

/-- State of one `getAllGlobalContexts` call: whether its internal
watcher is subscribed, whether its timer is armed, and the promise
outcome (`Except` error payloads are `none` for `undefined`). -/
structure GASt (C : Type) where
  watched : Bool
  timerArmed : Bool
  outcome : Option (Except (Option String) (List C))

/-- Events that can reach one `getAllGlobalContexts` call. -/
inductive GAEv (C : Type) where
  | timeoutElapsed
  | changed (configs : List C)
  | errored (e : String)

/-- The timeout callback `() => { unwatch(); reject(); }`. -/
def gaTimeoutActions (C : Type) : List (GAAction C) :=
  [.unwatch, .rejectWith none]

/-- The `onChange` callback: `unwatch(); clearTimeout(timeout);
resolve(configs);`. -/
def gaChangeActions {C : Type} (configs : List C) : List (GAAction C) :=
  [.unwatch, .clearTimer, .resolveWith configs]

/-- The `onError` callback: `reject` with the error. -/
def gaErrorActions (C : Type) (e : String) : List (GAAction C) :=
  [.rejectWith (some e)]

/-- Apply one action to the state (a promise settles at most once). -/
def gaApply {C : Type} (st : GASt C) : GAAction C → GASt C
  | .unwatch => { st with watched := false }
  | .clearTimer => { st with timerArmed := false }
  | .resolveWith cs =>
    if st.outcome.isNone then { st with outcome := some (.ok cs) } else st
  | .rejectWith e =>
    if st.outcome.isNone then { st with outcome := some (.error e) } else st

/-- One event step: the fired callback's actions are applied in order
and also returned.  The timeout can fire only while armed; watcher
callbacks are delivered only while subscribed. -/
def gaStep {C : Type} (st : GASt C) : GAEv C → Option (GASt C × List (GAAction C))
  | .timeoutElapsed =>
    if st.timerArmed then
      some ((gaTimeoutActions C).foldl gaApply st, gaTimeoutActions C)
    else none
  | .changed configs =>
    if st.watched then
      some ((gaChangeActions configs).foldl gaApply st, gaChangeActions configs)
    else none
  | .errored e =>
    if st.watched then
      some ((gaErrorActions C e).foldl gaApply st, gaErrorActions C e)
    else none

/-- The state right after `getAllGlobalContexts` subscribes: watching,
timer armed, promise pending. -/
def gaInit (C : Type) : GASt C := ⟨true, true, none⟩

/-! ## Graph-codec verification infrastructure (C1, C10) -/

/-- `d` is the encoded form of the value `w` relative to the visited
map `c`: primitives encode as themselves, a function as its placeholder
string, and arrays/objects as their children's assigned ids (objects
after the `checker` filter). -/
inductive Encodes (c : List (JSVal × Nat)) (h : Heap) : JSVal → DNode → Prop where
  | prim (p : JSPrim) : Encodes c h (JSVal.prim p) (DNode.prim p)
  | func (r : Nat) (name : String) :
      lookupA h r = some (HObj.func name) →
      Encodes c h (JSVal.ref r) (DNode.prim (JSPrim.str (functionPlaceholder name)))
  | arr (r : Nat) (elems : List JSVal) (ids : List Nat) :
      lookupA h r = some (HObj.arr elems) →
      List.Forall₂ (fun e j => lookupA c e = some j) elems ids →
      Encodes c h (JSVal.ref r) (DNode.arr ids)
  | obj (r : Nat) (props : List (String × JSVal)) (pairs : List (String × Nat)) :
      lookupA h r = some (HObj.obj props) →
      List.Forall₂ (fun kv kj => kv.1 = kj.1 ∧ lookupA c kv.2 = some kj.2)
        (props.filter (fun kv => kv.1 ≠ "checker")) pairs →
      Encodes c h (JSVal.ref r) (DNode.obj pairs)

/-- Invariant of a `dehydrateValue` state: the visited map is a finite
map assigning one id per value (SameValueZero keys, distinct ids below
`nextId`), and every completed table entry is the faithful encoding of
its unique cached source value. -/
structure DWF (h : Heap) (s : DState) : Prop where
  keys_nodup : (s.cache.map Prod.fst).Nodup
  ids_nodup : (s.cache.map Prod.snd).Nodup
  ids_lt : ∀ q ∈ s.cache, q.2 < s.nextId
  table_nodup : (s.table.map Prod.fst).Nodup
  table_sub : ∀ q ∈ s.table, q.1 ∈ s.cache.map Prod.snd
  table_enc : ∀ q ∈ s.table, ∃ w, lookupA s.cache w = some q.1 ∧ Encodes s.cache h w q.2

/-- What one (completed) `serialize` call guarantees about its state
transition: cache and table grow, newly cached values have received a
table entry, new table entries belong to newly cached values, and the
invariant is preserved. -/
structure SerPost (h : Heap) (s sf : DState) : Prop where
  cache_ext : ∃ nc, sf.cache = nc ++ s.cache
  table_ext : ∃ nt, sf.table = nt ++ s.table
  nextId_le : s.nextId ≤ sf.nextId
  covered : ∀ j, j ∈ sf.cache.map Prod.snd → j ∉ s.cache.map Prod.snd →
    j ∈ sf.table.map Prod.fst
  tkeys_fresh : ∀ j, j ∈ sf.table.map Prod.fst → j ∉ s.table.map Prod.fst →
    j ∉ s.cache.map Prod.snd
  wf : DWF h sf

/-- The value `deserialize(value[k])` evaluates to: `undefined` for a
missing id, the primitive itself for a primitive node, and the
reconstructed object (identified with its id) for an array/object
node. -/
def nodeVal (t : DTable) (k : Nat) : JSVal :=
  match lookupA t k with
  | none => JSVal.prim JSPrim.undef
  | some (DNode.prim p) => JSVal.prim p
  | some (DNode.arr _) => JSVal.ref k
  | some (DNode.obj _) => JSVal.ref k

/-- Id `k` names an array/object node of the table (the nodes for which
`hydrateValue` allocates a fresh object). -/
def IsObjNode (t : DTable) (k : Nat) : Prop :=
  (∃ ids, lookupA t k = some (DNode.arr ids)) ∨
  (∃ pairs, lookupA t k = some (DNode.obj pairs))

/-- Id `k2` occurs as a child id of node `i` in the table. -/
def ChildIdOf (t : DTable) (i k2 : Nat) : Prop :=
  (∃ ids, lookupA t i = some (DNode.arr ids) ∧ k2 ∈ ids) ∨
  (∃ pairs, lookupA t i = some (DNode.obj pairs) ∧ ∃ key, (key, k2) ∈ pairs)

/-- The object `hydrateValue` reconstructs for id `i`. -/
def DecodesNode (t : DTable) (i : Nat) (o : HObj) : Prop :=
  (∃ ids, lookupA t i = some (DNode.arr ids) ∧ o = HObj.arr (ids.map (nodeVal t))) ∨
  (∃ pairs, lookupA t i = some (DNode.obj pairs) ∧
    o = HObj.obj (pairs.map (fun kj => (kj.1, nodeVal t kj.2))))

/-- Invariant of a `hydrateValue` state: visited ids are distinct,
pending array ids have been begun, the output heap has one correctly
decoded object per finished id, and the array/object children of every
finished node have been visited. -/
structure HWF (t : DTable) (s : HState) : Prop where
  visited_nodup : s.visited.Nodup
  pend_sub : ∀ j ∈ s.pending, j ∈ s.visited
  out_nodup : (s.out.map Prod.fst).Nodup
  out_sub : ∀ q ∈ s.out, q.1 ∈ s.visited
  out_content : ∀ q ∈ s.out, DecodesNode t q.1 q.2
  out_children : ∀ q ∈ s.out, ∀ k2, ChildIdOf t q.1 k2 → IsObjNode t k2 →
    k2 ∈ s.visited

/-- What one (completed) `deserialize` call guarantees about its state
transition; in particular every begun array is finished, so the pending
set is restored. -/
structure HPost (t : DTable) (s sf : HState) : Prop where
  vis_ext : ∃ nv, sf.visited = nv ++ s.visited
  out_ext : ∃ no2, sf.out = no2 ++ s.out
  pending_eq : sf.pending = s.pending
  covered : ∀ k, k ∈ sf.visited → k ∉ s.visited → k ∈ sf.out.map Prod.fst
  okeys_fresh : ∀ k, k ∈ sf.out.map Prod.fst → k ∉ s.out.map Prod.fst →
    k ∉ s.visited
  wf : HWF t sf

/-- A certificate that no cyclic reference chain of `h` passes through
an array: reference children of an array node get a strictly smaller
rank, reference children of an object node a rank at most as large. -/
def HeapRanked (h : Heap) (rank : Nat → Nat) : Prop :=
  (∀ r elems, lookupA h r = some (HObj.arr elems) →
    ∀ e ∈ elems, ∀ r2, e = JSVal.ref r2 → rank r2 < rank r) ∧
  (∀ r props, lookupA h r = some (HObj.obj props) →
    ∀ kv ∈ props, ∀ r2, kv.2 = JSVal.ref r2 → rank r2 ≤ rank r)

/-- The corresponding certificate on a dehydrated table: object/array
child ids of an array node rank strictly lower, those of an object node
not higher. -/
def TableRanked (t : DTable) (rank : Nat → Nat) : Prop :=
  (∀ k ids, lookupA t k = some (DNode.arr ids) →
    ∀ j ∈ ids, IsObjNode t j → rank j < rank k) ∧
  (∀ k pairs, lookupA t k = some (DNode.obj pairs) →
    ∀ q ∈ pairs, IsObjNode t q.2 → rank q.2 ≤ rank k)

/-- A heap representing a JavaScript value with no function and no
`null` anywhere and no property named `checker` (the class of inputs of
the amended round-trip claim), with valid addressing. -/
def CleanVal (h : Heap) : JSVal → Prop
  | JSVal.prim _ => True
  | JSVal.null => False
  | JSVal.ref r => r ∈ h.map Prod.fst

/-- Cleanliness of one heap object (see `CleanHeap`). -/
def CleanObj (h : Heap) : HObj → Prop
  | HObj.arr elems => ∀ e ∈ elems, CleanVal h e
  | HObj.obj props => ∀ kv ∈ props, kv.1 ≠ "checker" ∧ CleanVal h kv.2
  | HObj.func _ => False

/-- See `CleanVal`/`CleanObj`: distinct addresses, closed references,
no functions, no nulls, no `checker` keys. -/
def CleanHeap (h : Heap) : Prop :=
  (h.map Prod.fst).Nodup ∧ ∀ q ∈ h, CleanObj h q.2

/-- The number of heap objects not yet in the visited map, which bounds
the remaining recursion depth of `serialize`. -/
def unvisitedRefs (h : Heap) (c : List (JSVal × Nat)) : Nat :=
  (h.filter (fun q => lookupA c (JSVal.ref q.1) = none)).length

/-- The number of table ids not yet visited, which bounds the remaining
recursion depth of `deserialize`. -/
def unvisitedIds (t : DTable) (vis : List Nat) : Nat :=
  (t.filter (fun q => q.1 ∉ vis)).length

/-- Value correspondence under a relation on heap addresses: equal
primitives, related references. -/
def MatchedVal (Rel : Nat → Nat → Prop) : JSVal → JSVal → Prop
  | JSVal.prim p, JSVal.prim q => p = q
  | JSVal.ref r, JSVal.ref i => Rel r i
  | JSVal.null, JSVal.null => True
  | _, _ => False

/-- Structural correspondence of two heap objects: same shape, same
keys in the same order, corresponding values matched. -/
def MatchedObj (Rel : Nat → Nat → Prop) : HObj → HObj → Prop
  | HObj.arr es, HObj.arr es2 => List.Forall₂ (MatchedVal Rel) es es2
  | HObj.obj ps, HObj.obj ps2 =>
    List.Forall₂ (fun a b => a.1 = b.1 ∧ MatchedVal Rel a.2 b.2) ps ps2
  | HObj.func n1, HObj.func n2 => n1 = n2
  | _, _ => False

/-- `Rel` is a bisimulation between the input heap and the
reconstructed heap: related addresses hold structurally matched objects
with related children. -/
def IsBisim (h : Heap) (out : List (Nat × HObj)) (Rel : Nat → Nat → Prop) : Prop :=
  ∀ r i, Rel r i → ∃ n n2, lookupA h r = some n ∧ lookupA out i = some n2 ∧
    MatchedObj Rel n n2

/-- Deep equality with aliasing preservation between the value `v` of
heap `h` and the value `w` of heap `out`: some bisimulation relates the
roots, and it is right-unique, so any two properties of `v` aliasing
the same sub-object are matched by one single reconstructed object. -/
def DeepEqualAliased (h : Heap) (v : JSVal) (out : List (Nat × HObj)) (w : JSVal) : Prop :=
  ∃ Rel : Nat → Nat → Prop, MatchedVal Rel v w ∧ IsBisim h out Rel ∧
    ∀ r i j, Rel r i → Rel r j → i = j

/-- Keys of the correlation maps stay below the `n` counter. -/
def ChanBounded (st : ChanSt) : Prop :=
  (∀ n ∈ st.entries, n < st.nextN) ∧
  (∀ q ∈ st.promises, q.1 < st.nextN) ∧
  (∀ q ∈ st.timers, q.1 < st.nextN)

/-! ## General lemmas -/

theorem lookupA_mem {α β : Type} [DecidableEq α] {l : List (α × β)} {a : α} {b : β}
    (h : lookupA l a = some b) : (a, b) ∈ l := by
  induction l with
  | nil => simp [lookupA] at h
  | cons q rest ih =>
    obtain ⟨k, v⟩ := q
    by_cases hk : a = k
    · subst hk
      simp [lookupA] at h
      simp [h]
    · simp [lookupA, hk] at h
      exact List.mem_cons_of_mem _ (ih h)

theorem lookupA_cons_ne {α β : Type} [DecidableEq α] {k a : α} {v : β}
    (l : List (α × β)) (h : a ≠ k) : lookupA ((k, v) :: l) a = lookupA l a := by
  simp [lookupA, h]

theorem lookupA_cons_self {α β : Type} [DecidableEq α] {k : α} {v : β}
    (l : List (α × β)) : lookupA ((k, v) :: l) k = some v := by
  simp [lookupA]

theorem except_bind_ok {E A B : Type} (a : A) (f : A → Except E B) :
    (do let x ← Except.ok (ε := E) a; f x) = f a := rfl

theorem except_bind_err {E A B : Type} (e : E) (f : A → Except E B) :
    (do let x ← Except.error (α := A) e; f x) = Except.error (α := B) e := rfl

theorem except_map_ok {E A B : Type} (f : A → B) (a : A) :
    Except.map f (Except.ok (ε := E) a) = Except.ok (f a) := rfl

theorem except_map_err {E A B : Type} (f : A → B) (e : E) :
    Except.map f (Except.error (α := A) e) = Except.error (α := B) e := rfl

/-! ## Claim theorems -/

/-- C5: for the cyclic object `a` with `a.self === a` (heap address 0),
`dehydrateValue` terminates, returning the one-node table
`{0: {self: 0}}`, and hydrating that table yields a root `r` whose
`self` property is the very same reconstructed object: `r.self === r`
(the root is the reference to address 0 of the output heap, and the
object stored there has its `self` property equal to that same
reference). -/
theorem dehydrate_hydrate_cyclic_self :
    dehydrateValue [(0, HObj.obj [("self", JSVal.ref 0)])] (JSVal.ref 0)
      = Except.ok [(0, DNode.obj [("self", 0)])] ∧
    hydrateValue [(0, DNode.obj [("self", 0)])]
      = Except.ok (JSVal.ref 0, [(0, HObj.obj [("self", JSVal.ref 0)])]) := by
  constructor
  · simp [dehydrateValue, dehydrateRun, serialize, serializeList, serializeProps,
      lookupA, except_bind_ok, except_map_ok]
  · simp [hydrateValue, deserialize, deserializeList, deserializeProps,
      lookupA, except_bind_ok, except_map_ok]

/-- C6 (counterexample): `hydrateValue` applied to the non-empty input
`{1: 5}`, whose mapping has no entry for id 0, does not fail with a
hydration error — it returns the value `undefined` (`deserialize` of
the missing `value[0]`). -/
theorem hydrate_missing_root_returns_undefined :
    hydrateValue [(1, DNode.prim (.num 5))]
      = Except.ok (JSVal.prim JSPrim.undef, []) ∧
    ∀ e, hydrateValue [(1, DNode.prim (.num 5))] ≠ Except.error e := by
  have h : hydrateValue [(1, DNode.prim (.num 5))]
      = Except.ok (JSVal.prim JSPrim.undef, []) := by
    simp [hydrateValue, deserialize, lookupA, except_bind_ok, except_map_ok]
  refine ⟨h, ?_⟩
  intro e he
  rw [h] at he
  exact Except.noConfusion he

/-- C6 (amended): `hydrateValue` on the empty input fails with the
hydration error; on a non-empty input whose mapping has no entry for
id 0 it does not fail but returns `undefined` (with no objects
reconstructed). -/
theorem hydrate_empty_or_missing_root (t : DTable) (hne : t ≠ [])
    (h0 : lookupA t 0 = none) :
    hydrateValue [] = Except.error (JSErr.jsError "Hydration error") ∧
    hydrateValue t = Except.ok (JSVal.prim JSPrim.undef, []) := by
  constructor
  · rfl
  · simp [hydrateValue, hne, deserialize, h0, except_bind_ok]

/-- C6 (witness for the amended theorem). -/
theorem hydrate_empty_or_missing_root_witness :
    hydrateValue [] = Except.error (JSErr.jsError "Hydration error") ∧
    hydrateValue [(1, DNode.prim (.num 5))]
      = Except.ok (JSVal.prim JSPrim.undef, []) :=
  hydrate_empty_or_missing_root [(1, DNode.prim (.num 5))] (by decide) (by decide)

/-- C7: when an incoming numbered request frame's key has no handler in
the registry, the channel sends back exactly one synthesized error
response (`isError` set) whose body is the stack of the
`no handler for key` error; when a handler is found, its result — or
its thrown error — becomes the single response frame. -/
theorem request_dispatch (registry : List (String × Handler)) (m : Nat)
    (key : String) (body : JSVal) :
    (lookupA registry key = none →
      messageHandlerRequest registry (some m) key body
        = [⟨m, true, MCBody.errStack (noHandlerStack key)⟩]) ∧
    (∀ f, lookupA registry key = some f →
      messageHandlerRequest registry (some m) key body
        = [match f body with
           | .ok response => ⟨m, false, MCBody.val response⟩
           | .error stack => ⟨m, true, MCBody.errStack stack⟩]) := by
  constructor
  · intro h
    simp [messageHandlerRequest, h]
  · intro f h
    simp only [messageHandlerRequest, h]
    cases f body <;> rfl

/-- C7 (witness). -/
theorem request_dispatch_witness :
    messageHandlerRequest [] (some 3) "foo" JSVal.null
      = [⟨3, true, MCBody.errStack (noHandlerStack "foo")⟩] :=
  (request_dispatch [] 3 "foo" JSVal.null).1 rfl

/-- C2 (counterexample): with three connected clients, the second of
which throws inside its handler, the host's broadcast
`handlers.invoke` does not resolve with an array of length 3 — the
`Promise.all` rejects with the failing connection's error, so the call
rejects as a whole. -/
theorem broadcast_invoke_rejects_on_one_failure :
    hostInvoke
        [⟨fun _ _ => Except.ok (JSVal.prim (JSPrim.num 1))⟩,
         ⟨fun _ _ => Except.error "Error: boom"⟩,
         ⟨fun _ _ => Except.ok (JSVal.prim (JSPrim.num 2))⟩]
        "key" JSVal.null
      = Except.error "Error: boom" ∧
    ∀ results : List JSVal,
      hostInvoke
          [⟨fun _ _ => Except.ok (JSVal.prim (JSPrim.num 1))⟩,
           ⟨fun _ _ => Except.error "Error: boom"⟩,
           ⟨fun _ _ => Except.ok (JSVal.prim (JSPrim.num 2))⟩]
          "key" JSVal.null
        ≠ Except.ok results := by
  refine ⟨rfl, ?_⟩
  intro results h
  rw [show hostInvoke
        [⟨fun _ _ => Except.ok (JSVal.prim (JSPrim.num 1))⟩,
         ⟨fun _ _ => Except.error "Error: boom"⟩,
         ⟨fun _ _ => Except.ok (JSVal.prim (JSPrim.num 2))⟩]
        "key" JSVal.null = Except.error "Error: boom" from rfl] at h
  exact Except.noConfusion h

theorem promiseAll_ok_of_all_ok {E A : Type} {xs : List (Except E A)}
    (h : ∀ x ∈ xs, ∃ a, x = Except.ok a) :
    ∃ l, promiseAll xs = Except.ok l ∧
      List.Forall₂ (fun x a => x = Except.ok a) xs l := by
  induction xs with
  | nil => exact ⟨[], rfl, List.Forall₂.nil⟩
  | cons x rest ih =>
    obtain ⟨a, ha⟩ := h x (List.mem_cons_self x rest)
    obtain ⟨l, hl, hf⟩ := ih (fun y hy => h y (List.mem_cons_of_mem x hy))
    subst ha
    exact ⟨a :: l, by simp [promiseAll, hl, except_map_ok], List.Forall₂.cons rfl hf⟩

theorem promiseAll_error_of_mem {E A : Type} {xs : List (Except E A)} {e : E}
    (hmem : Except.error e ∈ xs) :
    ∃ e2, promiseAll xs = Except.error e2 ∧ Except.error e2 ∈ xs := by
  induction xs with
  | nil => simp at hmem
  | cons x rest ih =>
    match x with
    | .error e1 => exact ⟨e1, rfl, List.mem_cons_self _ _⟩
    | .ok a =>
      have hmem1 : Except.error e ∈ rest := by
        rcases List.mem_cons.mp hmem with h | h
        · exact absurd h (by simp)
        · exact h
      obtain ⟨e2, he2, hin⟩ := ih hmem1
      refine ⟨e2, by simp [promiseAll, he2, except_map_err], List.mem_cons_of_mem _ hin⟩

/-- C2 (amended): the host's broadcast `handlers.invoke` resolves with
the array of all connections' results in connection-set iteration order
when every connection's request fulfils; but if any individual
connection's request fails, the whole fan-out rejects with a failing
connection's error instead of resolving with that connection's entry
rejected in place. -/
theorem hostInvoke_allOrNothing (conns : List BroadcastConn) (key : String)
    (body : JSVal) :
    ((∀ c ∈ conns, ∃ v, c.respond key body = Except.ok v) →
      ∃ results, hostInvoke conns key body = Except.ok results ∧
        List.Forall₂ (fun (c : BroadcastConn) v => c.respond key body = Except.ok v)
          conns results) ∧
    (∀ c ∈ conns, ∀ e, c.respond key body = Except.error e →
      ∃ e2 c2, c2 ∈ conns ∧ c2.respond key body = Except.error e2 ∧
        hostInvoke conns key body = Except.error e2) := by
  constructor
  · intro h
    have hall : ∀ x ∈ conns.map (fun child => child.respond key body),
        ∃ a, x = Except.ok a := by
      intro x hx
      obtain ⟨c, hc, rfl⟩ := List.mem_map.mp hx
      exact h c hc
    obtain ⟨l, hl, hf⟩ := promiseAll_ok_of_all_ok hall
    refine ⟨l, hl, ?_⟩
    have := List.forall₂_map_left_iff.mp hf
    exact this
  · intro c hc e he
    have hmem : Except.error e ∈ conns.map (fun child => child.respond key body) :=
      List.mem_map.mpr ⟨c, hc, he⟩
    obtain ⟨e2, he2, hin⟩ := promiseAll_error_of_mem hmem
    obtain ⟨c2, hc2, hrc2⟩ := List.mem_map.mp hin
    exact ⟨e2, c2, hc2, hrc2, he2⟩

/-- C2 (witness for the amended theorem). -/
theorem hostInvoke_allOrNothing_witness :
    ∃ e2 c2, c2 ∈ [BroadcastConn.mk (fun _ _ => Except.error "Error: boom")] ∧
      c2.respond "key" JSVal.null = Except.error e2 ∧
      hostInvoke [BroadcastConn.mk (fun _ _ => Except.error "Error: boom")]
          "key" JSVal.null = Except.error e2 :=
  (hostInvoke_allOrNothing [⟨fun _ _ => Except.error "Error: boom"⟩] "key" JSVal.null).2
    ⟨fun _ _ => Except.error "Error: boom"⟩ (List.mem_cons_self _ _) "Error: boom" rfl

/-- C9: the `setTimeout` of `getAllGlobalContexts` is created with a
500 ms delay, and if it fires before any snapshot observation the
callback performs, in order, first the `unwatch()` of its internal
watcher and then a bare `reject()` — leaving the watcher unsubscribed
and the promise rejected with `undefined` (no Error value). -/
theorem getAll_timeout_unwatch_then_reject (C : Type) :
    getAllTimeoutMs = 500 ∧
    gaStep (gaInit C) GAEv.timeoutElapsed
      = some (⟨false, true, some (Except.error none)⟩,
              [GAAction.unwatch, GAAction.rejectWith none]) ∧
    ∀ st2 acts, gaStep (gaInit C) GAEv.timeoutElapsed = some (st2, acts) →
      st2.watched = false ∧ st2.outcome = some (Except.error none) := by
  refine ⟨rfl, rfl, ?_⟩
  intro st2 acts h
  have h2 : some ((⟨false, true, some (Except.error none)⟩ : GASt C),
      [GAAction.unwatch, GAAction.rejectWith none]) = some (st2, acts) := by
    rw [← h]; rfl
  have h3 : (⟨false, true, some (Except.error none)⟩ : GASt C) = st2 :=
    congrArg Prod.fst (Option.some.inj h2)
  rw [← h3]
  exact ⟨rfl, rfl⟩

/-- C9 (witness). -/
theorem getAll_timeout_unwatch_then_reject_witness :
    ((⟨false, true, some (Except.error none)⟩ : GASt Nat)).watched = false ∧
    ((⟨false, true, some (Except.error none)⟩ : GASt Nat)).outcome
      = some (Except.error none) :=
  (getAll_timeout_unwatch_then_reject Nat).2.2
    ⟨false, true, some (Except.error none)⟩
    [GAAction.unwatch, GAAction.rejectWith none] rfl

/-- C8: after `exposeGlobalContext` writes the entry into an empty
per-key directory, a new watch subscription's first notification
delivers exactly `[context]` (the watcher init `readAll` keeps the
fresh file and the initial purge keeps the live writer's entry); and
once the writer process is dead, the next liveness sweep (`purge`)
deletes the entry's file, empties the cache, sets the `purged` flag —
so `emit()` re-notifies watchers — and the re-notification delivers the
empty set `[]`. -/
theorem globalContext_expose_watch_purge {C : Type} (context : C)
    (pid seq now minTime lastCalled now2 : Nat) (alive1 alive2 : Nat → Bool)
    (hfresh : minTime ≤ now) (halive : alive1 pid = true)
    (hdead : alive2 pid = false)
    (hsweep : throttleFires 5000 lastCalled now2 = true) :
    gcValues (watcherInit minTime alive1
        (exposeGlobalContext pid seq now context [])).2.1 = [context] ∧
    purge alive2 (watcherInit minTime alive1
        (exposeGlobalContext pid seq now context [])).1
      (watcherInit minTime alive1
        (exposeGlobalContext pid seq now context [])).2.1
      = ([], [], true) ∧
    gcValues (purge alive2 (watcherInit minTime alive1
        (exposeGlobalContext pid seq now context [])).1
      (watcherInit minTime alive1
        (exposeGlobalContext pid seq now context [])).2.1).2.1 = [] := by
  have hw : watcherInit minTime alive1 (exposeGlobalContext pid seq now context [])
      = ([⟨pid, seq, now, context⟩], [((pid, seq), context)], false) := by
    simp [watcherInit, exposeGlobalContext, readAll, purge, hfresh, halive]
  have hp : purge alive2 [(⟨pid, seq, now, context⟩ : GCFile C)] [((pid, seq), context)]
      = ([], [], true) := by
    simp [purge, hdead, findFile]
  rw [hw]
  refine ⟨rfl, hp, ?_⟩
  rw [hp]
  rfl

/-- C8 (witness). -/
theorem globalContext_expose_watch_purge_witness :
    gcValues (watcherInit 10 (fun _ => true)
        (exposeGlobalContext 42 10001 50 (7 : Nat) [])).2.1 = [7] :=
  (globalContext_expose_watch_purge 7 42 10001 50 10 0 6000
    (fun _ => true) (fun _ => false) (by decide) rfl rfl (by decide)).1

/-! ### Pending-request lifecycle lemmas (C3) -/

theorem lookupA_map_keyfix {α β : Type} [DecidableEq α] {f : α × β → α × β}
    (hf : ∀ q, (f q).1 = q.1) (l : List (α × β)) (a : α) :
    lookupA (l.map f) a = (lookupA l a).map (fun b => (f (a, b)).2) := by
  induction l with
  | nil => rfl
  | cons q rest ih =>
    obtain ⟨k, v⟩ := q
    have hfa : f (k, v) = (k, (f (k, v)).2) := by
      have h0 := hf (k, v)
      conv_lhs => rw [← Prod.mk.eta (p := f (k, v))]
      rw [h0]
    by_cases hk : a = k
    · subst hk
      rw [List.map_cons, hfa, lookupA_cons_self, lookupA_cons_self,
        Option.map_some']
    · rw [List.map_cons, hfa, lookupA_cons_ne _ hk, lookupA_cons_ne _ hk, ih]

theorem settlePromise_lookupA (ps : List (Nat × PromiseSt)) (n m : Nat)
    (x : PromiseSt) :
    lookupA (settlePromise ps n x) m
      = (lookupA ps m).map
          (fun b => if m = n then (if b = .pending then x else b) else b) := by
  have hf : ∀ q : Nat × PromiseSt,
      ((fun q => if q.1 = n then (if q.2 = PromiseSt.pending then (q.1, x) else q) else q) q).1
        = q.1 := by
    intro q
    by_cases h1 : q.1 = n <;> by_cases h2 : q.2 = PromiseSt.pending <;> simp [h1, h2]
  refine (lookupA_map_keyfix hf ps m).trans ?_
  cases lookupA ps m with
  | none => rfl
  | some b =>
    simp only [Option.map_some']
    by_cases h1 : m = n <;> by_cases h2 : b = PromiseSt.pending <;> simp [h1, h2]

theorem clearTimer_lookupA (ts : List (Nat × TimerSt)) (n m : Nat) :
    lookupA (clearTimer ts n) m
      = (lookupA ts m).map
          (fun b => if m = n ∧ b = .armed then TimerSt.cleared else b) := by
  have hf : ∀ q : Nat × TimerSt,
      ((fun q => if q.1 = n ∧ q.2 = TimerSt.armed then (q.1, TimerSt.cleared) else q) q).1
        = q.1 := by
    intro q
    by_cases h1 : q.1 = n ∧ q.2 = TimerSt.armed <;> simp [h1]
  refine (lookupA_map_keyfix hf ts m).trans ?_
  cases lookupA ts m with
  | none => rfl
  | some b =>
    simp only [Option.map_some']
    by_cases h1 : m = n ∧ b = TimerSt.armed <;> simp [h1]

theorem fireTimer_lookupA (ts : List (Nat × TimerSt)) (n m : Nat) :
    lookupA (ts.map (fun q => if q.1 = n then (q.1, TimerSt.fired) else q)) m
      = (lookupA ts m).map (fun b => if m = n then TimerSt.fired else b) := by
  have hf : ∀ q : Nat × TimerSt,
      ((fun q => if q.1 = n then (q.1, TimerSt.fired) else q) q).1 = q.1 := by
    intro q
    by_cases h1 : q.1 = n <;> simp [h1]
  refine (lookupA_map_keyfix hf ts m).trans ?_
  cases lookupA ts m with
  | none => rfl
  | some b =>
    simp only [Option.map_some']
    by_cases h1 : m = n <;> simp [h1]

theorem noResponseFor_nil (n : Nat) : NoResponseFor [] n := by
  intro b m h
  simp at h

theorem noResponseFor_cons {e : ChanEv} {evs : List ChanEv} {n : Nat} :
    NoResponseFor (e :: evs) n
      ↔ ((∀ b m, e ≠ ChanEv.response n b m) ∧ NoResponseFor evs n) := by
  constructor
  · intro h
    refine ⟨fun b m he => ?_, fun b m hm => h b m (List.mem_cons_of_mem e hm)⟩
    exact h b m (he ▸ List.mem_cons_self e evs)
  · rintro ⟨h1, h2⟩ b m hm
    rcases List.mem_cons.mp hm with h | h
    · exact h1 b m h.symm
    · exact h2 b m h

theorem chanStep_bounded {st st' : ChanSt} {e : ChanEv}
    (h : chanStep st e = some st') (hb : ChanBounded st) :
    ChanBounded st' ∧ st.nextN ≤ st'.nextN := by
  obtain ⟨hb1, hb2, hb3⟩ := hb
  cases e with
  | request =>
    simp only [chanStep, Option.some.injEq] at h
    subst h
    refine ⟨⟨?_, ?_, ?_⟩, Nat.le_succ _⟩
    · intro n hn
      rcases List.mem_cons.mp hn with h | h
      · rw [h]
        exact Nat.lt_succ_self _
      · exact Nat.lt_succ_of_lt (hb1 n h)
    · intro q hq
      rcases List.mem_cons.mp hq with h | h
      · rw [h]
        exact Nat.lt_succ_self _
      · exact Nat.lt_succ_of_lt (hb2 q h)
    · intro q hq
      rcases List.mem_cons.mp hq with h | h
      · rw [h]
        exact Nat.lt_succ_self _
      · exact Nat.lt_succ_of_lt (hb3 q h)
  | timeoutFire n =>
    simp only [chanStep] at h
    by_cases hg : lookupA st.timers n = some TimerSt.armed
    · rw [if_pos hg] at h
      obtain rfl := Option.some.inj h
      refine ⟨⟨hb1, ?_, ?_⟩, Nat.le_refl _⟩
      · intro q hq
        obtain ⟨q0, hq0, rfl⟩ := List.mem_map.mp hq
        have : ((fun q => if q.1 = n then (if q.2 = PromiseSt.pending
            then (q.1, PromiseSt.rejectedTimeout) else q) else q) q0).1 = q0.1 := by
          by_cases h1 : q0.1 = n <;> by_cases h2 : q0.2 = PromiseSt.pending <;>
            simp [h1, h2]
        rw [this]
        exact hb2 q0 hq0
      · intro q hq
        obtain ⟨q0, hq0, rfl⟩ := List.mem_map.mp hq
        have : ((fun q => if q.1 = n then (q.1, TimerSt.fired) else q) q0).1 = q0.1 := by
          by_cases h1 : q0.1 = n <;> simp [h1]
        rw [this]
        exact hb3 q0 hq0
    · rw [if_neg hg] at h
      exact Option.noConfusion h
  | response n isError body =>
    simp only [chanStep] at h
    by_cases hg : n ∈ st.entries
    · rw [if_pos hg] at h
      obtain rfl := Option.some.inj h
      refine ⟨⟨?_, ?_, ?_⟩, Nat.le_refl _⟩
      · intro m hm
        exact hb1 m (List.mem_of_mem_filter hm)
      · intro q hq
        obtain ⟨q0, hq0, rfl⟩ := List.mem_map.mp hq
        have : ((fun q => if q.1 = n then (if q.2 = PromiseSt.pending
            then (q.1, if isError then PromiseSt.rejectedResponse body
                       else PromiseSt.fulfilled body) else q) else q) q0).1 = q0.1 := by
          by_cases h1 : q0.1 = n <;> by_cases h2 : q0.2 = PromiseSt.pending <;>
            simp [h1, h2]
        rw [this]
        exact hb2 q0 hq0
      · intro q hq
        obtain ⟨q0, hq0, rfl⟩ := List.mem_map.mp hq
        have : ((fun q => if q.1 = n ∧ q.2 = TimerSt.armed
            then (q.1, TimerSt.cleared) else q) q0).1 = q0.1 := by
          by_cases h1 : q0.1 = n ∧ q0.2 = TimerSt.armed <;> simp [h1]
        rw [this]
        exact hb3 q0 hq0
    · rw [if_neg hg] at h
      exact Option.noConfusion h

theorem chanRun_aux :
    ∀ (evs : List ChanEv) (st0 st : ChanSt),
      List.foldlM chanStep st0 evs = some st → ChanBounded st0 →
      st0.nextN ≤ st.nextN ∧ ChanBounded st ∧
      (∀ n, n ∈ st.entries ↔
        ((n ∈ st0.entries ∨ (st0.nextN ≤ n ∧ n < st.nextN)) ∧ NoResponseFor evs n)) := by
  intro evs
  induction evs with
  | nil =>
    intro st0 st h hb
    rw [List.foldlM_nil] at h
    obtain rfl := Option.some.inj h
    refine ⟨Nat.le_refl _, hb, fun n => ?_⟩
    constructor
    · intro hn
      exact ⟨Or.inl hn, noResponseFor_nil n⟩
    · rintro ⟨h1 | ⟨h1, h2⟩, _⟩
      · exact h1
      · exact absurd h2 (Nat.not_lt.mpr h1)
  | cons e evs ih =>
    intro st0 st h hb
    rw [List.foldlM_cons] at h
    cases hstep : chanStep st0 e with
    | none => rw [hstep] at h; exact Option.noConfusion h
    | some st1 =>
      rw [hstep] at h
      simp only [Option.bind_eq_bind, Option.some_bind] at h
      obtain ⟨hb1, hle1⟩ := chanStep_bounded hstep hb
      obtain ⟨hle2, hbst, hiff⟩ := ih st1 st h hb1
      refine ⟨Nat.le_trans hle1 hle2, hbst, fun n => ?_⟩
      rw [hiff n, noResponseFor_cons]
      cases e with
      | request =>
        simp only [chanStep, Option.some.injEq] at hstep
        subst hstep
        have hne : ∀ (b : Bool) (m : MCBody), ChanEv.request ≠ ChanEv.response n b m := by
          intro b m hcontra
          exact ChanEv.noConfusion hcontra
        constructor
        · rintro ⟨h1 | ⟨h1, h2⟩, h3⟩
          · rcases List.mem_cons.mp h1 with h4 | h4
            · subst h4
              exact ⟨Or.inr ⟨Nat.le_refl _,
                Nat.lt_of_lt_of_le (Nat.lt_succ_self _) hle2⟩, hne, h3⟩
            · exact ⟨Or.inl h4, hne, h3⟩
          · exact ⟨Or.inr ⟨Nat.le_of_succ_le h1, h2⟩, hne, h3⟩
        · rintro ⟨h1 | ⟨h1, h2⟩, _, h3⟩
          · exact ⟨Or.inl (List.mem_cons_of_mem _ h1), h3⟩
          · by_cases h4 : n = st0.nextN
            · exact ⟨Or.inl (h4 ▸ List.mem_cons_self _ _), h3⟩
            · exact ⟨Or.inr ⟨Nat.succ_le_of_lt
                (Nat.lt_of_le_of_ne h1 (fun he => h4 he.symm)), h2⟩, h3⟩
      | timeoutFire m =>
        simp only [chanStep] at hstep
        by_cases hg : lookupA st0.timers m = some TimerSt.armed
        · rw [if_pos hg] at hstep
          obtain rfl := (Option.some.inj hstep)
          have hne : ∀ (b : Bool) (mb : MCBody),
              ChanEv.timeoutFire m ≠ ChanEv.response n b mb := by
            intro b mb hcontra
            exact ChanEv.noConfusion hcontra
          constructor
          · rintro ⟨h1, h3⟩
            exact ⟨h1, hne, h3⟩
          · rintro ⟨h1, _, h3⟩
            exact ⟨h1, h3⟩
        · rw [if_neg hg] at hstep
          exact Option.noConfusion hstep
      | response m isErr body =>
        simp only [chanStep] at hstep
        by_cases hg : m ∈ st0.entries
        · rw [if_pos hg] at hstep
          obtain rfl := (Option.some.inj hstep)
          by_cases hnm : n = m
          · subst hnm
            constructor
            · rintro ⟨h1 | ⟨h1, h2⟩, h3⟩
              · exact absurd (List.of_mem_filter h1) (by simp)
              · exact absurd h1 (Nat.not_le.mpr (hb.1 n hg))
            · rintro ⟨h1, h4, h3⟩
              exact absurd rfl (h4 isErr body)
          · have hmem : n ∈ st0.entries.filter (fun k => k ≠ m) ↔ n ∈ st0.entries := by
              constructor
              · exact fun h1 => List.mem_of_mem_filter h1
              · intro h1
                refine List.mem_filter.mpr ⟨h1, by simp [hnm]⟩
            have hne : ∀ (b : Bool) (mb : MCBody),
                ChanEv.response m isErr body ≠ ChanEv.response n b mb := by
              intro b mb hcontra
              injection hcontra with h5 _ _
              exact hnm h5.symm
            constructor
            · rintro ⟨h1 | ⟨h1, h2⟩, h3⟩
              · exact ⟨Or.inl (hmem.mp h1), hne, h3⟩
              · exact ⟨Or.inr ⟨h1, h2⟩, hne, h3⟩
            · rintro ⟨h1 | ⟨h1, h2⟩, _, h3⟩
              · exact ⟨Or.inl (hmem.mpr h1), h3⟩
              · exact ⟨Or.inr ⟨h1, h2⟩, h3⟩
        · rw [if_neg hg] at hstep
          exact Option.noConfusion hstep

theorem chanStep_promise_persist {st st' : ChanSt} {e : ChanEv} {n : Nat}
    {p : PromiseSt} (h : chanStep st e = some st') (hb : ChanBounded st)
    (hp : lookupA st.promises n = some p) (hnp : p ≠ PromiseSt.pending) :
    lookupA st'.promises n = some p := by
  cases e with
  | request =>
    simp only [chanStep, Option.some.injEq] at h
    subst h
    have hlt : n < st.nextN := hb.2.1 (n, p) (lookupA_mem hp)
    have hne : n ≠ st.nextN := Nat.ne_of_lt hlt
    show lookupA ((st.nextN, PromiseSt.pending) :: st.promises) n = some p
    rw [lookupA_cons_ne _ hne]
    exact hp
  | timeoutFire m =>
    simp only [chanStep] at h
    by_cases hg : lookupA st.timers m = some TimerSt.armed
    · rw [if_pos hg] at h
      obtain rfl := Option.some.inj h
      show lookupA (settlePromise st.promises m PromiseSt.rejectedTimeout) n = some p
      rw [settlePromise_lookupA, hp, Option.map_some']
      by_cases h1 : n = m <;> simp [h1, hnp]
    · rw [if_neg hg] at h
      exact Option.noConfusion h
  | response m isErr body =>
    simp only [chanStep] at h
    by_cases hg : m ∈ st.entries
    · rw [if_pos hg] at h
      obtain rfl := Option.some.inj h
      show lookupA (settlePromise st.promises m _) n = some p
      rw [settlePromise_lookupA, hp, Option.map_some']
      by_cases h1 : n = m <;> simp [h1, hnp]
    · rw [if_neg hg] at h
      exact Option.noConfusion h

theorem chanStep_timer_unarmed_persist {st st' : ChanSt} {e : ChanEv} {n : Nat}
    (h : chanStep st e = some st') (hn : n < st.nextN)
    (ht : lookupA st.timers n ≠ some TimerSt.armed) :
    lookupA st'.timers n ≠ some TimerSt.armed ∧ n < st'.nextN := by
  cases e with
  | request =>
    simp only [chanStep, Option.some.injEq] at h
    subst h
    have hne : n ≠ st.nextN := Nat.ne_of_lt hn
    constructor
    · show lookupA ((st.nextN, TimerSt.armed) :: st.timers) n ≠ some TimerSt.armed
      rw [lookupA_cons_ne _ hne]
      exact ht
    · exact Nat.lt_succ_of_lt hn
  | timeoutFire m =>
    simp only [chanStep] at h
    by_cases hg : lookupA st.timers m = some TimerSt.armed
    · rw [if_pos hg] at h
      obtain rfl := Option.some.inj h
      refine ⟨?_, hn⟩
      show lookupA (st.timers.map _) n ≠ some TimerSt.armed
      rw [fireTimer_lookupA]
      cases hl : lookupA st.timers n with
      | none => simp
      | some b =>
        have hb2 : b ≠ TimerSt.armed := fun hcontra => ht (hcontra ▸ hl)
        by_cases h1 : n = m <;> simp [h1, hb2]
    · rw [if_neg hg] at h
      exact Option.noConfusion h
  | response m isErr body =>
    simp only [chanStep] at h
    by_cases hg : m ∈ st.entries
    · rw [if_pos hg] at h
      obtain rfl := Option.some.inj h
      refine ⟨?_, hn⟩
      show lookupA (clearTimer st.timers m) n ≠ some TimerSt.armed
      rw [clearTimer_lookupA]
      cases hl : lookupA st.timers n with
      | none => simp
      | some b =>
        have hb2 : b ≠ TimerSt.armed := fun hcontra => ht (hcontra ▸ hl)
        by_cases h1 : n = m ∧ b = TimerSt.armed <;> simp [h1, hb2]
    · rw [if_neg hg] at h
      exact Option.noConfusion h

theorem chanStep_response_unarms {st st' : ChanSt} {n : Nat} {b : Bool}
    {m : MCBody} (h : chanStep st (ChanEv.response n b m) = some st')
    (hb : ChanBounded st) :
    lookupA st'.timers n ≠ some TimerSt.armed ∧ n < st'.nextN := by
  simp only [chanStep] at h
  by_cases hg : n ∈ st.entries
  · rw [if_pos hg] at h
    obtain rfl := Option.some.inj h
    refine ⟨?_, hb.1 n hg⟩
    show lookupA (clearTimer st.timers n) n ≠ some TimerSt.armed
    rw [clearTimer_lookupA]
    cases hl : lookupA st.timers n with
    | none => simp
    | some x =>
      by_cases h1 : x = TimerSt.armed <;> simp [h1]
  · rw [if_neg hg] at h
    exact Option.noConfusion h

theorem chanRun_promise_persist_aux :
    ∀ (evs : List ChanEv) (st0 st : ChanSt) (n : Nat) (p : PromiseSt),
      List.foldlM chanStep st0 evs = some st → ChanBounded st0 →
      lookupA st0.promises n = some p → p ≠ PromiseSt.pending →
      lookupA st.promises n = some p := by
  intro evs
  induction evs with
  | nil =>
    intro st0 st n p h _ hp _
    rw [List.foldlM_nil] at h
    obtain rfl := Option.some.inj h
    exact hp
  | cons e evs ih =>
    intro st0 st n p h hb hp hnp
    rw [List.foldlM_cons] at h
    cases hstep : chanStep st0 e with
    | none => rw [hstep] at h; exact Option.noConfusion h
    | some st1 =>
      rw [hstep] at h
      simp only [Option.bind_eq_bind, Option.some_bind] at h
      exact ih st1 st n p h (chanStep_bounded hstep hb).1
        (chanStep_promise_persist hstep hb hp hnp) hnp

theorem chanRun_timer_unarmed_aux :
    ∀ (evs : List ChanEv) (st0 st : ChanSt) (n : Nat),
      List.foldlM chanStep st0 evs = some st →
      n < st0.nextN → lookupA st0.timers n ≠ some TimerSt.armed →
      lookupA st.timers n ≠ some TimerSt.armed := by
  intro evs
  induction evs with
  | nil =>
    intro st0 st n h _ ht
    rw [List.foldlM_nil] at h
    obtain rfl := Option.some.inj h
    exact ht
  | cons e evs ih =>
    intro st0 st n h hn ht
    rw [List.foldlM_cons] at h
    cases hstep : chanStep st0 e with
    | none => rw [hstep] at h; exact Option.noConfusion h
    | some st1 =>
      rw [hstep] at h
      simp only [Option.bind_eq_bind, Option.some_bind] at h
      obtain ⟨ht1, hn1⟩ := chanStep_timer_unarmed_persist hstep hn ht
      exact ih st1 st n h hn1 ht1

theorem chanBounded_init : ChanBounded chanInit := by
  refine ⟨?_, ?_, ?_⟩ <;> intro q hq <;> simp [chanInit] at hq

/-- C3 (counterexample): after a request's timeout fires, the
correlation entry still exists — `chanRun` of one `request` followed by
its timeout firing leaves sequence number 0 in `responseHandlers` (the
timeout callback only rejects the promise; it does not delete the
entry). -/
theorem pending_entry_survives_timeout :
    chanRun [ChanEv.request, ChanEv.timeoutFire 0]
      = some ⟨1, [0], [(0, PromiseSt.rejectedTimeout)], [(0, TimerSt.fired)]⟩ ∧
    0 ∈ (ChanSt.mk 1 [0] [(0, PromiseSt.rejectedTimeout)] [(0, TimerSt.fired)]).entries := by
  constructor
  · rfl
  · exact List.mem_singleton.mpr rfl

/-- C3 (amended): for every pending request on a Message Channel,
(1) the correlation entry exists exactly until a matching response
arrives: for any valid event sequence, sequence number `n` is in
`responseHandlers` iff `n` was allocated and no RESPONSE frame for `n`
was processed — in particular the timeout firing does *not* destroy the
entry; (2) the promise settles at most once: a settled promise keeps
its settlement through any further events, so response-after-timeout
and timeout-after-response are no-ops on the outcome; (3) after a
response is matched, that request's timeout can no longer fire (it was
cleared), so no valid event sequence fires `n`'s timeout after a
response for `n`. -/
theorem pendingRequest_lifecycle :
    (∀ evs st n, chanRun evs = some st →
      (n ∈ st.entries ↔ (n < st.nextN ∧ NoResponseFor evs n))) ∧
    (∀ evs1 evs2 st1 st2 n p, chanRun evs1 = some st1 →
      chanRun (evs1 ++ evs2) = some st2 →
      lookupA st1.promises n = some p → p ≠ PromiseSt.pending →
      lookupA st2.promises n = some p) ∧
    (∀ e1 e2 e3 n b m st,
      chanRun (e1 ++ ChanEv.response n b m :: (e2 ++ ChanEv.timeoutFire n :: e3))
        = some st → False) := by
  refine ⟨?_, ?_, ?_⟩
  · intro evs st n h
    obtain ⟨_, _, hiff⟩ := chanRun_aux evs chanInit st h chanBounded_init
    rw [hiff n]
    constructor
    · rintro ⟨h1 | ⟨_, h2⟩, h3⟩
      · simp [chanInit] at h1
      · exact ⟨h2, h3⟩
    · rintro ⟨h1, h3⟩
      exact ⟨Or.inr ⟨Nat.zero_le n, h1⟩, h3⟩
  · intro evs1 evs2 st1 st2 n p h1 h2 hp hnp
    have h1a : List.foldlM chanStep chanInit evs1 = some st1 := h1
    rw [chanRun, List.foldlM_append, h1a] at h2
    simp only [Option.bind_eq_bind, Option.some_bind] at h2
    have hb1 : ChanBounded st1 :=
      (chanRun_aux evs1 chanInit st1 h1 chanBounded_init).2.1
    exact chanRun_promise_persist_aux evs2 st1 st2 n p h2 hb1 hp hnp
  · intro e1 e2 e3 n b m st h
    rw [chanRun, List.foldlM_append] at h
    cases h1 : List.foldlM chanStep chanInit e1 with
    | none => rw [h1] at h; exact Option.noConfusion h
    | some sta =>
      rw [h1] at h
      simp only [Option.bind_eq_bind, Option.some_bind, List.foldlM_cons] at h
      cases h2 : chanStep sta (ChanEv.response n b m) with
      | none => rw [h2] at h; exact Option.noConfusion h
      | some stb =>
        rw [h2] at h
        simp only [Option.bind_eq_bind, Option.some_bind, List.foldlM_append] at h
        have hba : ChanBounded sta :=
          (chanRun_aux e1 chanInit sta h1 chanBounded_init).2.1
        obtain ⟨htb, hnb⟩ := chanStep_response_unarms h2 hba
        cases h3 : List.foldlM chanStep stb e2 with
        | none => rw [h3] at h; exact Option.noConfusion h
        | some stc =>
          rw [h3] at h
          simp only [Option.bind_eq_bind, Option.some_bind, List.foldlM_cons] at h
          have htc : lookupA stc.timers n ≠ some TimerSt.armed :=
            chanRun_timer_unarmed_aux e2 stb stc n h3 hnb htb
          cases h4 : chanStep stc (ChanEv.timeoutFire n) with
          | none => rw [h4] at h; exact Option.noConfusion h
          | some std =>
            simp only [chanStep] at h4
            by_cases hg : lookupA stc.timers n = some TimerSt.armed
            · exact htc hg
            · rw [if_neg hg] at h4
              exact Option.noConfusion h4

/-- C3 (witness for the amended theorem): after a single `request`, the
allocated sequence number 0 is present in `responseHandlers`. -/
theorem pendingRequest_lifecycle_witness :
    0 ∈ (ChanSt.mk 1 [0] [(0, PromiseSt.pending)] [(0, TimerSt.armed)]).entries :=
  (pendingRequest_lifecycle.1 [ChanEv.request]
      (ChanSt.mk 1 [0] [(0, PromiseSt.pending)] [(0, TimerSt.armed)]) 0 rfl).mpr
    ⟨Nat.lt_succ_self 0, by intro b m hm; simp at hm⟩

/-! ### Discovery race lemmas (C4) -/

theorem lookupA_append {α β : Type} [DecidableEq α] (l1 l2 : List (α × β)) (a : α) :
    lookupA (l1 ++ l2) a
      = match lookupA l1 a with
        | some b => some b
        | none => lookupA l2 a := by
  induction l1 with
  | nil => rfl
  | cons q rest ih =>
    obtain ⟨k, v⟩ := q
    by_cases hk : a = k
    · subst hk
      rw [List.cons_append, lookupA_cons_self, lookupA_cons_self]
    · rw [List.cons_append, lookupA_cons_ne _ hk, lookupA_cons_ne _ hk, ih]

theorem setSock_lookupA (socks : List (Nat × SockPhase)) (sid m : Nat)
    (ph : SockPhase) :
    lookupA (setSock socks sid ph) m
      = (lookupA socks m).map (fun b => if m = sid then ph else b) := by
  have hf : ∀ q : Nat × SockPhase,
      ((fun q => if q.1 = sid then (q.1, ph) else q) q).1 = q.1 := by
    intro q
    by_cases h1 : q.1 = sid <;> simp [h1]
  refine (lookupA_map_keyfix hf socks m).trans ?_
  cases lookupA socks m with
  | none => rfl
  | some b =>
    simp only [Option.map_some']
    by_cases h1 : m = sid <;> simp [h1]

theorem lookupA_map_const {α β : Type} [DecidableEq α] {ids : List α} {c x : β}
    {a : α} (h : lookupA (ids.map (fun j => (j, c))) a = some x) :
    a ∈ ids ∧ x = c := by
  induction ids with
  | nil => exact Option.noConfusion h
  | cons j rest ih =>
    rw [List.map_cons] at h
    by_cases hj : a = j
    · subst hj
      rw [lookupA_cons_self] at h
      exact ⟨List.mem_cons_self _ _, (Option.some.inj h).symm⟩
    · rw [lookupA_cons_ne _ hj] at h
      obtain ⟨h1, h2⟩ := ih h
      exact ⟨List.mem_cons_of_mem _ h1, h2⟩

theorem discoInit_inv : DiscoInv discoInit := by
  refine ⟨?_, ?_, ?_, ?_, ?_, ?_, ?_, ?_, ?_, ?_, ?_, ?_, ?_, ?_⟩
  · exact Nat.le_succ 0
  · simp [discoInit]
  · intro h
    exact absurd h (by simp [discoInit])
  · intro h
    exact absurd h (by simp [discoInit])
  · intro h
    exact absurd h (by simp [discoInit])
  · intro h
    exact absurd h (by simp [discoInit])
  · intro rb h
    exact Option.noConfusion h
  · intro sid h
    exact Option.noConfusion h
  · intro sid h
    simp [discoInit] at h
  · intro sid h
    exact Option.noConfusion h
  · intro h
    exact absurd h (by simp [discoInit])
  · intro h
    exact absurd h (by simp [discoInit])
  · intro q hq
    simp [discoInit] at hq
  · simp [discoInit]

theorem map_keyfix_keys {α β : Type} {f : α × β → α × β}
    (hf : ∀ q, (f q).1 = q.1) (l : List (α × β)) :
    (l.map f).map Prod.fst = l.map Prod.fst := by
  rw [List.map_map]
  exact List.map_congr_left (fun q _ => hf q)

theorem setSock_keys (socks : List (Nat × SockPhase)) (sid : Nat) (ph : SockPhase) :
    (setSock socks sid ph).map Prod.fst = socks.map Prod.fst := by
  induction socks with
  | nil => rfl
  | cons q rest ih =>
    obtain ⟨k, v⟩ := q
    have ih2 : List.map Prod.fst
        (List.map (fun q : Nat × SockPhase => if q.1 = sid then (q.1, ph) else q) rest)
        = List.map Prod.fst rest := ih
    by_cases h1 : k = sid <;>
      simp only [setSock, List.map_cons, h1, if_pos, if_neg, ite_true, ite_false] <;>
      rw [← setSock] <;> simp [setSock, ih2, h1]

theorem map_fst_map_pair {α β : Type} (l : List α) (c : β) :
    (l.map (fun a => (a, c))).map Prod.fst = l := by
  induction l with
  | nil => rfl
  | cons a rest ih => simp [ih]

theorem batchIds_mem {ns : Nat} {ports : List Nat} {x : Nat}
    (hx : x ∈ batchIds ns ports) : ns ≤ x ∧ x < ns + ports.length := by
  obtain ⟨j, hj, rfl⟩ := List.mem_map.mp hx
  exact ⟨Nat.le_add_right _ _, Nat.add_lt_add_left (List.mem_range.mp hj) _⟩

theorem batchIds_nodup (ns : Nat) (ports : List Nat) : (batchIds ns ports).Nodup :=
  (List.nodup_range _).map (fun a b h => Nat.add_left_cancel h)

theorem discoStep_inv {key : String} {st st' : DiscoSt} {e : DiscoEv}
    (h : discoStep key st e = some st') (hI : DiscoInv st) : DiscoInv st' := by
  obtain ⟨fin, wat, tim, qu, run, socks, ns, sc⟩ := st
  cases e with
  | snapshot configs =>
    simp only [discoStep] at h
    by_cases hw : wat = true
    · rw [if_pos hw] at h
      by_cases hf : fin = true
      · rw [if_pos hf] at h
        obtain rfl := Option.some.inj h
        exact hI
      · rw [if_neg hf] at h
        obtain rfl := Option.some.inj h
        refine ⟨hI.settle_len, hI.finalized_iff, ?_, hI.final_watch, hI.final_timer,
          hI.final_running, hI.selected_settled, hI.opened_won, hI.won_opened,
          hI.connecting_pending, ?_, hI.cleared_final, hI.sock_keys_lt,
          hI.sock_keys_nodup⟩
        · intro h1
          exact absurd h1 hf
        · intro h1
          rcases hI.fired_queued h1 with h2 | h2
          · exact Or.inl (List.mem_append_left _ h2)
          · exact absurd h2 hf
    · rw [if_neg hw] at h
      exact Option.noConfusion h
  | timerFire =>
    simp only [discoStep] at h
    by_cases ht : tim = TimerSt.armed
    · rw [if_pos ht] at h
      obtain rfl := Option.some.inj h
      subst ht
      refine ⟨hI.settle_len, hI.finalized_iff, ?_, hI.final_watch, ?_,
        hI.final_running, hI.selected_settled, hI.opened_won, hI.won_opened,
        hI.connecting_pending, ?_, ?_, hI.sock_keys_lt, hI.sock_keys_nodup⟩
      · intro h1
        exact absurd rfl (hI.final_timer h1)
      · intro _ hc
        exact TimerSt.noConfusion hc
      · intro _
        exact Or.inl (List.mem_append_right _ (List.mem_singleton.mpr rfl))
      · intro hc
        exact TimerSt.noConfusion hc
    · rw [if_neg ht] at h
      exact Option.noConfusion h
  | startTask =>
    cases run with
    | some rb => exact Option.noConfusion h
    | none =>
      cases qu with
      | nil => exact Option.noConfusion h
      | cons t rest =>
        cases t with
        | batch configs =>
          simp only [discoStep] at h
          obtain rfl := Option.some.inj h
          have hnf : ¬ fin = true := by
            intro h1
            exact List.noConfusion (hI.final_queue h1)
          have hsc : sc = [] := by
            by_contra hc
            exact hnf (hI.finalized_iff.mpr hc)
          refine ⟨hI.settle_len, hI.finalized_iff, ?_, ?_, ?_, ?_, ?_, ?_, ?_,
            ?_, ?_, hI.cleared_final, ?_, ?_⟩
          · intro h1
            exact absurd h1 hnf
          · intro h1
            exact absurd h1 hnf
          · intro h1
            exact absurd h1 hnf
          · intro h1
            exact absurd h1 hnf
          · intro rb' hrb' hsel
            by_cases he : (batchIds ns (batchPorts key configs)).isEmpty
            · rw [if_pos he] at hrb'
              exact Option.noConfusion hrb'
            · rw [if_neg he] at hrb'
              obtain rfl := Option.some.inj hrb'
              exact Bool.noConfusion hsel
          · intro m hm
            rw [lookupA_append] at hm
            cases hl : lookupA socks m with
            | some b =>
              rw [hl] at hm
              exact hI.opened_won m (hl.trans (Option.some.inj hm ▸ rfl))
            | none =>
              rw [hl] at hm
              obtain ⟨_, hc⟩ := lookupA_map_const hm
              exact SockPhase.noConfusion hc
          · intro m hm
            have hold := hI.won_opened m hm
            rw [lookupA_append, hold]
          · intro m hm
            rw [lookupA_append] at hm
            cases hl : lookupA socks m with
            | some b =>
              rw [hl] at hm
              obtain ⟨rb0, hrb0, _⟩ :=
                hI.connecting_pending m (hl.trans (Option.some.inj hm ▸ rfl))
              exact Option.noConfusion hrb0
            | none =>
              rw [hl] at hm
              obtain ⟨hmem, _⟩ := lookupA_map_const hm
              have hne : ¬ (batchIds ns (batchPorts key configs)).isEmpty := by
                rw [List.isEmpty_iff]
                intro hc
                rw [hc] at hmem
                exact List.not_mem_nil _ hmem
              exact ⟨⟨batchIds ns (batchPorts key configs), false⟩,
                by rw [if_neg hne], hmem⟩
          · intro h1
            rcases hI.fired_queued h1 with h2 | h2
            · rcases List.mem_cons.mp h2 with h3 | h3
              · exact absurd h3.symm (fun hc => QTask.noConfusion hc)
              · exact Or.inl h3
            · exact absurd h2 hnf
          · intro q hq
            rcases List.mem_append.mp hq with h2 | h2
            · exact Nat.lt_of_lt_of_le (hI.sock_keys_lt q h2) (Nat.le_add_right _ _)
            · obtain ⟨sid, hsid, rfl⟩ := List.mem_map.mp h2
              exact (batchIds_mem hsid).2
          · rw [List.map_append]
            refine List.Nodup.append hI.sock_keys_nodup ?_ ?_
            · rw [map_fst_map_pair]
              exact batchIds_nodup ns (batchPorts key configs)
            · intro x hx1 hx2
              have hlt := hI.sock_keys_lt
              obtain ⟨q, hq, rfl⟩ := List.mem_map.mp hx1
              have h3 : q.1 < ns := hlt q hq
              have : q.1 ∈ ((batchIds ns (batchPorts key configs)).map
                  (fun sid => (sid, SockPhase.connecting))).map Prod.fst := hx2
              obtain ⟨q2, hq2, hq2e⟩ := List.mem_map.mp this
              obtain ⟨sid, hsid, rfl⟩ := List.mem_map.mp hq2
              rw [← hq2e] at h3
              exact absurd (batchIds_mem hsid).1 (Nat.not_le.mpr h3)
        | timeoutTask =>
          simp only [discoStep] at h
          by_cases hf : fin = true
          · exact absurd (hI.final_queue hf) (List.cons_ne_nil _ _)
          · rw [if_neg hf] at h
            obtain rfl := Option.some.inj h
            have hsc : sc = [] := by
              by_contra hc
              exact hf (hI.finalized_iff.mpr hc)
            subst hsc
            refine ⟨?_, ?_, ?_, ?_, ?_, ?_, ?_, ?_, ?_, ?_, ?_, ?_,
              hI.sock_keys_lt, hI.sock_keys_nodup⟩
            · exact Nat.le_refl 1
            · simp [appendSettle, finalizeDisco]
            · intro _
              rfl
            · intro _
              rfl
            · intro _
              show ¬(if tim = TimerSt.armed then TimerSt.cleared else tim) = TimerSt.armed
              by_cases ht : tim = TimerSt.armed
              · rw [if_pos ht]
                intro hc
                exact TimerSt.noConfusion hc
              · rw [if_neg ht]
                exact ht
            · intro _ rb hrb
              exact Option.noConfusion hrb
            · intro rb hrb
              exact Option.noConfusion hrb
            · intro m hm
              exact List.noConfusion (hI.opened_won m hm)
            · intro m hm
              rcases List.mem_cons.mp hm with h2 | h2
              · exact DiscoOutcome.noConfusion h2
              · exact absurd h2 (List.not_mem_nil _)
            · intro m hm
              obtain ⟨rb0, hrb0, _⟩ := hI.connecting_pending m hm
              exact Option.noConfusion hrb0
            · intro _
              exact Or.inr rfl
            · intro _
              rfl
  | sockOpen sid =>
    cases run with
    | none => exact Option.noConfusion h
    | some rb =>
      simp only [discoStep] at h
      by_cases hg : sid ∈ rb.pending ∧ lookupA socks sid = some SockPhase.connecting
      · rw [if_pos hg] at h
        obtain ⟨hpend, hconn⟩ := hg
        by_cases hsel : rb.hostSelected = true
        · rw [if_pos hsel] at h
          obtain rfl := Option.some.inj h
          obtain ⟨w, hw⟩ := hI.selected_settled rb rfl hsel
          refine ⟨hI.settle_len, hI.finalized_iff, hI.final_queue, hI.final_watch,
            hI.final_timer, ?_, ?_, ?_, ?_, ?_, hI.fired_queued, hI.cleared_final,
            ?_, ?_⟩
          · intro _ rb' hrb'
            by_cases he : (dropPending rb.pending sid).isEmpty
            · rw [if_pos he] at hrb'
              exact Option.noConfusion hrb'
            · rw [if_neg he] at hrb'
              obtain rfl := Option.some.inj hrb'
              rfl
          · intro rb' hrb' _
            exact ⟨w, hw⟩
          · intro m hm
            rw [setSock_lookupA] at hm
            cases hl : lookupA socks m with
            | none =>
              rw [hl] at hm
              exact Option.noConfusion hm
            | some b =>
              rw [hl, Option.map_some'] at hm
              by_cases hms : m = sid
              · rw [if_pos hms] at hm
                exact SockPhase.noConfusion (Option.some.inj hm)
              · rw [if_neg hms] at hm
                exact hI.opened_won m (hl.trans (congrArg some (Option.some.inj hm)))
          · intro m hm
            have hold := hI.won_opened m hm
            have hms : ¬ m = sid := by
              intro hc
              subst hc
              rw [hold] at hconn
              exact SockPhase.noConfusion (Option.some.inj hconn)
            rw [setSock_lookupA, hold, Option.map_some', if_neg hms]
          · intro m hm
            rw [setSock_lookupA] at hm
            cases hl : lookupA socks m with
            | none =>
              rw [hl] at hm
              exact Option.noConfusion hm
            | some b =>
              rw [hl, Option.map_some'] at hm
              by_cases hms : m = sid
              · rw [if_pos hms] at hm
                exact absurd (Option.some.inj hm) (fun hc => SockPhase.noConfusion hc)
              · rw [if_neg hms] at hm
                obtain ⟨rb0, hrb0, hmem0⟩ := hI.connecting_pending m
                  (hl.trans (congrArg some (Option.some.inj hm)))
                obtain rfl := Option.some.inj hrb0
                have hmem1 : m ∈ dropPending rb.pending sid :=
                  List.mem_filter.mpr ⟨hmem0, by simp [hms]⟩
                have hne : ¬ (dropPending rb.pending sid).isEmpty := by
                  rw [List.isEmpty_iff]
                  intro hc
                  rw [hc] at hmem1
                  exact List.not_mem_nil _ hmem1
                exact ⟨⟨dropPending rb.pending sid, true⟩, by rw [if_neg hne], hmem1⟩
          · intro q hq
            obtain ⟨q0, hq0, rfl⟩ := List.mem_map.mp hq
            show ((if q0.1 = sid then (q0.1, SockPhase.closedS) else q0) : Nat × SockPhase).1 < ns
            by_cases h1 : q0.1 = sid
            · rw [if_pos h1]
              exact hI.sock_keys_lt q0 hq0
            · rw [if_neg h1]
              exact hI.sock_keys_lt q0 hq0
          · show ((setSock socks sid SockPhase.closedS).map Prod.fst).Nodup
            rw [setSock_keys]
            exact hI.sock_keys_nodup
        · rw [if_neg hsel] at h
          obtain rfl := Option.some.inj h
          have hnf : ¬ fin = true := by
            intro h1
            exact hsel (hI.final_running h1 rb rfl)
          have hsc : sc = [] := by
            by_contra hc
            exact hnf (hI.finalized_iff.mpr hc)
          subst hsc
          show DiscoInv (DiscoSt.mk true false
            (if tim = TimerSt.armed then TimerSt.cleared else tim) []
            (if (dropPending rb.pending sid).isEmpty = true then none
             else some ⟨dropPending rb.pending sid, true⟩)
            (setSock socks sid SockPhase.opened) ns [DiscoOutcome.success sid])
          refine ⟨?_, ?_, ?_, ?_, ?_, ?_, ?_, ?_, ?_, ?_, ?_, ?_, ?_, ?_⟩
          · exact Nat.le_refl 1
          · simp [appendSettle, finalizeDisco]
          · intro _
            rfl
          · intro _
            rfl
          · intro _
            show ¬(if tim = TimerSt.armed then TimerSt.cleared else tim) = TimerSt.armed
            by_cases ht : tim = TimerSt.armed
            · rw [if_pos ht]
              intro hc
              exact TimerSt.noConfusion hc
            · rw [if_neg ht]
              exact ht
          · intro _ rb' hrb'
            by_cases he : (dropPending rb.pending sid).isEmpty
            · rw [if_pos he] at hrb'
              exact Option.noConfusion hrb'
            · rw [if_neg he] at hrb'
              obtain rfl := Option.some.inj hrb'
              rfl
          · intro rb' hrb' _
            exact ⟨sid, rfl⟩
          · intro m hm
            rw [setSock_lookupA] at hm
            cases hl : lookupA socks m with
            | none =>
              rw [hl] at hm
              exact Option.noConfusion hm
            | some b =>
              rw [hl, Option.map_some'] at hm
              by_cases hms : m = sid
              · subst hms
                rfl
              · rw [if_neg hms] at hm
                exact List.noConfusion
                  (hI.opened_won m (hl.trans (congrArg some (Option.some.inj hm))))
          · intro m hm
            rcases List.mem_cons.mp hm with h2 | h2
            · obtain rfl := (DiscoOutcome.success.inj h2)
              rw [setSock_lookupA, hconn, Option.map_some', if_pos rfl]
            · exact absurd h2 (List.not_mem_nil _)
          · intro m hm
            rw [setSock_lookupA] at hm
            cases hl : lookupA socks m with
            | none =>
              rw [hl] at hm
              exact Option.noConfusion hm
            | some b =>
              rw [hl, Option.map_some'] at hm
              by_cases hms : m = sid
              · rw [if_pos hms] at hm
                exact absurd (Option.some.inj hm) (fun hc => SockPhase.noConfusion hc)
              · rw [if_neg hms] at hm
                obtain ⟨rb0, hrb0, hmem0⟩ := hI.connecting_pending m
                  (hl.trans (congrArg some (Option.some.inj hm)))
                obtain rfl := Option.some.inj hrb0
                have hmem1 : m ∈ dropPending rb.pending sid :=
                  List.mem_filter.mpr ⟨hmem0, by simp [hms]⟩
                have hne : ¬ (dropPending rb.pending sid).isEmpty := by
                  rw [List.isEmpty_iff]
                  intro hc
                  rw [hc] at hmem1
                  exact List.not_mem_nil _ hmem1
                exact ⟨⟨dropPending rb.pending sid, true⟩, by rw [if_neg hne], hmem1⟩
          · intro _
            exact Or.inr rfl
          · intro _
            rfl
          · intro q hq
            obtain ⟨q0, hq0, rfl⟩ := List.mem_map.mp hq
            show ((if q0.1 = sid then (q0.1, SockPhase.opened) else q0) : Nat × SockPhase).1 < ns
            by_cases h1 : q0.1 = sid
            · rw [if_pos h1]
              exact hI.sock_keys_lt q0 hq0
            · rw [if_neg h1]
              exact hI.sock_keys_lt q0 hq0
          · show ((setSock socks sid SockPhase.opened).map Prod.fst).Nodup
            rw [setSock_keys]
            exact hI.sock_keys_nodup
      · rw [if_neg hg] at h
        exact Option.noConfusion h
  | sockFail sid =>
    cases run with
    | none => exact Option.noConfusion h
    | some rb =>
      simp only [discoStep] at h
      by_cases hg : sid ∈ rb.pending ∧ lookupA socks sid = some SockPhase.connecting
      · rw [if_pos hg] at h
        obtain ⟨hpend, hconn⟩ := hg
        obtain rfl := Option.some.inj h
        refine ⟨hI.settle_len, hI.finalized_iff, hI.final_queue, hI.final_watch,
          hI.final_timer, ?_, ?_, ?_, ?_, ?_, hI.fired_queued, hI.cleared_final,
          ?_, ?_⟩
        · intro h1 rb' hrb'
          by_cases he : (dropPending rb.pending sid).isEmpty
          · rw [if_pos he] at hrb'
            exact Option.noConfusion hrb'
          · rw [if_neg he] at hrb'
            obtain rfl := Option.some.inj hrb'
            exact hI.final_running h1 rb rfl
        · intro rb' hrb' hsel
          by_cases he : (dropPending rb.pending sid).isEmpty
          · rw [if_pos he] at hrb'
            exact Option.noConfusion hrb'
          · rw [if_neg he] at hrb'
            obtain rfl := Option.some.inj hrb'
            exact hI.selected_settled rb rfl hsel
        · intro m hm
          rw [setSock_lookupA] at hm
          cases hl : lookupA socks m with
          | none =>
            rw [hl] at hm
            exact Option.noConfusion hm
          | some b =>
            rw [hl, Option.map_some'] at hm
            by_cases hms : m = sid
            · rw [if_pos hms] at hm
              exact SockPhase.noConfusion (Option.some.inj hm)
            · rw [if_neg hms] at hm
              exact hI.opened_won m (hl.trans (congrArg some (Option.some.inj hm)))
        · intro m hm
          have hold := hI.won_opened m hm
          have hms : ¬ m = sid := by
            intro hc
            subst hc
            rw [hold] at hconn
            exact SockPhase.noConfusion (Option.some.inj hconn)
          rw [setSock_lookupA, hold, Option.map_some', if_neg hms]
        · intro m hm
          rw [setSock_lookupA] at hm
          cases hl : lookupA socks m with
          | none =>
            rw [hl] at hm
            exact Option.noConfusion hm
          | some b =>
            rw [hl, Option.map_some'] at hm
            by_cases hms : m = sid
            · rw [if_pos hms] at hm
              exact absurd (Option.some.inj hm) (fun hc => SockPhase.noConfusion hc)
            · rw [if_neg hms] at hm
              obtain ⟨rb0, hrb0, hmem0⟩ := hI.connecting_pending m
                (hl.trans (congrArg some (Option.some.inj hm)))
              obtain rfl := Option.some.inj hrb0
              have hmem1 : m ∈ dropPending rb.pending sid :=
                List.mem_filter.mpr ⟨hmem0, by simp [hms]⟩
              have hne : ¬ (dropPending rb.pending sid).isEmpty := by
                rw [List.isEmpty_iff]
                intro hc
                rw [hc] at hmem1
                exact List.not_mem_nil _ hmem1
              exact ⟨⟨dropPending rb.pending sid, rb.hostSelected⟩,
                by rw [if_neg hne], hmem1⟩
        · intro q hq
          obtain ⟨q0, hq0, rfl⟩ := List.mem_map.mp hq
          show ((if q0.1 = sid then (q0.1, SockPhase.closedS) else q0) : Nat × SockPhase).1 < ns
          by_cases h1 : q0.1 = sid
          · rw [if_pos h1]
            exact hI.sock_keys_lt q0 hq0
          · rw [if_neg h1]
            exact hI.sock_keys_lt q0 hq0
        · show ((setSock socks sid SockPhase.closedS).map Prod.fst).Nodup
          rw [setSock_keys]
          exact hI.sock_keys_nodup
      · rw [if_neg hg] at h
        exact Option.noConfusion h

theorem discoFold_inv {key : String} :
    ∀ (evs : List DiscoEv) (st0 st : DiscoSt),
      List.foldlM (discoStep key) st0 evs = some st → DiscoInv st0 → DiscoInv st := by
  intro evs
  induction evs with
  | nil =>
    intro st0 st h hI
    rw [List.foldlM_nil] at h
    obtain rfl := Option.some.inj h
    exact hI
  | cons e evs ih =>
    intro st0 st h hI
    rw [List.foldlM_cons] at h
    cases hstep : discoStep key st0 e with
    | none => rw [hstep] at h; exact Option.noConfusion h
    | some st1 =>
      rw [hstep] at h
      simp only [Option.bind_eq_bind, Option.some_bind] at h
      exact ih st1 st h (discoStep_inv hstep hI)

theorem discoStep_frozen {key : String} {st st' : DiscoSt} {e : DiscoEv}
    (h : discoStep key st e = some st') (hI : DiscoInv st)
    (hf : st.finalized = true) :
    st'.settleCalls = st.settleCalls ∧ st'.finalized = true := by
  obtain ⟨fin, wat, tim, qu, run, socks, ns, sc⟩ := st
  cases e with
  | snapshot configs =>
    have hw : wat = false := hI.final_watch hf
    subst hw
    simp only [discoStep] at h
    exact Option.noConfusion h
  | startTask =>
    have hq : qu = [] := hI.final_queue hf
    subst hq
    cases run with
    | some rb => exact Option.noConfusion h
    | none => exact Option.noConfusion h
  | sockOpen sid =>
    cases run with
    | none => exact Option.noConfusion h
    | some rb =>
      simp only [discoStep] at h
      by_cases hg : sid ∈ rb.pending ∧ lookupA socks sid = some SockPhase.connecting
      · rw [if_pos hg] at h
        have hsel : rb.hostSelected = true := hI.final_running hf rb rfl
        rw [if_pos hsel] at h
        obtain rfl := Option.some.inj h
        exact ⟨rfl, hf⟩
      · rw [if_neg hg] at h
        exact Option.noConfusion h
  | sockFail sid =>
    cases run with
    | none => exact Option.noConfusion h
    | some rb =>
      simp only [discoStep] at h
      by_cases hg : sid ∈ rb.pending ∧ lookupA socks sid = some SockPhase.connecting
      · rw [if_pos hg] at h
        obtain rfl := Option.some.inj h
        exact ⟨rfl, hf⟩
      · rw [if_neg hg] at h
        exact Option.noConfusion h
  | timerFire =>
    simp only [discoStep] at h
    have ht : ¬ tim = TimerSt.armed := hI.final_timer hf
    rw [if_neg ht] at h
    exact Option.noConfusion h

theorem discoFold_frozen {key : String} :
    ∀ (evs : List DiscoEv) (st0 st : DiscoSt),
      List.foldlM (discoStep key) st0 evs = some st → DiscoInv st0 →
      st0.finalized = true → st.settleCalls = st0.settleCalls := by
  intro evs
  induction evs with
  | nil =>
    intro st0 st h _ _
    rw [List.foldlM_nil] at h
    obtain rfl := Option.some.inj h
    rfl
  | cons e evs ih =>
    intro st0 st h hI hf
    rw [List.foldlM_cons] at h
    cases hstep : discoStep key st0 e with
    | none => rw [hstep] at h; exact Option.noConfusion h
    | some st1 =>
      rw [hstep] at h
      simp only [Option.bind_eq_bind, Option.some_bind] at h
      obtain ⟨hsc, hf1⟩ := discoStep_frozen hstep hI hf
      exact (ih st1 st h (discoStep_inv hstep hI) hf1).trans hsc

theorem discoStep_no_open {key : String} {st st' : DiscoSt} {e : DiscoEv}
    (h : discoStep key st e = some st')
    (hne : ∀ sid, e ≠ DiscoEv.sockOpen sid)
    (hno : ∀ m, lookupA st.sockets m ≠ some SockPhase.opened) :
    ∀ m, lookupA st'.sockets m ≠ some SockPhase.opened := by
  obtain ⟨fin, wat, tim, qu, run, socks, ns, sc⟩ := st
  cases e with
  | snapshot configs =>
    simp only [discoStep] at h
    by_cases hw : wat = true
    · rw [if_pos hw] at h
      by_cases hf : fin = true
      · rw [if_pos hf] at h
        obtain rfl := Option.some.inj h
        exact hno
      · rw [if_neg hf] at h
        obtain rfl := Option.some.inj h
        exact hno
    · rw [if_neg hw] at h
      exact Option.noConfusion h
  | startTask =>
    cases run with
    | some rb => exact Option.noConfusion h
    | none =>
      cases qu with
      | nil => exact Option.noConfusion h
      | cons t rest =>
        cases t with
        | batch configs =>
          obtain rfl := Option.some.inj h
          intro m hm
          rw [lookupA_append] at hm
          cases hl : lookupA socks m with
          | some b =>
            rw [hl] at hm
            exact hno m (hl.trans (congrArg some (Option.some.inj hm)))
          | none =>
            rw [hl] at hm
            obtain ⟨_, hc⟩ := lookupA_map_const hm
            exact SockPhase.noConfusion hc
        | timeoutTask =>
          simp only [discoStep] at h
          by_cases hf : fin = true
          · rw [if_pos hf] at h
            obtain rfl := Option.some.inj h
            exact hno
          · rw [if_neg hf] at h
            obtain rfl := Option.some.inj h
            exact hno
  | sockOpen sid => exact absurd rfl (hne sid)
  | sockFail sid =>
    cases run with
    | none => exact Option.noConfusion h
    | some rb =>
      simp only [discoStep] at h
      by_cases hg : sid ∈ rb.pending ∧ lookupA socks sid = some SockPhase.connecting
      · rw [if_pos hg] at h
        obtain rfl := Option.some.inj h
        intro m hm
        rw [setSock_lookupA] at hm
        cases hl : lookupA socks m with
        | none =>
          rw [hl] at hm
          exact Option.noConfusion hm
        | some b =>
          rw [hl, Option.map_some'] at hm
          by_cases hms : m = sid
          · rw [if_pos hms] at hm
            exact SockPhase.noConfusion (Option.some.inj hm)
          · rw [if_neg hms] at hm
            exact hno m (hl.trans (congrArg some (Option.some.inj hm)))
      · rw [if_neg hg] at h
        exact Option.noConfusion h
  | timerFire =>
    simp only [discoStep] at h
    by_cases ht : tim = TimerSt.armed
    · rw [if_pos ht] at h
      obtain rfl := Option.some.inj h
      exact hno
    · rw [if_neg ht] at h
      exact Option.noConfusion h

theorem discoFold_no_open {key : String} :
    ∀ (evs : List DiscoEv) (st0 st : DiscoSt),
      List.foldlM (discoStep key) st0 evs = some st →
      (∀ sid, DiscoEv.sockOpen sid ∉ evs) →
      (∀ m, lookupA st0.sockets m ≠ some SockPhase.opened) →
      ∀ m, lookupA st.sockets m ≠ some SockPhase.opened := by
  intro evs
  induction evs with
  | nil =>
    intro st0 st h _ hno
    rw [List.foldlM_nil] at h
    obtain rfl := Option.some.inj h
    exact hno
  | cons e evs ih =>
    intro st0 st h hnev hno
    rw [List.foldlM_cons] at h
    cases hstep : discoStep key st0 e with
    | none => rw [hstep] at h; exact Option.noConfusion h
    | some st1 =>
      rw [hstep] at h
      simp only [Option.bind_eq_bind, Option.some_bind] at h
      have hne : ∀ sid, e ≠ DiscoEv.sockOpen sid := by
        intro sid hc
        exact hnev sid (hc ▸ List.mem_cons_self e evs)
      exact ih st1 st h
        (fun sid hc => hnev sid (List.mem_cons_of_mem e hc))
        (discoStep_no_open hstep hne hno)

theorem discoStep_sockOpen_first {key : String} {st st' : DiscoSt} {sid : Nat}
    (h : discoStep key st (DiscoEv.sockOpen sid) = some st') (hI : DiscoInv st)
    (hno : ∀ m, lookupA st.sockets m ≠ some SockPhase.opened) :
    st'.settleCalls = [DiscoOutcome.success sid] ∧ st'.finalized = true := by
  obtain ⟨fin, wat, tim, qu, run, socks, ns, sc⟩ := st
  cases run with
  | none => exact Option.noConfusion h
  | some rb =>
    simp only [discoStep] at h
    by_cases hg : sid ∈ rb.pending ∧ lookupA socks sid = some SockPhase.connecting
    · rw [if_pos hg] at h
      by_cases hsel : rb.hostSelected = true
      · obtain ⟨w, hw⟩ := hI.selected_settled rb rfl hsel
        have hmem : DiscoOutcome.success w ∈ sc := by
          have hw2 : sc = [DiscoOutcome.success w] := hw
          rw [hw2]
          exact List.mem_singleton.mpr rfl
        exact absurd (hI.won_opened w hmem) (hno w)
      · rw [if_neg hsel] at h
        obtain rfl := Option.some.inj h
        have hnf : ¬ fin = true := by
          intro h1
          exact hsel (hI.final_running h1 rb rfl)
        have hsc : sc = [] := by
          by_contra hc
          exact hnf (hI.finalized_iff.mpr hc)
        subst hsc
        exact ⟨rfl, rfl⟩
    · rw [if_neg hg] at h
      exact Option.noConfusion h

/-- C4: for every valid event sequence of one `discoverMessageChannel`
call: (a) the discovery promise is settled (resolved or rejected) at
most once; (b) once the attempt is quiescent (queue idle, no batch in
flight, overall timer spent or cleared — where every real execution
ends), it has been settled exactly once; (c) a socket left open is
exactly the winner: any candidate websocket in the `opened` phase is
the one the promise resolved with, so every other candidate — in-flight
or completing later — has been closed; (d) the winner's socket is open;
(e) on timeout rejection no candidate socket remains open; (f) the
first candidate to complete its handshake wins: if the trace's first
`sockOpen` is for socket `sid`, the attempt resolves with `sid`. -/
theorem discovery_exactly_once (key : String) (evs : List DiscoEv) (st : DiscoSt)
    (h : discoRun key evs = some st) :
    st.settleCalls.length ≤ 1 ∧
    (DiscoQuiescent st → ∃ o, st.settleCalls = [o]) ∧
    (∀ sid, lookupA st.sockets sid = some SockPhase.opened →
      st.settleCalls = [DiscoOutcome.success sid]) ∧
    (∀ sid, st.settleCalls = [DiscoOutcome.success sid] →
      lookupA st.sockets sid = some SockPhase.opened) ∧
    (st.settleCalls = [DiscoOutcome.timedOut] →
      ∀ sid, lookupA st.sockets sid ≠ some SockPhase.opened) ∧
    (∀ e1 sid e2, evs = e1 ++ DiscoEv.sockOpen sid :: e2 →
      (∀ sid2, DiscoEv.sockOpen sid2 ∉ e1) →
      st.settleCalls = [DiscoOutcome.success sid]) := by
  have hInv : DiscoInv st := discoFold_inv evs discoInit st h discoInit_inv
  refine ⟨hInv.settle_len, ?_, hInv.opened_won, ?_, ?_, ?_⟩
  · rintro ⟨hrun, hq, ht⟩
    have hf : st.finalized = true := by
      cases htim : st.timer with
      | armed => exact absurd htim ht
      | fired =>
        rcases hInv.fired_queued htim with h2 | h2
        · rw [hq] at h2
          exact absurd h2 (List.not_mem_nil _)
        · exact h2
      | cleared => exact hInv.cleared_final htim
    have hne : st.settleCalls ≠ [] := hInv.finalized_iff.mp hf
    cases hsc : st.settleCalls with
    | nil => exact absurd hsc hne
    | cons o tail =>
      have hlen := hInv.settle_len
      rw [hsc] at hlen
      have : tail = [] := by
        cases tail with
        | nil => rfl
        | cons o2 t2 =>
          exact absurd hlen (by simp [Nat.succ_le_succ_iff])
      exact ⟨o, by rw [this]⟩
  · intro sid hsc
    exact hInv.won_opened sid (hsc ▸ List.mem_singleton.mpr rfl)
  · intro hsc sid hop
    have h2 := hInv.opened_won sid hop
    rw [hsc] at h2
    exact DiscoOutcome.noConfusion (List.cons.inj h2).1
  · intro e1 sid e2 hevs hfirst
    subst hevs
    rw [discoRun, List.foldlM_append] at h
    cases h1 : List.foldlM (discoStep key) discoInit e1 with
    | none => rw [h1] at h; exact Option.noConfusion h
    | some sta =>
      rw [h1] at h
      simp only [Option.bind_eq_bind, Option.some_bind, List.foldlM_cons] at h
      have hIa : DiscoInv sta := discoFold_inv e1 discoInit sta h1 discoInit_inv
      have hnoa : ∀ m, lookupA sta.sockets m ≠ some SockPhase.opened := by
        refine discoFold_no_open e1 discoInit sta h1 hfirst ?_
        intro m hm
        exact Option.noConfusion hm
      cases h2 : discoStep key sta (DiscoEv.sockOpen sid) with
      | none => rw [h2] at h; exact Option.noConfusion h
      | some stb =>
        rw [h2] at h
        simp only [Option.bind_eq_bind, Option.some_bind] at h
        obtain ⟨hscb, hfb⟩ := discoStep_sockOpen_first h2 hIa hnoa
        have := discoFold_frozen e2 stb st h (discoStep_inv h2 hIa) hfb
        rw [this, hscb]

/-! ### Graph-codec lemmas (C1, C10) -/

theorem lookupA_mem_keys {α β : Type} [DecidableEq α] {l : List (α × β)} {a : α}
    {b : β} (h : lookupA l a = some b) : a ∈ l.map Prod.fst := by
  have := lookupA_mem h
  exact List.mem_map.mpr ⟨(a, b), this, rfl⟩

theorem lookupA_eq_none_of_not_mem {α β : Type} [DecidableEq α]
    {l : List (α × β)} {a : α} (h : a ∉ l.map Prod.fst) : lookupA l a = none := by
  induction l with
  | nil => rfl
  | cons q rest ih =>
    obtain ⟨k, v⟩ := q
    rw [List.map_cons] at h
    have hk : a ≠ k := fun hc => h (hc ▸ List.mem_cons_self _ _)
    rw [lookupA_cons_ne _ hk]
    exact ih (fun hc => h (List.mem_cons_of_mem _ hc))

theorem mem_keys_lookupA {α β : Type} [DecidableEq α] {l : List (α × β)} {a : α}
    (h : a ∈ l.map Prod.fst) : ∃ b, lookupA l a = some b := by
  cases hl : lookupA l a with
  | some b => exact ⟨b, rfl⟩
  | none =>
    induction l with
    | nil => simp at h
    | cons q rest ih =>
      obtain ⟨k, v⟩ := q
      by_cases hk : a = k
      · subst hk
        rw [lookupA_cons_self] at hl
        exact Option.noConfusion hl
      · rw [lookupA_cons_ne _ hk] at hl
        rw [List.map_cons] at h
        rcases List.mem_cons.mp h with h1 | h1
        · exact absurd h1 hk
        · exact ih h1 hl

theorem lookupA_extend {α β : Type} [DecidableEq α] {nc l : List (α × β)} {a : α}
    {b : β} (hnd : ((nc ++ l).map Prod.fst).Nodup) (h : lookupA l a = some b) :
    lookupA (nc ++ l) a = some b := by
  have hmem : a ∈ l.map Prod.fst := lookupA_mem_keys h
  rw [List.map_append] at hnd
  have hnot : a ∉ nc.map Prod.fst := by
    intro hc
    exact (List.disjoint_of_nodup_append hnd) hc hmem
  rw [lookupA_append, lookupA_eq_none_of_not_mem hnot]
  exact h

theorem mem_lookupA_of_nodup {α β : Type} [DecidableEq α] {l : List (α × β)}
    {a : α} {b : β} (hnd : (l.map Prod.fst).Nodup) (h : (a, b) ∈ l) :
    lookupA l a = some b := by
  induction l with
  | nil => simp at h
  | cons q rest ih =>
    obtain ⟨k, v⟩ := q
    rw [List.map_cons] at hnd
    rcases List.mem_cons.mp h with h1 | h1
    · rw [← h1]
      exact lookupA_cons_self _
    · have hk : a ≠ k := by
        intro hc
        subst hc
        exact (List.nodup_cons.mp hnd).1 (List.mem_map.mpr ⟨(a, b), h1, rfl⟩)
      rw [lookupA_cons_ne _ hk]
      exact ih (List.nodup_cons.mp hnd).2 h1

theorem nodup_ids_key_eq {α β : Type} {l : List (α × β)}
    (hnd : (l.map Prod.snd).Nodup) {a a2 : α} {b : β}
    (h1 : (a, b) ∈ l) (h2 : (a2, b) ∈ l) : a = a2 := by
  induction l with
  | nil => simp at h1
  | cons q rest ih =>
    rw [List.map_cons] at hnd
    obtain ⟨hq, hrest⟩ := List.nodup_cons.mp hnd
    rcases List.mem_cons.mp h1 with h3 | h3
    · rcases List.mem_cons.mp h2 with h4 | h4
      · exact congrArg Prod.fst (h3.trans h4.symm)
      · exfalso
        apply hq
        rw [← h3]
        exact List.mem_map.mpr ⟨(a2, b), h4, rfl⟩
    · rcases List.mem_cons.mp h2 with h4 | h4
      · exfalso
        apply hq
        rw [← h4]
        exact List.mem_map.mpr ⟨(a, b), h3, rfl⟩
      · exact ih hrest h3 h4

theorem forall₂_mem_left {α β : Type} {R : α → β → Prop} {l1 : List α}
    {l2 : List β} (h : List.Forall₂ R l1 l2) {a : α} (ha : a ∈ l1) :
    ∃ b, b ∈ l2 ∧ R a b := by
  induction h with
  | nil => simp at ha
  | cons hr _ ih =>
    rcases List.mem_cons.mp ha with h1 | h1
    · exact ⟨_, List.mem_cons_self _ _, h1 ▸ hr⟩
    · obtain ⟨b, hb, hrb⟩ := ih h1
      exact ⟨b, List.mem_cons_of_mem _ hb, hrb⟩

theorem filter_length_le {α : Type} (p q : α → Bool)
    (himp : ∀ a, q a = true → p a = true) (l : List α) :
    (l.filter q).length ≤ (l.filter p).length := by
  induction l with
  | nil => exact Nat.le_refl _
  | cons a rest ih =>
    by_cases hq : q a = true
    · rw [List.filter_cons_of_pos hq, List.filter_cons_of_pos (himp a hq)]
      exact Nat.succ_le_succ ih
    · rw [List.filter_cons_of_neg (by simp [hq])]
      by_cases hp : p a = true
      · rw [List.filter_cons_of_pos hp]
        exact Nat.le_succ_of_le ih
      · rw [List.filter_cons_of_neg (by simp [hp])]
        exact ih

theorem filter_length_lt {α : Type} (p q : α → Bool)
    (himp : ∀ a, q a = true → p a = true) {l : List α} {a : α}
    (hmem : a ∈ l) (hp : p a = true) (hq : q a = false) :
    (l.filter q).length < (l.filter p).length := by
  induction l with
  | nil => simp at hmem
  | cons x rest ih =>
    rcases List.mem_cons.mp hmem with h1 | h1
    · subst h1
      rw [List.filter_cons_of_pos hp, List.filter_cons_of_neg (by simp [hq])]
      exact Nat.lt_succ_of_le (filter_length_le p q himp rest)
    · by_cases hqx : q x = true
      · rw [List.filter_cons_of_pos hqx, List.filter_cons_of_pos (himp x hqx)]
        exact Nat.succ_lt_succ (ih h1)
      · rw [List.filter_cons_of_neg (by simp [hqx])]
        by_cases hpx : p x = true
        · rw [List.filter_cons_of_pos hpx]
          exact Nat.lt_succ_of_lt (ih h1)
        · rw [List.filter_cons_of_neg (by simp [hpx])]
          exact ih h1

theorem encodes_mono {c nc : List (JSVal × Nat)} {h : Heap} {w : JSVal}
    {d : DNode} (he : Encodes c h w d)
    (hnd : ((nc ++ c).map Prod.fst).Nodup) : Encodes (nc ++ c) h w d := by
  cases he with
  | prim p => exact Encodes.prim p
  | func r name hr => exact Encodes.func r name hr
  | arr r elems ids hr hf =>
    exact Encodes.arr r elems ids hr
      (List.Forall₂.imp (fun _ _ he2 => lookupA_extend hnd he2) hf)
  | obj r props pairs hr hf =>
    exact Encodes.obj r props pairs hr
      (List.Forall₂.imp (fun _ _ he2 => ⟨he2.1, lookupA_extend hnd he2.2⟩) hf)

theorem serPost_refl {h : Heap} {s : DState} (hwf : DWF h s) : SerPost h s s :=
  ⟨⟨[], rfl⟩, ⟨[], rfl⟩, Nat.le_refl _,
   fun j hj1 hj2 => absurd hj1 hj2,
   fun j hj1 hj2 => absurd hj1 hj2,
   hwf⟩

theorem serPost_trans {h : Heap} {s1 s2 s3 : DState}
    (p12 : SerPost h s1 s2) (p23 : SerPost h s2 s3) : SerPost h s1 s3 := by
  obtain ⟨nc1, hc1⟩ := p12.cache_ext
  obtain ⟨nc2, hc2⟩ := p23.cache_ext
  obtain ⟨nt1, ht1⟩ := p12.table_ext
  obtain ⟨nt2, ht2⟩ := p23.table_ext
  refine ⟨⟨nc2 ++ nc1, by rw [hc2, hc1, List.append_assoc]⟩,
    ⟨nt2 ++ nt1, by rw [ht2, ht1, List.append_assoc]⟩,
    Nat.le_trans p12.nextId_le p23.nextId_le, ?_, ?_, p23.wf⟩
  · intro j hj3 hj1
    by_cases hj2 : j ∈ s2.cache.map Prod.snd
    · have h4 := p12.covered j hj2 hj1
      rw [ht2, List.map_append]
      exact List.mem_append_right _ h4
    · exact p23.covered j hj3 hj2
  · intro j hj3 hj1
    by_cases hj2 : j ∈ s2.table.map Prod.fst
    · exact p12.tkeys_fresh j hj2 hj1
    · have h4 := p23.tkeys_fresh j hj3 hj2
      intro hc
      apply h4
      rw [hc1, List.map_append]
      exact List.mem_append_right _ hc

theorem not_mem_keys_of_lookupA_none {α β : Type} [DecidableEq α]
    {l : List (α × β)} {a : α} (h : lookupA l a = none) : a ∉ l.map Prod.fst := by
  intro hc
  obtain ⟨b, hb⟩ := mem_keys_lookupA hc
  rw [hb] at h
  exact Option.noConfusion h

theorem dwf_nextId_not_mem {h : Heap} {s : DState} (hwf : DWF h s) :
    s.nextId ∉ s.cache.map Prod.snd := by
  intro hc
  obtain ⟨q, hq, he⟩ := List.mem_map.mp hc
  have := hwf.ids_lt q hq
  rw [he] at this
  exact Nat.lt_irrefl _ this

theorem dwf_cache_insert {h : Heap} {s : DState} {v : JSVal}
    (hwf : DWF h s) (hcv : lookupA s.cache v = none) :
    DWF h ⟨(v, s.nextId) :: s.cache, s.nextId + 1, s.table⟩ := by
  have hkn : ((v, s.nextId) :: s.cache).map Prod.fst
      = [(v, s.nextId)].map Prod.fst ++ s.cache.map Prod.fst := by simp
  have hnodup : (((v, s.nextId) :: s.cache).map Prod.fst).Nodup := by
    rw [List.map_cons]
    exact List.nodup_cons.mpr ⟨not_mem_keys_of_lookupA_none hcv, hwf.keys_nodup⟩
  refine ⟨hnodup, ?_, ?_, hwf.table_nodup, ?_, ?_⟩
  · rw [List.map_cons]
    exact List.nodup_cons.mpr ⟨dwf_nextId_not_mem hwf, hwf.ids_nodup⟩
  · intro q hq
    rcases List.mem_cons.mp hq with h1 | h1
    · rw [h1]
      exact Nat.lt_succ_self _
    · exact Nat.lt_succ_of_lt (hwf.ids_lt q h1)
  · intro q hq
    rw [List.map_cons]
    exact List.mem_cons_of_mem _ (hwf.table_sub q hq)
  · intro q hq
    obtain ⟨w, hw, he⟩ := hwf.table_enc q hq
    have hnodup2 : (([(v, s.nextId)] ++ s.cache).map Prod.fst).Nodup := by
      rw [List.singleton_append]
      exact hnodup
    refine ⟨w, ?_, ?_⟩
    · rw [show (v, s.nextId) :: s.cache = [(v, s.nextId)] ++ s.cache from rfl]
      exact lookupA_extend hnodup2 hw
    · rw [show (v, s.nextId) :: s.cache = [(v, s.nextId)] ++ s.cache from rfl]
      exact encodes_mono he hnodup2

theorem dwf_table_insert {h : Heap} {s : DState} {i : Nat} {d : DNode}
    (hwf : DWF h s) (hi : i ∈ s.cache.map Prod.snd)
    (hnt : i ∉ s.table.map Prod.fst)
    (hex : ∃ w, lookupA s.cache w = some i ∧ Encodes s.cache h w d) :
    DWF h { s with table := (i, d) :: s.table } := by
  refine ⟨hwf.keys_nodup, hwf.ids_nodup, hwf.ids_lt, ?_, ?_, ?_⟩
  · rw [List.map_cons]
    exact List.nodup_cons.mpr ⟨hnt, hwf.table_nodup⟩
  · intro q hq
    rcases List.mem_cons.mp hq with h1 | h1
    · rw [h1]
      exact hi
    · exact hwf.table_sub q h1
  · intro q hq
    rcases List.mem_cons.mp hq with h1 | h1
    · rw [h1]
      exact hex
    · exact hwf.table_enc q h1

theorem serPost_lookup_lift {h : Heap} {s1 sf : DState} {w : JSVal} {j : Nat}
    (p : SerPost h s1 sf) (hl : lookupA s1.cache w = some j) :
    lookupA sf.cache w = some j := by
  obtain ⟨nc, hc⟩ := p.cache_ext
  rw [hc]
  have := p.wf.keys_nodup
  rw [hc] at this
  exact lookupA_extend this hl

theorem serPost_finish {h : Heap} {s s2 : DState} {v : JSVal} {d : DNode}
    (hwf : DWF h s) (hcv : lookupA s.cache v = none)
    (hpost : SerPost h ⟨(v, s.nextId) :: s.cache, s.nextId + 1, s.table⟩ s2)
    (henc : Encodes s2.cache h v d) :
    SerPost h s { s2 with table := (s.nextId, d) :: s2.table } ∧
    lookupA s2.cache v = some s.nextId := by
  have hv2 : lookupA s2.cache v = some s.nextId :=
    serPost_lookup_lift hpost (lookupA_cons_self _)
  obtain ⟨nc2, hc2⟩ := hpost.cache_ext
  obtain ⟨nt2, ht2⟩ := hpost.table_ext
  have hIdNotCached : s.nextId ∉ s.cache.map Prod.snd := dwf_nextId_not_mem hwf
  have hIdNotTabled1 : s.nextId ∉ s.table.map Prod.fst := by
    intro hc
    obtain ⟨q, hq, he⟩ := List.mem_map.mp hc
    have := hwf.table_sub q hq
    rw [he] at this
    exact hIdNotCached this
  have hIdNotTabled2 : s.nextId ∉ s2.table.map Prod.fst := by
    intro hc
    by_cases h1 : s.nextId ∈ (⟨(v, s.nextId) :: s.cache, s.nextId + 1, s.table⟩ :
        DState).table.map Prod.fst
    · exact hIdNotTabled1 h1
    · have h2 := hpost.tkeys_fresh _ hc h1
      apply h2
      show s.nextId ∈ ((v, s.nextId) :: s.cache).map Prod.snd
      rw [List.map_cons]
      exact List.mem_cons_self _ _
  have hIdCached2 : s.nextId ∈ s2.cache.map Prod.snd := by
    have := lookupA_mem hv2
    exact List.mem_map.mpr ⟨(v, s.nextId), this, rfl⟩
  refine ⟨⟨?_, ?_, ?_, ?_, ?_, ?_⟩, hv2⟩
  · exact ⟨nc2 ++ [(v, s.nextId)], by rw [hc2, List.append_assoc, List.singleton_append]⟩
  · exact ⟨(s.nextId, d) :: nt2, by rw [ht2]; rfl⟩
  · exact Nat.le_trans (Nat.le_succ _) hpost.nextId_le
  · intro j hj2 hj1
    by_cases hji : j = s.nextId
    · subst hji
      rw [List.map_cons]
      exact List.mem_cons_self _ _
    · have hj11 : j ∉ ((v, s.nextId) :: s.cache).map Prod.snd := by
        rw [List.map_cons]
        intro hc
        rcases List.mem_cons.mp hc with h1 | h1
        · exact hji h1
        · exact hj1 h1
      have := hpost.covered j hj2 hj11
      rw [List.map_cons]
      exact List.mem_cons_of_mem _ this
  · intro j hj2 hj1
    rw [List.map_cons] at hj2
    rcases List.mem_cons.mp hj2 with h1 | h1
    · rw [h1]
      exact hIdNotCached
    · have h3 := hpost.tkeys_fresh j h1 hj1
      intro hc
      apply h3
      show j ∈ ((v, s.nextId) :: s.cache).map Prod.snd
      rw [List.map_cons]
      exact List.mem_cons_of_mem _ hc
  · exact dwf_table_insert hpost.wf hIdCached2 hIdNotTabled2 ⟨v, hv2, henc⟩

theorem serialize_post :
    ∀ fuel : Nat,
      (∀ (h : Heap) (v : JSVal) (s : DState) (i : Nat) (sf : DState),
        serialize h fuel v s = Except.ok (i, sf) → DWF h s →
        SerPost h s sf ∧ lookupA sf.cache v = some i ∧
          (lookupA s.cache v = none → i = s.nextId)) ∧
      (∀ (h : Heap) (vs : List JSVal) (s : DState) (ids : List Nat) (sf : DState),
        serializeList h fuel vs s = Except.ok (ids, sf) → DWF h s →
        SerPost h s sf ∧
          List.Forall₂ (fun e j => lookupA sf.cache e = some j) vs ids) ∧
      (∀ (h : Heap) (kvs : List (String × JSVal)) (s : DState)
          (prs : List (String × Nat)) (sf : DState),
        serializeProps h fuel kvs s = Except.ok (prs, sf) → DWF h s →
        SerPost h s sf ∧
          List.Forall₂ (fun kv kj => kv.1 = kj.1 ∧ lookupA sf.cache kv.2 = some kj.2)
            kvs prs) := by
  intro fuel
  induction fuel using Nat.strong_induction_on with
  | _ fuel IH =>
  have Hser : ∀ (h : Heap) (v : JSVal) (s : DState) (i : Nat) (sf : DState),
      serialize h fuel v s = Except.ok (i, sf) → DWF h s →
      SerPost h s sf ∧ lookupA sf.cache v = some i ∧
        (lookupA s.cache v = none → i = s.nextId) := by
    intro h v s i sf heq hwf
    match fuel, heq with
    | 0, heq =>
      simp only [serialize] at heq
      exact Except.noConfusion heq
    | f + 1, heq =>
    obtain ⟨Hlist, Hprops⟩ := (IH f (Nat.lt_succ_self f)).2
    rw [serialize] at heq
    cases hcv : lookupA s.cache v with
    | some i0 =>
      rw [hcv] at heq
      simp only [] at heq
      injection heq with hpair
      injection hpair with h1 h2
      subst h1
      subst h2
      refine ⟨serPost_refl hwf, hcv, fun hc => ?_⟩
      exact Option.noConfusion hc
    | none =>
      rw [hcv] at heq
      simp only [] at heq
      cases v with
      | null => exact Except.noConfusion heq
      | prim p =>
        injection heq with hpair
        injection hpair with h1 h2
        subst h1
        subst h2
        obtain ⟨hpost, hv⟩ := serPost_finish hwf hcv
          (serPost_refl (dwf_cache_insert hwf hcv)) (Encodes.prim p)
        exact ⟨hpost, hv, fun _ => rfl⟩
      | ref r =>
        simp only [] at heq
        cases hhr : lookupA h r with
        | none =>
          rw [hhr] at heq
          exact Except.noConfusion heq
        | some node =>
          rw [hhr] at heq
          cases node with
          | func name =>
            simp only [] at heq
            injection heq with hpair
            injection hpair with h1 h2
            subst h1
            subst h2
            obtain ⟨hpost, hv⟩ := serPost_finish hwf hcv
              (serPost_refl (dwf_cache_insert hwf hcv))
              (Encodes.func r name hhr)
            exact ⟨hpost, hv, fun _ => rfl⟩
          | arr elems =>
            simp only [] at heq
            cases hL : serializeList h f elems
                ⟨(JSVal.ref r, s.nextId) :: s.cache, s.nextId + 1, s.table⟩ with
            | error e =>
              rw [hL] at heq
              exact Except.noConfusion heq
            | ok p2 =>
              rw [hL] at heq
              obtain ⟨ids, s2⟩ := p2
              simp only [except_bind_ok] at heq
              injection heq with hpair
              injection hpair with h1 h2
              subst h1
              subst h2
              obtain ⟨hpostL, hfor⟩ := Hlist h elems _ ids s2 hL
                (dwf_cache_insert hwf hcv)
              obtain ⟨hpost, hv⟩ := serPost_finish hwf hcv hpostL
                (Encodes.arr r elems ids hhr hfor)
              exact ⟨hpost, hv, fun _ => rfl⟩
          | obj props =>
            simp only [] at heq
            cases hP : serializeProps h f (props.filter (fun kv => kv.1 ≠ "checker"))
                ⟨(JSVal.ref r, s.nextId) :: s.cache, s.nextId + 1, s.table⟩ with
            | error e =>
              rw [hP] at heq
              exact Except.noConfusion heq
            | ok p2 =>
              rw [hP] at heq
              obtain ⟨prs, s2⟩ := p2
              simp only [except_bind_ok] at heq
              injection heq with hpair
              injection hpair with h1 h2
              subst h1
              subst h2
              obtain ⟨hpostP, hfor⟩ := Hprops h _ _ prs s2 hP
                (dwf_cache_insert hwf hcv)
              obtain ⟨hpost, hv⟩ := serPost_finish hwf hcv hpostP
                (Encodes.obj r props prs hhr hfor)
              exact ⟨hpost, hv, fun _ => rfl⟩
  have Hlist2 : ∀ (h : Heap) (vs : List JSVal) (s : DState) (ids : List Nat)
      (sf : DState),
      serializeList h fuel vs s = Except.ok (ids, sf) → DWF h s →
      SerPost h s sf ∧
        List.Forall₂ (fun e j => lookupA sf.cache e = some j) vs ids := by
    intro h vs
    induction vs with
    | nil =>
      intro s ids sf heq hwf
      rw [serializeList] at heq
      injection heq with hpair
      injection hpair with h1 h2
      subst h1
      subst h2
      exact ⟨serPost_refl hwf, List.Forall₂.nil⟩
    | cons v vs ihvs =>
      intro s ids sf heq hwf
      rw [serializeList] at heq
      cases hS : serialize h fuel v s with
      | error e =>
        rw [hS] at heq
        exact Except.noConfusion heq
      | ok p1 =>
        rw [hS] at heq
        obtain ⟨j, s1⟩ := p1
        simp only [except_bind_ok] at heq
        cases hL : serializeList h fuel vs s1 with
        | error e =>
          rw [hL] at heq
          exact Except.noConfusion heq
        | ok p2 =>
          rw [hL] at heq
          obtain ⟨ids2, s2⟩ := p2
          simp only [except_bind_ok] at heq
          injection heq with hpair
          injection hpair with h1 h2
          subst h2
          obtain ⟨hpost1, hv1, _⟩ := Hser h v s j s1 hS hwf
          obtain ⟨hpost2, hfor2⟩ := ihvs s1 ids2 s2 hL hpost1.wf
          rw [← h1]
          exact ⟨serPost_trans hpost1 hpost2,
            List.Forall₂.cons (serPost_lookup_lift hpost2 hv1) hfor2⟩
  have Hprops2 : ∀ (h : Heap) (kvs : List (String × JSVal)) (s : DState)
      (prs : List (String × Nat)) (sf : DState),
      serializeProps h fuel kvs s = Except.ok (prs, sf) → DWF h s →
      SerPost h s sf ∧
        List.Forall₂ (fun kv kj => kv.1 = kj.1 ∧ lookupA sf.cache kv.2 = some kj.2)
          kvs prs := by
    intro h kvs
    induction kvs with
    | nil =>
      intro s prs sf heq hwf
      rw [serializeProps] at heq
      injection heq with hpair
      injection hpair with h1 h2
      subst h1
      subst h2
      exact ⟨serPost_refl hwf, List.Forall₂.nil⟩
    | cons kv kvs ihkvs =>
      intro s prs sf heq hwf
      obtain ⟨k, v⟩ := kv
      rw [serializeProps] at heq
      cases hS : serialize h fuel v s with
      | error e =>
        rw [hS] at heq
        exact Except.noConfusion heq
      | ok p1 =>
        rw [hS] at heq
        obtain ⟨j, s1⟩ := p1
        simp only [except_bind_ok] at heq
        cases hP : serializeProps h fuel kvs s1 with
        | error e =>
          rw [hP] at heq
          exact Except.noConfusion heq
        | ok p2 =>
          rw [hP] at heq
          obtain ⟨prs2, s2⟩ := p2
          simp only [except_bind_ok] at heq
          injection heq with hpair
          injection hpair with h1 h2
          subst h2
          obtain ⟨hpost1, hv1, _⟩ := Hser h v s j s1 hS hwf
          obtain ⟨hpost2, hfor2⟩ := ihkvs s1 prs2 s2 hP hpost1.wf
          rw [← h1]
          exact ⟨serPost_trans hpost1 hpost2,
            List.Forall₂.cons ⟨rfl, serPost_lookup_lift hpost2 hv1⟩ hfor2⟩
  exact ⟨Hser, Hlist2, Hprops2⟩

theorem dwf_init (h : Heap) : DWF h ⟨[], 0, []⟩ := by
  constructor <;> simp

theorem hwf_init (t : DTable) : HWF t ⟨[], [], []⟩ := by
  constructor <;> simp

theorem hpost_refl {t : DTable} {s : HState} (hwf : HWF t s) : HPost t s s :=
  ⟨⟨[], rfl⟩, ⟨[], rfl⟩, rfl,
   fun k hk1 hk2 => absurd hk1 hk2,
   fun k hk1 hk2 => absurd hk1 hk2,
   hwf⟩

theorem hpost_trans {t : DTable} {s1 s2 s3 : HState}
    (p12 : HPost t s1 s2) (p23 : HPost t s2 s3) : HPost t s1 s3 := by
  obtain ⟨nv1, hv1⟩ := p12.vis_ext
  obtain ⟨nv2, hv2⟩ := p23.vis_ext
  obtain ⟨no1, ho1⟩ := p12.out_ext
  obtain ⟨no2, ho2⟩ := p23.out_ext
  refine ⟨⟨nv2 ++ nv1, by rw [hv2, hv1, List.append_assoc]⟩,
    ⟨no2 ++ no1, by rw [ho2, ho1, List.append_assoc]⟩,
    p23.pending_eq.trans p12.pending_eq, ?_, ?_, p23.wf⟩
  · intro k hk3 hk1
    by_cases hk2 : k ∈ s2.visited
    · have := p12.covered k hk2 hk1
      rw [ho2, List.map_append]
      exact List.mem_append_right _ this
    · exact p23.covered k hk3 hk2
  · intro k hk3 hk1
    by_cases hk2 : k ∈ s2.out.map Prod.fst
    · exact p12.okeys_fresh k hk2 hk1
    · have hns2 : k ∉ s2.visited := p23.okeys_fresh k hk3 hk2
      intro hkv
      exact hns2 (by rw [hv1]; exact List.mem_append_right _ hkv)

theorem hwf_visit_insert {t : DTable} {s : HState} {i : Nat}
    (hwf : HWF t s) (hvis : i ∉ s.visited) :
    HWF t ⟨i :: s.visited, s.pending, s.out⟩ := by
  refine ⟨List.Nodup.cons hvis hwf.visited_nodup, ?_, hwf.out_nodup, ?_,
    hwf.out_content, ?_⟩
  · intro j hj
    exact List.mem_cons_of_mem _ (hwf.pend_sub j hj)
  · intro q hq
    exact List.mem_cons_of_mem _ (hwf.out_sub q hq)
  · intro q hq k2 hc ho2
    exact List.mem_cons_of_mem _ (hwf.out_children q hq k2 hc ho2)

theorem hwf_visit_insert_arr {t : DTable} {s : HState} {i : Nat}
    (hwf : HWF t s) (hvis : i ∉ s.visited) :
    HWF t ⟨i :: s.visited, i :: s.pending, s.out⟩ := by
  refine ⟨List.Nodup.cons hvis hwf.visited_nodup, ?_, hwf.out_nodup, ?_,
    hwf.out_content, ?_⟩
  · intro j hj
    rcases List.mem_cons.mp hj with hc1 | hc2
    · rw [hc1]
      exact List.mem_cons_self _ _
    · exact List.mem_cons_of_mem _ (hwf.pend_sub j hc2)
  · intro q hq
    exact List.mem_cons_of_mem _ (hwf.out_sub q hq)
  · intro q hq k2 hc ho2
    exact List.mem_cons_of_mem _ (hwf.out_children q hq k2 hc ho2)

theorem hpost_finish {t : DTable} {s s2 : HState} {i : Nat} {o : HObj}
    {pend1 pendF : List Nat}
    (hwf : HWF t s) (hvis : i ∉ s.visited)
    (hpost : HPost t ⟨i :: s.visited, pend1, s.out⟩ s2)
    (hpendF : pendF = s.pending)
    (hdec : DecodesNode t i o)
    (hchild : ∀ k2, ChildIdOf t i k2 → IsObjNode t k2 → k2 ∈ s2.visited) :
    HPost t s ⟨s2.visited, pendF, (i, o) :: s2.out⟩ ∧ i ∈ s2.visited := by
  obtain ⟨nv, hv⟩ := hpost.vis_ext
  obtain ⟨no2, ho⟩ := hpost.out_ext
  simp only [] at hv ho
  have hiv2 : i ∈ s2.visited := by
    rw [hv]
    exact List.mem_append_right _ (List.mem_cons_self _ _)
  have hinotout : i ∉ s2.out.map Prod.fst := by
    intro hc
    by_cases hold : i ∈ s.out.map Prod.fst
    · obtain ⟨q, hqmem, hq⟩ := List.mem_map.mp hold
      have := hwf.out_sub q hqmem
      rw [hq] at this
      exact hvis this
    · have := hpost.okeys_fresh i hc (by simpa using hold)
      exact this (List.mem_cons_self _ _)
  refine ⟨⟨⟨nv ++ [i], by rw [hv]; simp⟩,
    ⟨(i, o) :: no2, by rw [ho]; simp⟩, hpendF, ?_, ?_, ?_⟩, hiv2⟩
  · intro k hk3 hk1
    by_cases hki : k = i
    · subst hki
      simp
    · have hk1b : k ∉ i :: s.visited := by
        intro hc
        rcases List.mem_cons.mp hc with hc1 | hc2
        · exact hki hc1
        · exact hk1 hc2
      have := hpost.covered k hk3 hk1b
      simp only [List.map_cons]
      exact List.mem_cons_of_mem _ this
  · intro k hk3 hk1
    simp only [List.map_cons] at hk3
    rcases List.mem_cons.mp hk3 with hc1 | hc2
    · subst hc1
      exact hvis
    · intro hkv
      exact hpost.okeys_fresh k hc2 hk1 (List.mem_cons_of_mem _ hkv)
  · refine ⟨hpost.wf.visited_nodup, ?_, ?_, ?_, ?_, ?_⟩
    · intro j hj
      rw [hpendF] at hj
      rw [hv]
      exact List.mem_append_right _ (List.mem_cons_of_mem _ (hwf.pend_sub j hj))
    · simp only [List.map_cons]
      exact List.Nodup.cons hinotout hpost.wf.out_nodup
    · intro q hq
      rcases List.mem_cons.mp hq with hc1 | hc2
      · rw [hc1]
        exact hiv2
      · exact hpost.wf.out_sub q hc2
    · intro q hq
      rcases List.mem_cons.mp hq with hc1 | hc2
      · rw [hc1]
        exact hdec
      · exact hpost.wf.out_content q hc2
    · intro q hq k2 hck2 hok2
      rcases List.mem_cons.mp hq with hc1 | hc2
      · rw [hc1] at hck2
        exact hchild k2 hck2 hok2
      · exact hpost.wf.out_children q hc2 k2 hck2 hok2

theorem hpost_vis_mono {t : DTable} {s1 s2 : HState} {k : Nat}
    (p : HPost t s1 s2) (hk : k ∈ s1.visited) : k ∈ s2.visited := by
  obtain ⟨nv, hv⟩ := p.vis_ext
  rw [hv]
  exact List.mem_append_right _ hk

theorem deserialize_post (rank : Nat → Nat) :
    ∀ fuel : Nat,
      (∀ (t : DTable) (k : Nat) (s : HState) (v : JSVal) (sf : HState),
        TableRanked t rank →
        deserialize t fuel k s = Except.ok (v, sf) → HWF t s →
        (IsObjNode t k → ∀ j ∈ s.pending, rank k < rank j) →
        HPost t s sf ∧ v = nodeVal t k ∧
          (IsObjNode t k → k ∈ sf.visited)) ∧
      (∀ (t : DTable) (ks : List Nat) (s : HState) (vs : List JSVal) (sf : HState),
        TableRanked t rank →
        deserializeList t fuel ks s = Except.ok (vs, sf) → HWF t s →
        (∀ k ∈ ks, IsObjNode t k → ∀ j ∈ s.pending, rank k < rank j) →
        HPost t s sf ∧ vs = ks.map (nodeVal t) ∧
          (∀ k ∈ ks, IsObjNode t k → k ∈ sf.visited)) ∧
      (∀ (t : DTable) (prs : List (String × Nat)) (s : HState)
          (res : List (String × JSVal)) (sf : HState),
        TableRanked t rank →
        deserializeProps t fuel prs s = Except.ok (res, sf) → HWF t s →
        (∀ q ∈ prs, IsObjNode t q.2 → ∀ j ∈ s.pending, rank q.2 < rank j) →
        HPost t s sf ∧ res = prs.map (fun kj => (kj.1, nodeVal t kj.2)) ∧
          (∀ kj ∈ prs, IsObjNode t kj.2 → kj.2 ∈ sf.visited)) := by
  intro fuel
  induction fuel using Nat.strong_induction_on with
  | _ fuel IH =>
  have Hdes : ∀ (t : DTable) (k : Nat) (s : HState) (v : JSVal) (sf : HState),
      TableRanked t rank →
      deserialize t fuel k s = Except.ok (v, sf) → HWF t s →
      (IsObjNode t k → ∀ j ∈ s.pending, rank k < rank j) →
      HPost t s sf ∧ v = nodeVal t k ∧
        (IsObjNode t k → k ∈ sf.visited) := by
    intro t k s v sf htr heq hwf hrk
    match fuel, heq with
    | 0, heq =>
      simp only [deserialize] at heq
      exact Except.noConfusion heq
    | f + 1, heq =>
    obtain ⟨Hlist, Hprops⟩ := (IH f (Nat.lt_succ_self f)).2
    rw [deserialize] at heq
    cases hk : lookupA t k with
    | none =>
      rw [hk] at heq
      simp only [] at heq
      injection heq with hpair
      injection hpair with h1 h2
      subst h1
      subst h2
      refine ⟨hpost_refl hwf, by simp only [nodeVal, hk], fun hobj => ?_⟩
      rcases hobj with ⟨ids, hl⟩ | ⟨pairs, hl⟩ <;>
        (rw [hk] at hl; exact Option.noConfusion hl)
    | some node =>
      rw [hk] at heq
      cases node with
      | prim p =>
        simp only [] at heq
        injection heq with hpair
        injection hpair with h1 h2
        subst h1
        subst h2
        refine ⟨hpost_refl hwf, by simp only [nodeVal, hk], fun hobj => ?_⟩
        rcases hobj with ⟨ids, hl⟩ | ⟨pairs, hl⟩ <;>
          (rw [hk] at hl
           exact DNode.noConfusion (Option.some.inj hl))
      | arr ids =>
        simp only [] at heq
        by_cases hm : k ∈ s.visited
        · rw [if_pos hm] at heq
          by_cases hp : k ∈ s.pending
          · exact absurd (hrk (Or.inl ⟨ids, hk⟩) k hp) (Nat.lt_irrefl _)
          · rw [if_neg hp] at heq
            injection heq with hpair
            injection hpair with h1 h2
            subst h1
            subst h2
            exact ⟨hpost_refl hwf, by simp only [nodeVal, hk], fun _ => hm⟩
        · rw [if_neg hm] at heq
          cases hL : deserializeList t f ids ⟨k :: s.visited, k :: s.pending, s.out⟩ with
          | error e =>
            rw [hL] at heq
            exact Except.noConfusion heq
          | ok p2 =>
            rw [hL] at heq
            obtain ⟨elems, s2⟩ := p2
            simp only [except_bind_ok] at heq
            injection heq with hpair
            injection hpair with h1 h2
            subst h1
            subst h2
            have hrkids : ∀ k2 ∈ ids, IsObjNode t k2 →
                ∀ j ∈ (⟨k :: s.visited, k :: s.pending, s.out⟩ : HState).pending,
                rank k2 < rank j := by
              intro k2 hk2 hobj2 j hj
              have hlt : rank k2 < rank k := htr.1 k ids hk k2 hk2 hobj2
              rcases List.mem_cons.mp hj with hc1 | hc2
              · rw [hc1]
                exact hlt
              · exact Nat.lt_trans hlt (hrk (Or.inl ⟨ids, hk⟩) j hc2)
            obtain ⟨hpostL, helems, hchildvis⟩ := Hlist t ids _ elems s2 htr hL
              (hwf_visit_insert_arr hwf hm) hrkids
            have hdec : DecodesNode t k (HObj.arr elems) :=
              Or.inl ⟨ids, hk, by rw [helems]⟩
            have hchild : ∀ k2, ChildIdOf t k k2 → IsObjNode t k2 →
                k2 ∈ s2.visited := by
              intro k2 hck2 hok2
              rcases hck2 with ⟨ids2, hdl, hmem2⟩ | ⟨pairs2, hdl, _⟩
              · rw [hk] at hdl
                obtain rfl := DNode.arr.inj (Option.some.inj hdl)
                exact hchildvis k2 hmem2 hok2
              · rw [hk] at hdl
                exact DNode.noConfusion (Option.some.inj hdl)
            have hpendF : s2.pending.erase k = s.pending := by
              have hpe : s2.pending = k :: s.pending := hpostL.pending_eq
              rw [hpe]
              exact List.erase_cons_head _ _
            obtain ⟨hpost, hiv⟩ := hpost_finish hwf hm hpostL hpendF hdec hchild
            exact ⟨hpost, by simp only [nodeVal, hk], fun _ => hiv⟩
      | obj pairs =>
        simp only [] at heq
        by_cases hm : k ∈ s.visited
        · rw [if_pos hm] at heq
          injection heq with hpair
          injection hpair with h1 h2
          subst h1
          subst h2
          exact ⟨hpost_refl hwf, by simp only [nodeVal, hk], fun _ => hm⟩
        · rw [if_neg hm] at heq
          cases hP : deserializeProps t f pairs ⟨k :: s.visited, s.pending, s.out⟩ with
          | error e =>
            rw [hP] at heq
            exact Except.noConfusion heq
          | ok p2 =>
            rw [hP] at heq
            obtain ⟨props, s2⟩ := p2
            simp only [except_bind_ok] at heq
            injection heq with hpair
            injection hpair with h1 h2
            subst h1
            subst h2
            have hrkprs : ∀ q ∈ pairs, IsObjNode t q.2 →
                ∀ j ∈ (⟨k :: s.visited, s.pending, s.out⟩ : HState).pending,
                rank q.2 < rank j := by
              intro q hq hobj2 j hj
              have hle : rank q.2 ≤ rank k := htr.2 k pairs hk q hq hobj2
              exact Nat.lt_of_le_of_lt hle (hrk (Or.inr ⟨pairs, hk⟩) j hj)
            obtain ⟨hpostP, hprops, hchildvis⟩ := Hprops t pairs _ props s2 htr hP
              (hwf_visit_insert hwf hm) hrkprs
            have hdec : DecodesNode t k (HObj.obj props) :=
              Or.inr ⟨pairs, hk, by rw [hprops]⟩
            have hchild : ∀ k2, ChildIdOf t k k2 → IsObjNode t k2 →
                k2 ∈ s2.visited := by
              intro k2 hck2 hok2
              rcases hck2 with ⟨ids2, hdl, _⟩ | ⟨pairs2, hdl, hkey⟩
              · rw [hk] at hdl
                exact DNode.noConfusion (Option.some.inj hdl)
              · rw [hk] at hdl
                obtain rfl := DNode.obj.inj (Option.some.inj hdl)
                obtain ⟨key, hkmem⟩ := hkey
                exact hchildvis (key, k2) hkmem hok2
            have hpendF : s2.pending = s.pending := hpostP.pending_eq
            obtain ⟨hpost, hiv⟩ := hpost_finish hwf hm hpostP hpendF hdec hchild
            exact ⟨hpost, by simp only [nodeVal, hk], fun _ => hiv⟩
  have Hlist2 : ∀ (t : DTable) (ks : List Nat) (s : HState) (vs : List JSVal)
      (sf : HState),
      TableRanked t rank →
      deserializeList t fuel ks s = Except.ok (vs, sf) → HWF t s →
      (∀ k ∈ ks, IsObjNode t k → ∀ j ∈ s.pending, rank k < rank j) →
      HPost t s sf ∧ vs = ks.map (nodeVal t) ∧
        (∀ k ∈ ks, IsObjNode t k → k ∈ sf.visited) := by
    intro t ks
    induction ks with
    | nil =>
      intro s vs sf htr heq hwf hrk
      rw [deserializeList] at heq
      injection heq with hpair
      injection hpair with h1 h2
      subst h1
      subst h2
      exact ⟨hpost_refl hwf, rfl, by simp⟩
    | cons k ks ihks =>
      intro s vs sf htr heq hwf hrk
      rw [deserializeList] at heq
      cases hS : deserialize t fuel k s with
      | error e =>
        rw [hS] at heq
        exact Except.noConfusion heq
      | ok p1 =>
        rw [hS] at heq
        obtain ⟨v1, s1⟩ := p1
        simp only [except_bind_ok] at heq
        cases hL : deserializeList t fuel ks s1 with
        | error e =>
          rw [hL] at heq
          exact Except.noConfusion heq
        | ok p2 =>
          rw [hL] at heq
          obtain ⟨vs2, s2⟩ := p2
          simp only [except_bind_ok] at heq
          injection heq with hpair
          injection hpair with h1 h2
          subst h2
          obtain ⟨hpost1, hv1, hvis1⟩ := Hdes t k s v1 s1 htr hS hwf
            (hrk k (List.mem_cons_self _ _))
          have hrk2 : ∀ k2 ∈ ks, IsObjNode t k2 → ∀ j ∈ s1.pending,
              rank k2 < rank j := by
            intro k2 hk2 hobj2 j hj
            rw [hpost1.pending_eq] at hj
            exact hrk k2 (List.mem_cons_of_mem _ hk2) hobj2 j hj
          obtain ⟨hpost2, hvs2, hvis2⟩ := ihks s1 vs2 s2 htr hL hpost1.wf hrk2
          refine ⟨hpost_trans hpost1 hpost2, ?_, ?_⟩
          · rw [← h1, hv1, hvs2, List.map_cons]
          · intro j hj hobj
            rcases List.mem_cons.mp hj with hc1 | hc2
            · subst hc1
              exact hpost_vis_mono hpost2 (hvis1 hobj)
            · exact hvis2 j hc2 hobj
  have Hprops2 : ∀ (t : DTable) (prs : List (String × Nat)) (s : HState)
      (res : List (String × JSVal)) (sf : HState),
      TableRanked t rank →
      deserializeProps t fuel prs s = Except.ok (res, sf) → HWF t s →
      (∀ q ∈ prs, IsObjNode t q.2 → ∀ j ∈ s.pending, rank q.2 < rank j) →
      HPost t s sf ∧ res = prs.map (fun kj => (kj.1, nodeVal t kj.2)) ∧
        (∀ kj ∈ prs, IsObjNode t kj.2 → kj.2 ∈ sf.visited) := by
    intro t prs
    induction prs with
    | nil =>
      intro s res sf htr heq hwf hrk
      rw [deserializeProps] at heq
      injection heq with hpair
      injection hpair with h1 h2
      subst h1
      subst h2
      exact ⟨hpost_refl hwf, rfl, by simp⟩
    | cons kj prs ihprs =>
      intro s res sf htr heq hwf hrk
      obtain ⟨key, k⟩ := kj
      rw [deserializeProps] at heq
      cases hS : deserialize t fuel k s with
      | error e =>
        rw [hS] at heq
        exact Except.noConfusion heq
      | ok p1 =>
        rw [hS] at heq
        obtain ⟨v1, s1⟩ := p1
        simp only [except_bind_ok] at heq
        cases hP : deserializeProps t fuel prs s1 with
        | error e =>
          rw [hP] at heq
          exact Except.noConfusion heq
        | ok p2 =>
          rw [hP] at heq
          obtain ⟨res2, s2⟩ := p2
          simp only [except_bind_ok] at heq
          injection heq with hpair
          injection hpair with h1 h2
          subst h2
          obtain ⟨hpost1, hv1, hvis1⟩ := Hdes t k s v1 s1 htr hS hwf
            (hrk (key, k) (List.mem_cons_self _ _))
          have hrk2 : ∀ q ∈ prs, IsObjNode t q.2 → ∀ j ∈ s1.pending,
              rank q.2 < rank j := by
            intro q hq hobj2 j hj
            rw [hpost1.pending_eq] at hj
            exact hrk q (List.mem_cons_of_mem _ hq) hobj2 j hj
          obtain ⟨hpost2, hres2, hvis2⟩ := ihprs s1 res2 s2 htr hP hpost1.wf hrk2
          refine ⟨hpost_trans hpost1 hpost2, ?_, ?_⟩
          · rw [← h1, hv1, hres2, List.map_cons]
          · intro q hq hobj
            rcases List.mem_cons.mp hq with hc1 | hc2
            · subst hc1
              exact hpost_vis_mono hpost2 (hvis1 hobj)
            · exact hvis2 q hc2 hobj
  exact ⟨Hdes, Hlist2, Hprops2⟩

theorem lookupA_append_none {α β : Type} [DecidableEq α] {l1 l2 : List (α × β)}
    {a : α} (h : lookupA (l1 ++ l2) a = none) : lookupA l2 a = none := by
  rw [lookupA_append] at h
  cases h1 : lookupA l1 a with
  | some b =>
    rw [h1] at h
    simp only [] at h
    exact Option.noConfusion h
  | none =>
    rw [h1] at h
    simp only [] at h
    exact h

theorem unvisitedRefs_mono (h : Heap) (nc c : List (JSVal × Nat)) :
    unvisitedRefs h (nc ++ c) ≤ unvisitedRefs h c := by
  simp only [unvisitedRefs]
  apply filter_length_le
  intro a ha
  simp only [decide_eq_true_eq] at ha ⊢
  exact lookupA_append_none ha

theorem unvisitedRefs_cons_lt {h : Heap} {c : List (JSVal × Nat)} {r i : Nat}
    (hr : r ∈ h.map Prod.fst) (hnone : lookupA c (JSVal.ref r) = none) :
    unvisitedRefs h ((JSVal.ref r, i) :: c) < unvisitedRefs h c := by
  obtain ⟨node, hnode⟩ := mem_keys_lookupA hr
  simp only [unvisitedRefs]
  refine filter_length_lt _ _ ?_ (lookupA_mem hnode) ?_ ?_
  · intro a ha
    simp only [decide_eq_true_eq] at ha ⊢
    simp only [lookupA] at ha
    by_cases hb : JSVal.ref a.1 = JSVal.ref r
    · rw [if_pos hb] at ha
      exact Option.noConfusion ha
    · rw [if_neg hb] at ha
      exact ha
  · simp [hnone]
  · simp [lookupA]

theorem unvisitedIds_mono (t : DTable) (nv vis : List Nat) :
    unvisitedIds t (nv ++ vis) ≤ unvisitedIds t vis := by
  simp only [unvisitedIds]
  apply filter_length_le
  intro a ha
  simp only [decide_eq_true_eq] at ha ⊢
  intro hc
  exact ha (List.mem_append_right _ hc)

theorem unvisitedIds_cons_lt {t : DTable} {vis : List Nat} {k : Nat} {d : DNode}
    (hmem : (k, d) ∈ t) (hk : k ∉ vis) :
    unvisitedIds t (k :: vis) < unvisitedIds t vis := by
  simp only [unvisitedIds]
  refine filter_length_lt _ _ ?_ hmem ?_ ?_
  · intro a ha
    simp only [decide_eq_true_eq] at ha ⊢
    intro hc
    exact ha (List.mem_cons_of_mem _ hc)
  · simp [hk]
  · simp

theorem serialize_ok :
    ∀ fuel : Nat,
      (∀ (h : Heap) (v : JSVal) (s : DState), CleanHeap h → CleanVal h v →
        DWF h s → unvisitedRefs h s.cache < fuel →
        ∃ i sf, serialize h fuel v s = Except.ok (i, sf)) ∧
      (∀ (h : Heap) (vs : List JSVal) (s : DState), CleanHeap h →
        (∀ e ∈ vs, CleanVal h e) → DWF h s → unvisitedRefs h s.cache < fuel →
        ∃ ids sf, serializeList h fuel vs s = Except.ok (ids, sf)) ∧
      (∀ (h : Heap) (kvs : List (String × JSVal)) (s : DState), CleanHeap h →
        (∀ kv ∈ kvs, CleanVal h kv.2) → DWF h s → unvisitedRefs h s.cache < fuel →
        ∃ prs sf, serializeProps h fuel kvs s = Except.ok (prs, sf)) := by
  intro fuel
  induction fuel using Nat.strong_induction_on with
  | _ fuel IH =>
  have Hser : ∀ (h : Heap) (v : JSVal) (s : DState), CleanHeap h → CleanVal h v →
      DWF h s → unvisitedRefs h s.cache < fuel →
      ∃ i sf, serialize h fuel v s = Except.ok (i, sf) := by
    intro h v s hclean hv hwf hfuel
    match fuel, hfuel with
    | 0, hfuel => exact absurd hfuel (Nat.not_lt_zero _)
    | f + 1, hfuel =>
    rw [serialize]
    cases hcv : lookupA s.cache v with
    | some i0 =>
      simp only []
      exact ⟨i0, s, rfl⟩
    | none =>
      simp only []
      cases v with
      | null => exact hv.elim
      | prim p => exact ⟨_, _, rfl⟩
      | ref r =>
        simp only []
        obtain ⟨node, hnode⟩ := mem_keys_lookupA hv
        rw [hnode]
        have hb1 : unvisitedRefs h ((JSVal.ref r, s.nextId) :: s.cache)
            < unvisitedRefs h s.cache := unvisitedRefs_cons_lt hv hcv
        have hb : unvisitedRefs h ((JSVal.ref r, s.nextId) :: s.cache) < f :=
          Nat.lt_of_lt_of_le hb1 (Nat.lt_succ_iff.mp hfuel)
        cases node with
        | func name =>
          exact absurd (hclean.2 _ (lookupA_mem hnode)) (fun hc => hc)
        | arr elems =>
          obtain ⟨ids, s2, hL⟩ := (IH f (Nat.lt_succ_self f)).2.1 h elems
            ⟨(JSVal.ref r, s.nextId) :: s.cache, s.nextId + 1, s.table⟩ hclean
            (hclean.2 _ (lookupA_mem hnode)) (dwf_cache_insert hwf hcv) hb
          simp only []
          rw [hL]
          simp only [except_bind_ok]
          exact ⟨_, _, rfl⟩
        | obj props =>
          have hcp : ∀ kv ∈ props.filter (fun kv => kv.1 ≠ "checker"),
              CleanVal h kv.2 := by
            intro kv hkv
            exact (hclean.2 _ (lookupA_mem hnode) kv
              (List.mem_of_mem_filter hkv)).2
          obtain ⟨prs, s2, hP⟩ := (IH f (Nat.lt_succ_self f)).2.2 h
            (props.filter (fun kv => kv.1 ≠ "checker"))
            ⟨(JSVal.ref r, s.nextId) :: s.cache, s.nextId + 1, s.table⟩ hclean
            hcp (dwf_cache_insert hwf hcv) hb
          simp only []
          rw [hP]
          simp only [except_bind_ok]
          exact ⟨_, _, rfl⟩
  have Hlist2 : ∀ (h : Heap) (vs : List JSVal) (s : DState), CleanHeap h →
      (∀ e ∈ vs, CleanVal h e) → DWF h s → unvisitedRefs h s.cache < fuel →
      ∃ ids sf, serializeList h fuel vs s = Except.ok (ids, sf) := by
    intro h vs
    induction vs with
    | nil =>
      intro s hclean hc hwf hfuel
      rw [serializeList]
      exact ⟨[], s, rfl⟩
    | cons v vs ihvs =>
      intro s hclean hc hwf hfuel
      obtain ⟨i1, s1, hS⟩ := Hser h v s hclean (hc v (List.mem_cons_self _ _))
        hwf hfuel
      obtain ⟨hpost1, -, -⟩ := (serialize_post fuel).1 h v s i1 s1 hS hwf
      obtain ⟨nc, hnc⟩ := hpost1.cache_ext
      have hb : unvisitedRefs h s1.cache < fuel := by
        rw [hnc]
        exact Nat.lt_of_le_of_lt (unvisitedRefs_mono h nc s.cache) hfuel
      obtain ⟨ids, s2, hL⟩ := ihvs s1 hclean
        (fun e he => hc e (List.mem_cons_of_mem _ he)) hpost1.wf hb
      rw [serializeList, hS]
      simp only [except_bind_ok]
      rw [hL]
      simp only [except_bind_ok]
      exact ⟨_, _, rfl⟩
  have Hprops2 : ∀ (h : Heap) (kvs : List (String × JSVal)) (s : DState),
      CleanHeap h → (∀ kv ∈ kvs, CleanVal h kv.2) → DWF h s →
      unvisitedRefs h s.cache < fuel →
      ∃ prs sf, serializeProps h fuel kvs s = Except.ok (prs, sf) := by
    intro h kvs
    induction kvs with
    | nil =>
      intro s hclean hc hwf hfuel
      rw [serializeProps]
      exact ⟨[], s, rfl⟩
    | cons kv kvs ihkvs =>
      intro s hclean hc hwf hfuel
      obtain ⟨key, v⟩ := kv
      obtain ⟨i1, s1, hS⟩ := Hser h v s hclean
        (hc (key, v) (List.mem_cons_self _ _)) hwf hfuel
      obtain ⟨hpost1, -, -⟩ := (serialize_post fuel).1 h v s i1 s1 hS hwf
      obtain ⟨nc, hnc⟩ := hpost1.cache_ext
      have hb : unvisitedRefs h s1.cache < fuel := by
        rw [hnc]
        exact Nat.lt_of_le_of_lt (unvisitedRefs_mono h nc s.cache) hfuel
      obtain ⟨prs, s2, hP⟩ := ihkvs s1 hclean
        (fun q hq => hc q (List.mem_cons_of_mem _ hq)) hpost1.wf hb
      rw [serializeProps, hS]
      simp only [except_bind_ok]
      rw [hP]
      simp only [except_bind_ok]
      exact ⟨_, _, rfl⟩
  exact ⟨Hser, Hlist2, Hprops2⟩

theorem deserialize_ok (rank : Nat → Nat) :
    ∀ fuel : Nat,
      (∀ (t : DTable) (k : Nat) (s : HState), TableRanked t rank → HWF t s →
        (IsObjNode t k → ∀ j ∈ s.pending, rank k < rank j) →
        unvisitedIds t s.visited < fuel →
        ∃ v sf, deserialize t fuel k s = Except.ok (v, sf)) ∧
      (∀ (t : DTable) (ks : List Nat) (s : HState), TableRanked t rank → HWF t s →
        (∀ k ∈ ks, IsObjNode t k → ∀ j ∈ s.pending, rank k < rank j) →
        unvisitedIds t s.visited < fuel →
        ∃ vs sf, deserializeList t fuel ks s = Except.ok (vs, sf)) ∧
      (∀ (t : DTable) (prs : List (String × Nat)) (s : HState),
        TableRanked t rank → HWF t s →
        (∀ q ∈ prs, IsObjNode t q.2 → ∀ j ∈ s.pending, rank q.2 < rank j) →
        unvisitedIds t s.visited < fuel →
        ∃ res sf, deserializeProps t fuel prs s = Except.ok (res, sf)) := by
  intro fuel
  induction fuel using Nat.strong_induction_on with
  | _ fuel IH =>
  have Hdes : ∀ (t : DTable) (k : Nat) (s : HState), TableRanked t rank →
      HWF t s → (IsObjNode t k → ∀ j ∈ s.pending, rank k < rank j) →
      unvisitedIds t s.visited < fuel →
      ∃ v sf, deserialize t fuel k s = Except.ok (v, sf) := by
    intro t k s htr hwf hrk hfuel
    match fuel, hfuel with
    | 0, hfuel => exact absurd hfuel (Nat.not_lt_zero _)
    | f + 1, hfuel =>
    rw [deserialize]
    cases hk : lookupA t k with
    | none =>
      simp only []
      exact ⟨_, _, rfl⟩
    | some node =>
      cases node with
      | prim p =>
        simp only []
        exact ⟨_, _, rfl⟩
      | arr ids =>
        simp only []
        by_cases hm : k ∈ s.visited
        · rw [if_pos hm]
          by_cases hp : k ∈ s.pending
          · rw [if_pos hp]
            exact ⟨_, _, rfl⟩
          · rw [if_neg hp]
            exact ⟨_, _, rfl⟩
        · rw [if_neg hm]
          have hb1 : unvisitedIds t (k :: s.visited) < unvisitedIds t s.visited :=
            unvisitedIds_cons_lt (lookupA_mem hk) hm
          have hb : unvisitedIds t (k :: s.visited) < f :=
            Nat.lt_of_lt_of_le hb1 (Nat.lt_succ_iff.mp hfuel)
          have hrkids : ∀ k2 ∈ ids, IsObjNode t k2 →
              ∀ j ∈ (⟨k :: s.visited, k :: s.pending, s.out⟩ : HState).pending,
              rank k2 < rank j := by
            intro k2 hk2 hobj2 j hj
            have hlt : rank k2 < rank k := htr.1 k ids hk k2 hk2 hobj2
            rcases List.mem_cons.mp hj with hc1 | hc2
            · rw [hc1]
              exact hlt
            · exact Nat.lt_trans hlt (hrk (Or.inl ⟨ids, hk⟩) j hc2)
          obtain ⟨elems, s2, hL⟩ := (IH f (Nat.lt_succ_self f)).2.1 t ids
            ⟨k :: s.visited, k :: s.pending, s.out⟩ htr
            (hwf_visit_insert_arr hwf hm) hrkids hb
          rw [hL]
          simp only [except_bind_ok]
          exact ⟨_, _, rfl⟩
      | obj pairs =>
        simp only []
        by_cases hm : k ∈ s.visited
        · rw [if_pos hm]
          exact ⟨_, _, rfl⟩
        · rw [if_neg hm]
          have hb1 : unvisitedIds t (k :: s.visited) < unvisitedIds t s.visited :=
            unvisitedIds_cons_lt (lookupA_mem hk) hm
          have hb : unvisitedIds t (k :: s.visited) < f :=
            Nat.lt_of_lt_of_le hb1 (Nat.lt_succ_iff.mp hfuel)
          have hrkprs : ∀ q ∈ pairs, IsObjNode t q.2 →
              ∀ j ∈ (⟨k :: s.visited, s.pending, s.out⟩ : HState).pending,
              rank q.2 < rank j := by
            intro q hq hobj2 j hj
            have hle : rank q.2 ≤ rank k := htr.2 k pairs hk q hq hobj2
            exact Nat.lt_of_le_of_lt hle (hrk (Or.inr ⟨pairs, hk⟩) j hj)
          obtain ⟨props, s2, hP⟩ := (IH f (Nat.lt_succ_self f)).2.2 t pairs
            ⟨k :: s.visited, s.pending, s.out⟩ htr
            (hwf_visit_insert hwf hm) hrkprs hb
          rw [hP]
          simp only [except_bind_ok]
          exact ⟨_, _, rfl⟩
  have Hlist2 : ∀ (t : DTable) (ks : List Nat) (s : HState), TableRanked t rank →
      HWF t s → (∀ k ∈ ks, IsObjNode t k → ∀ j ∈ s.pending, rank k < rank j) →
      unvisitedIds t s.visited < fuel →
      ∃ vs sf, deserializeList t fuel ks s = Except.ok (vs, sf) := by
    intro t ks
    induction ks with
    | nil =>
      intro s htr hwf hrk hfuel
      rw [deserializeList]
      exact ⟨[], s, rfl⟩
    | cons k ks ihks =>
      intro s htr hwf hrk hfuel
      obtain ⟨v1, s1, hS⟩ := Hdes t k s htr hwf (hrk k (List.mem_cons_self _ _))
        hfuel
      obtain ⟨hpost1, -, -⟩ := (deserialize_post rank fuel).1 t k s v1 s1 htr hS
        hwf (hrk k (List.mem_cons_self _ _))
      obtain ⟨nv, hnv⟩ := hpost1.vis_ext
      have hb : unvisitedIds t s1.visited < fuel := by
        rw [hnv]
        exact Nat.lt_of_le_of_lt (unvisitedIds_mono t nv s.visited) hfuel
      have hrk2 : ∀ k2 ∈ ks, IsObjNode t k2 → ∀ j ∈ s1.pending,
          rank k2 < rank j := by
        intro k2 hk2 hobj2 j hj
        rw [hpost1.pending_eq] at hj
        exact hrk k2 (List.mem_cons_of_mem _ hk2) hobj2 j hj
      obtain ⟨vs2, s2, hL⟩ := ihks s1 htr hpost1.wf hrk2 hb
      rw [deserializeList, hS]
      simp only [except_bind_ok]
      rw [hL]
      simp only [except_bind_ok]
      exact ⟨_, _, rfl⟩
  have Hprops2 : ∀ (t : DTable) (prs : List (String × Nat)) (s : HState),
      TableRanked t rank → HWF t s →
      (∀ q ∈ prs, IsObjNode t q.2 → ∀ j ∈ s.pending, rank q.2 < rank j) →
      unvisitedIds t s.visited < fuel →
      ∃ res sf, deserializeProps t fuel prs s = Except.ok (res, sf) := by
    intro t prs
    induction prs with
    | nil =>
      intro s htr hwf hrk hfuel
      rw [deserializeProps]
      exact ⟨[], s, rfl⟩
    | cons kj prs ihprs =>
      intro s htr hwf hrk hfuel
      obtain ⟨key, k⟩ := kj
      obtain ⟨v1, s1, hS⟩ := Hdes t k s htr hwf
        (hrk (key, k) (List.mem_cons_self _ _)) hfuel
      obtain ⟨hpost1, -, -⟩ := (deserialize_post rank fuel).1 t k s v1 s1 htr hS
        hwf (hrk (key, k) (List.mem_cons_self _ _))
      obtain ⟨nv, hnv⟩ := hpost1.vis_ext
      have hb : unvisitedIds t s1.visited < fuel := by
        rw [hnv]
        exact Nat.lt_of_le_of_lt (unvisitedIds_mono t nv s.visited) hfuel
      have hrk2 : ∀ q ∈ prs, IsObjNode t q.2 → ∀ j ∈ s1.pending,
          rank q.2 < rank j := by
        intro q hq hobj2 j hj
        rw [hpost1.pending_eq] at hj
        exact hrk q (List.mem_cons_of_mem _ hq) hobj2 j hj
      obtain ⟨res2, s2, hP⟩ := ihprs s1 htr hpost1.wf hrk2 hb
      rw [deserializeProps, hS]
      simp only [except_bind_ok]
      rw [hP]
      simp only [except_bind_ok]
      exact ⟨_, _, rfl⟩
  exact ⟨Hdes, Hlist2, Hprops2⟩

theorem forall₂_map_rel {α β γ : Type} {R : α → β → Prop} {S : α → γ → Prop}
    {f : β → γ} : ∀ {l1 : List α} {l2 : List β}, List.Forall₂ R l1 l2 →
    (∀ a b, a ∈ l1 → b ∈ l2 → R a b → S a (f b)) →
    List.Forall₂ S l1 (l2.map f) := by
  intro l1 l2 h
  induction h with
  | nil => exact fun _ => List.Forall₂.nil
  | cons hab htail ih =>
    intro hmap
    rw [List.map_cons]
    refine List.Forall₂.cons
      (hmap _ _ (List.mem_cons_self _ _) (List.mem_cons_self _ _) hab) ?_
    exact ih (fun a b ha hb hr =>
      hmap a b (List.mem_cons_of_mem _ ha) (List.mem_cons_of_mem _ hb) hr)

theorem matched_child (h : Heap) (cache : List (JSVal × Nat)) (t : DTable)
    (oks : List Nat) (hclean : CleanHeap h)
    (hids : (cache.map Prod.snd).Nodup)
    (hcov : ∀ j2, j2 ∈ cache.map Prod.snd → j2 ∈ t.map Prod.fst)
    (henc : ∀ q ∈ t, ∃ w, lookupA cache w = some q.1 ∧ Encodes cache h w q.2)
    (e : JSVal) (j : Nat) (hce : CleanVal h e)
    (hlook : lookupA cache e = some j)
    (hjout : IsObjNode t j → j ∈ oks) :
    MatchedVal (fun r i => lookupA cache (JSVal.ref r) = some i ∧ i ∈ oks)
      e (nodeVal t j) := by
  have hjid : j ∈ cache.map Prod.snd := List.mem_map.mpr ⟨_, lookupA_mem hlook, rfl⟩
  obtain ⟨d, hd⟩ := mem_keys_lookupA (hcov j hjid)
  obtain ⟨w, hwl, hwe⟩ := henc (j, d) (lookupA_mem hd)
  have hw : w = e := nodup_ids_key_eq hids (lookupA_mem hwl) (lookupA_mem hlook)
  subst hw
  cases hwe with
  | prim p =>
    simp only [nodeVal, hd]
    exact rfl
  | func r2 name hhf =>
    exact absurd (hclean.2 _ (lookupA_mem hhf)) (fun hc => hc)
  | arr r2 elems ids hha hfa =>
    simp only [nodeVal, hd]
    exact ⟨hlook, hjout (Or.inl ⟨ids, hd⟩)⟩
  | obj r2 props pairs hho hfo =>
    simp only [nodeVal, hd]
    exact ⟨hlook, hjout (Or.inr ⟨pairs, hd⟩)⟩

theorem roundtrip_isBisim (h : Heap) (cache : List (JSVal × Nat)) (t : DTable)
    (sH : HState) (hclean : CleanHeap h)
    (hids : (cache.map Prod.snd).Nodup)
    (htn : (t.map Prod.fst).Nodup)
    (hcov : ∀ j2, j2 ∈ cache.map Prod.snd → j2 ∈ t.map Prod.fst)
    (henc : ∀ q ∈ t, ∃ w, lookupA cache w = some q.1 ∧ Encodes cache h w q.2)
    (hon : (sH.out.map Prod.fst).Nodup)
    (hoc : ∀ q ∈ sH.out, DecodesNode t q.1 q.2)
    (hochild : ∀ q ∈ sH.out, ∀ k2, ChildIdOf t q.1 k2 → IsObjNode t k2 →
      k2 ∈ sH.visited)
    (hvisout : ∀ k ∈ sH.visited, k ∈ sH.out.map Prod.fst) :
    IsBisim h sH.out
      (fun r i => lookupA cache (JSVal.ref r) = some i ∧ i ∈ sH.out.map Prod.fst) := by
  intro r i hrel
  obtain ⟨hlooki, hiout⟩ := hrel
  obtain ⟨⟨i2, o⟩, homem, hi2⟩ := List.mem_map.mp hiout
  simp only [] at hi2
  rw [hi2] at homem
  have hlo : lookupA sH.out i = some o := mem_lookupA_of_nodup hon homem
  have hdec := hoc (i, o) homem
  have hiid : i ∈ cache.map Prod.snd := List.mem_map.mpr ⟨_, lookupA_mem hlooki, rfl⟩
  obtain ⟨d, hd⟩ := mem_keys_lookupA (hcov i hiid)
  obtain ⟨w, hwl, hwe⟩ := henc (i, d) (lookupA_mem hd)
  have hw : w = JSVal.ref r := nodup_ids_key_eq hids (lookupA_mem hwl) (lookupA_mem hlooki)
  subst hw
  cases hwe with
  | func r2 name hhf =>
    exact absurd (hclean.2 _ (lookupA_mem hhf)) (fun hc => hc)
  | arr r2 elems ids hha hfa =>
    refine ⟨HObj.arr elems, o, hha, hlo, ?_⟩
    rcases hdec with ⟨ids2, hdl, rfl⟩ | ⟨pairs2, hdl, rfl⟩
    · rw [hd] at hdl
      obtain rfl := DNode.arr.inj (Option.some.inj hdl)
      have hcln : CleanObj h (HObj.arr elems) := hclean.2 _ (lookupA_mem hha)
      refine forall₂_map_rel hfa ?_
      intro e jj he hjj hr
      refine matched_child h cache t _ hclean hids hcov henc e jj
        (hcln e he) hr (fun hobj => ?_)
      exact hvisout jj (hochild _ homem jj (Or.inl ⟨ids, hd, hjj⟩) hobj)
    · rw [hd] at hdl
      exact DNode.noConfusion (Option.some.inj hdl)
  | obj r2 props pairs hho hfo =>
    refine ⟨HObj.obj props, o, hho, hlo, ?_⟩
    rcases hdec with ⟨ids2, hdl, rfl⟩ | ⟨pairs2, hdl, rfl⟩
    · rw [hd] at hdl
      exact DNode.noConfusion (Option.some.inj hdl)
    · rw [hd] at hdl
      obtain rfl := DNode.obj.inj (Option.some.inj hdl)
      have hcln : CleanObj h (HObj.obj props) := hclean.2 _ (lookupA_mem hho)
      have hfilter : props.filter (fun kv => kv.1 ≠ "checker") = props := by
        apply List.filter_eq_self.mpr
        intro kv hkv
        exact decide_eq_true (hcln kv hkv).1
      rw [hfilter] at hfo
      refine forall₂_map_rel hfo ?_
      intro kv kj hkv hkj hr
      obtain ⟨hk, hl⟩ := hr
      refine ⟨hk, ?_⟩
      refine matched_child h cache t _ hclean hids hcov henc kv.2 kj.2
        ((hcln kv hkv).2) hl (fun hobj => ?_)
      refine hvisout kj.2 (hochild _ homem kj.2
        (Or.inr ⟨pairs, hd, ⟨kj.1, ?_⟩⟩) hobj)
      exact Prod.mk.eta ▸ hkj

theorem forall₂_mem_right {α β : Type} {R : α → β → Prop} {l1 : List α}
    {l2 : List β} (h : List.Forall₂ R l1 l2) {b : β} (hb : b ∈ l2) :
    ∃ a, a ∈ l1 ∧ R a b := by
  induction h with
  | nil => simp at hb
  | cons hab htail ih =>
    rcases List.mem_cons.mp hb with hc1 | hc2
    · exact ⟨_, List.mem_cons_self _ _, hc1 ▸ hab⟩
    · obtain ⟨a, ha, hr⟩ := ih hc2
      exact ⟨a, List.mem_cons_of_mem _ ha, hr⟩

theorem cached_objnode_is_ref {h : Heap} {sF : DState} (hwfF : DWF h sF)
    {e : JSVal} {j : Nat} (hl : lookupA sF.cache e = some j)
    (hobj : IsObjNode sF.table j) : ∃ r2, e = JSVal.ref r2 := by
  rcases hobj with ⟨ids, hd⟩ | ⟨pairs, hd⟩
  · obtain ⟨w, hwl, hwe⟩ := hwfF.table_enc (j, DNode.arr ids) (lookupA_mem hd)
    have hw : w = e :=
      nodup_ids_key_eq hwfF.ids_nodup (lookupA_mem hwl) (lookupA_mem hl)
    subst hw
    cases hwe with
    | arr r2 elems ids2 hha hfa => exact ⟨r2, rfl⟩
  · obtain ⟨w, hwl, hwe⟩ := hwfF.table_enc (j, DNode.obj pairs) (lookupA_mem hd)
    have hw : w = e :=
      nodup_ids_key_eq hwfF.ids_nodup (lookupA_mem hwl) (lookupA_mem hl)
    subst hw
    cases hwe with
    | obj r2 props prs hho hfo => exact ⟨r2, rfl⟩

theorem tableRanked_of_heapRanked (h : Heap) (sF : DState) (rank : Nat → Nat)
    (hwfF : DWF h sF) (hr : HeapRanked h rank) :
    ∃ rankT : Nat → Nat, TableRanked sF.table rankT := by
  classical
  refine ⟨fun k => if hk : ∃ r3, lookupA sF.cache (JSVal.ref r3) = some k
    then rank (Classical.choose hk) else 0, ?_, ?_⟩
  · intro k ids hdk j hj hobj
    obtain ⟨w, hwl, hwe⟩ := hwfF.table_enc (k, DNode.arr ids) (lookupA_mem hdk)
    cases hwe with
    | arr r elems ids2 hha hfa =>
      obtain ⟨e, hemem, hel⟩ := forall₂_mem_right hfa hj
      obtain ⟨r2, rfl⟩ := cached_objnode_is_ref hwfF hel hobj
      have h2 : rank r2 < rank r := hr.1 r elems hha _ hemem r2 rfl
      have hexj : ∃ r3, lookupA sF.cache (JSVal.ref r3) = some j := ⟨r2, hel⟩
      have hexk : ∃ r3, lookupA sF.cache (JSVal.ref r3) = some k := ⟨r, hwl⟩
      simp only []
      rw [dif_pos hexj, dif_pos hexk]
      have hj2 : Classical.choose hexj = r2 := by
        have hsp := Classical.choose_spec hexj
        exact JSVal.ref.inj
          (nodup_ids_key_eq hwfF.ids_nodup (lookupA_mem hsp) (lookupA_mem hel))
      have hk2 : Classical.choose hexk = r := by
        have hsp := Classical.choose_spec hexk
        exact JSVal.ref.inj
          (nodup_ids_key_eq hwfF.ids_nodup (lookupA_mem hsp) (lookupA_mem hwl))
      rw [hj2, hk2]
      exact h2
  · intro k pairs hdk q hq hobj
    obtain ⟨w, hwl, hwe⟩ := hwfF.table_enc (k, DNode.obj pairs) (lookupA_mem hdk)
    cases hwe with
    | obj r props prs hho hfo =>
      obtain ⟨kv, hkvmem, hkv1, hkv2⟩ := forall₂_mem_right hfo hq
      obtain ⟨r2, hre⟩ := cached_objnode_is_ref hwfF hkv2 hobj
      have h2 : rank r2 ≤ rank r :=
        hr.2 r props hho kv (List.mem_of_mem_filter hkvmem) r2 hre
      rw [hre] at hkv2
      have hexj : ∃ r3, lookupA sF.cache (JSVal.ref r3) = some q.2 := ⟨r2, hkv2⟩
      have hexk : ∃ r3, lookupA sF.cache (JSVal.ref r3) = some k := ⟨r, hwl⟩
      simp only []
      rw [dif_pos hexj, dif_pos hexk]
      have hj2 : Classical.choose hexj = r2 := by
        have hsp := Classical.choose_spec hexj
        exact JSVal.ref.inj
          (nodup_ids_key_eq hwfF.ids_nodup (lookupA_mem hsp) (lookupA_mem hkv2))
      have hk2 : Classical.choose hexk = r := by
        have hsp := Classical.choose_spec hexk
        exact JSVal.ref.inj
          (nodup_ids_key_eq hwfF.ids_nodup (lookupA_mem hsp) (lookupA_mem hwl))
      rw [hj2, hk2]
      exact h2

/-- C1 (amended): for every value over a heap with no function and no
`null` anywhere, no property named `checker` (which `dehydrateValue`
silently drops), and no cyclic reference chain passing through an array
(whose under-construction cache value is still `undefined` when a cycle
closes back into it), `hydrateValue (dehydrateValue v)` succeeds and
returns a value deep-equal to `v`, and any two properties of `v` that
referenced the same sub-object by identity reference one shared
reconstructed object in the hydrated output. -/
theorem dehydrate_hydrate_roundtrip (h : Heap) (v : JSVal)
    (hclean : CleanHeap h) (hv : CleanVal h v)
    (hrank : ∃ rank, HeapRanked h rank) :
    ∃ t w out, dehydrateValue h v = Except.ok t ∧
      hydrateValue t = Except.ok (w, out) ∧
      DeepEqualAliased h v out w := by
  have hb : unvisitedRefs h (⟨[], 0, []⟩ : DState).cache < h.length + 2 := by
    show unvisitedRefs h [] < h.length + 2
    simp only [unvisitedRefs]
    exact Nat.lt_of_le_of_lt (List.length_filter_le _ _)
      (Nat.lt_add_of_pos_right (by omega))
  obtain ⟨i0, sF, hdr⟩ := (serialize_ok (h.length + 2)).1 h v ⟨[], 0, []⟩
    hclean hv (dwf_init h) hb
  obtain ⟨hpost, hrootlook, hrootid⟩ := (serialize_post (h.length + 2)).1 h v
    ⟨[], 0, []⟩ i0 sF hdr (dwf_init h)
  have hi0 : i0 = 0 := hrootid rfl
  subst hi0
  have hdr2 : dehydrateRun h v = Except.ok (0, sF) := hdr
  have hdv : dehydrateValue h v = Except.ok sF.table := by
    simp only [dehydrateValue, hdr2, except_map_ok]
  have hwfF : DWF h sF := hpost.wf
  have hcov : ∀ j2, j2 ∈ sF.cache.map Prod.snd → j2 ∈ sF.table.map Prod.fst := by
    intro j2 hj2
    exact hpost.covered j2 hj2 (by simp)
  have h0t : (0 : Nat) ∈ sF.table.map Prod.fst :=
    hcov 0 (List.mem_map.mpr ⟨_, lookupA_mem hrootlook, rfl⟩)
  have htne : sF.table ≠ [] := by
    intro hc
    rw [hc] at h0t
    simp at h0t
  obtain ⟨rank, hr⟩ := hrank
  obtain ⟨rankT, htr⟩ := tableRanked_of_heapRanked h sF rank hwfF hr
  have hroot : IsObjNode sF.table 0 →
      ∀ j ∈ (⟨[], [], []⟩ : HState).pending, rankT 0 < rankT j := by
    intro _ j hj
    exact absurd hj (List.not_mem_nil _)
  have hbh : unvisitedIds sF.table (⟨[], [], []⟩ : HState).visited
      < sF.table.length + 1 := by
    show unvisitedIds sF.table [] < sF.table.length + 1
    simp only [unvisitedIds]
    exact Nat.lt_succ_of_le (List.length_filter_le _ _)
  obtain ⟨w, sH, hdes⟩ := (deserialize_ok rankT (sF.table.length + 1)).1 sF.table 0
    ⟨[], [], []⟩ htr (hwf_init _) hroot hbh
  have hhyd : hydrateValue sF.table = Except.ok (w, sH.out) := by
    have hne2 : ¬(sF.table.isEmpty = true) := by
      simp [List.isEmpty_iff, htne]
    simp only [hydrateValue]
    rw [if_neg hne2, hdes]
    simp only [except_bind_ok]
  obtain ⟨hHpost, hwval, hrootvis⟩ := (deserialize_post rankT (sF.table.length + 1)).1
    sF.table 0 ⟨[], [], []⟩ w sH htr hdes (hwf_init _) hroot
  have hHwf : HWF sF.table sH := hHpost.wf
  have hvisout : ∀ k ∈ sH.visited, k ∈ sH.out.map Prod.fst := by
    intro k hk
    exact hHpost.covered k hk (by simp)
  refine ⟨sF.table, w, sH.out, hdv, hhyd,
    fun r i => lookupA sF.cache (JSVal.ref r) = some i ∧ i ∈ sH.out.map Prod.fst,
    ?_, ?_, ?_⟩
  · rw [hwval]
    refine matched_child h sF.cache sF.table _ hclean hwfF.ids_nodup hcov
      hwfF.table_enc v 0 hv hrootlook (fun hobj => ?_)
    exact hvisout 0 (hrootvis hobj)
  · exact roundtrip_isBisim h sF.cache sF.table sH hclean hwfF.ids_nodup
      hwfF.table_nodup hcov hwfF.table_enc hHwf.out_nodup hHwf.out_content
      hHwf.out_children hvisout
  · intro r i j hri hrj
    exact Option.some.inj (hri.1.symm.trans hrj.1)

/-- C1 (witness): the cyclic aliased object `o = { a: o, b: o }` (a
cycle through an object only, certified by the constant rank)
round-trips: all hypotheses hold for its heap and the round-trip
conclusion follows. -/
theorem dehydrate_hydrate_roundtrip_witness :
    CleanHeap [(0, HObj.obj [("a", JSVal.ref 0), ("b", JSVal.ref 0)])] ∧
    CleanVal [(0, HObj.obj [("a", JSVal.ref 0), ("b", JSVal.ref 0)])]
      (JSVal.ref 0) ∧
    (∃ rank, HeapRanked [(0, HObj.obj [("a", JSVal.ref 0), ("b", JSVal.ref 0)])]
      rank) ∧
    (∃ t w out,
      dehydrateValue [(0, HObj.obj [("a", JSVal.ref 0), ("b", JSVal.ref 0)])]
        (JSVal.ref 0) = Except.ok t ∧
      hydrateValue t = Except.ok (w, out) ∧
      DeepEqualAliased [(0, HObj.obj [("a", JSVal.ref 0), ("b", JSVal.ref 0)])]
        (JSVal.ref 0) out w) := by
  have hclean : CleanHeap [(0, HObj.obj [("a", JSVal.ref 0), ("b", JSVal.ref 0)])] := by
    refine ⟨by simp, ?_⟩
    intro q hq
    simp only [List.mem_singleton] at hq
    subst hq
    intro kv hkv
    rcases List.mem_cons.mp hkv with rfl | h1
    · exact ⟨by decide, by simp [CleanVal]⟩
    · rcases List.mem_cons.mp h1 with rfl | h2
      · exact ⟨by decide, by simp [CleanVal]⟩
      · simp at h2
  have hv : CleanVal [(0, HObj.obj [("a", JSVal.ref 0), ("b", JSVal.ref 0)])]
      (JSVal.ref 0) := by
    simp [CleanVal]
  have hrank : ∃ rank,
      HeapRanked [(0, HObj.obj [("a", JSVal.ref 0), ("b", JSVal.ref 0)])] rank := by
    refine ⟨fun _ => 0, ?_, ?_⟩
    · intro r elems hl
      by_cases hr0 : r = 0
      · subst hr0
        simp [lookupA] at hl
      · simp [lookupA, hr0] at hl
    · intro r props hl kv hkv r2 h2
      exact Nat.le_refl 0
  exact ⟨hclean, hv, hrank, dehydrate_hydrate_roundtrip _ _ hclean hv hrank⟩

/-- C1 (counterexample): three function-free values break the unamended
round-trip claim — a `null` property value makes `dehydrateValue` throw
(`Object.entries(null)`); a property named `checker` is silently
dropped, so the hydrated object is not deep-equal to the input; and the
self-referential array `a = [a]` hydrates as `[undefined]`, because an
array node's hydration cache entry receives its value only after
`val.map` returns, so the cycle closes on a still-`undefined` entry. -/
theorem roundtrip_breaks_on_null_or_checker :
    dehydrateValue [(0, HObj.obj [("a", JSVal.null)])] (JSVal.ref 0)
      = Except.error (JSErr.jsError "Cannot convert undefined or null to object") ∧
    (dehydrateValue [(0, HObj.arr [JSVal.ref 0])] (JSVal.ref 0)
      = Except.ok [(0, DNode.arr [0])] ∧
     hydrateValue [(0, DNode.arr [0])]
      = Except.ok (JSVal.ref 0, [(0, HObj.arr [JSVal.prim JSPrim.undef])]) ∧
     ¬ DeepEqualAliased [(0, HObj.arr [JSVal.ref 0])] (JSVal.ref 0)
        [(0, HObj.arr [JSVal.prim JSPrim.undef])] (JSVal.ref 0)) ∧
    dehydrateValue [(0, HObj.obj [("checker", JSVal.prim (JSPrim.num 5))])]
        (JSVal.ref 0)
      = Except.ok [(0, DNode.obj [])] ∧
    hydrateValue [(0, DNode.obj [])]
      = Except.ok (JSVal.ref 0, [(0, HObj.obj [])]) ∧
    ¬ DeepEqualAliased [(0, HObj.obj [("checker", JSVal.prim (JSPrim.num 5))])]
        (JSVal.ref 0) [(0, HObj.obj [])] (JSVal.ref 0) := by
  refine ⟨?_, ⟨?_, ?_, ?_⟩, ?_, ?_, ?_⟩
  · simp [dehydrateValue, dehydrateRun, serialize, serializeProps, lookupA,
      except_bind_ok, except_bind_err, except_map_ok, except_map_err]
  · simp [dehydrateValue, dehydrateRun, serialize, serializeList, lookupA,
      except_bind_ok, except_bind_err, except_map_ok, except_map_err]
  · simp [hydrateValue, deserialize, deserializeList, lookupA, List.erase_cons,
      except_bind_ok]
  · rintro ⟨Rel, hm, hb, -⟩
    have hrel : Rel 0 0 := hm
    obtain ⟨n, n2, hn, hn2, hmo⟩ := hb 0 0 hrel
    simp only [lookupA, if_pos rfl] at hn hn2
    obtain rfl := (Option.some.inj hn).symm
    obtain rfl := (Option.some.inj hn2).symm
    cases hmo with
    | cons h1 h2 => exact h1
  · simp [dehydrateValue, dehydrateRun, serialize, serializeProps, lookupA,
      except_bind_ok, except_bind_err, except_map_ok, except_map_err]
  · simp [hydrateValue, deserialize, deserializeProps, lookupA, except_bind_ok]
  · rintro ⟨Rel, hm, hb, -⟩
    have hrel : Rel 0 0 := hm
    obtain ⟨n, n2, hn, hn2, hmo⟩ := hb 0 0 hrel
    simp only [lookupA, if_pos rfl] at hn hn2
    obtain rfl := (Option.some.inj hn).symm
    obtain rfl := (Option.some.inj hn2).symm
    cases hmo

/-- C10: the `dehydrateValue` visited cache is keyed by SameValueZero
(`Map`) equality, so when the same primitive value occurs as the value
of two distinct properties of an object, both occurrences are encoded
as one shared id pointing at one shared entry of the dehydrated table,
not one id per occurrence. -/
theorem dehydrate_sharedPrimIds (h : Heap) (v : JSVal) (i : Nat) (sf : DState)
    (r j : Nat) (props : List (String × JSVal)) (k1 k2 : String) (p : JSPrim)
    (hrun : dehydrateRun h v = Except.ok (i, sf))
    (hr : lookupA h r = some (HObj.obj props))
    (hcache : lookupA sf.cache (JSVal.ref r) = some j)
    (hk1 : (k1, JSVal.prim p) ∈ props) (hk2 : (k2, JSVal.prim p) ∈ props)
    (hne : k1 ≠ k2) (hk1c : k1 ≠ "checker") (hk2c : k2 ≠ "checker") :
    ∃ pairs q,
      lookupA sf.table j = some (DNode.obj pairs) ∧
      lookupA sf.cache (JSVal.prim p) = some q ∧
      (k1, q) ∈ pairs ∧ (k2, q) ∈ pairs ∧
      lookupA sf.table q = some (DNode.prim p) := by
  have hrun2 : serialize h (h.length + 2) v ⟨[], 0, []⟩ = Except.ok (i, sf) := hrun
  obtain ⟨hpost, -, -⟩ :=
    (serialize_post (h.length + 2)).1 h v ⟨[], 0, []⟩ i sf hrun2 (dwf_init h)
  have hwf : DWF h sf := hpost.wf
  have hmemj : (JSVal.ref r, j) ∈ sf.cache := lookupA_mem hcache
  have hjids : j ∈ sf.cache.map Prod.snd := List.mem_map.mpr ⟨_, hmemj, rfl⟩
  have hjtab : j ∈ sf.table.map Prod.fst := hpost.covered j hjids (by simp)
  obtain ⟨⟨j2, d⟩, hdmem, hj2⟩ := List.mem_map.mp hjtab
  simp only [] at hj2
  rw [hj2] at hdmem
  obtain ⟨w, hwlook, hwenc⟩ := hwf.table_enc (j, d) hdmem
  have hwmem : (w, j) ∈ sf.cache := lookupA_mem hwlook
  have hweq : w = JSVal.ref r := nodup_ids_key_eq hwf.ids_nodup hwmem hmemj
  subst hweq
  cases hwenc with
  | func r2 name hhf =>
    rw [hr] at hhf
    exact HObj.noConfusion (Option.some.inj hhf)
  | arr r2 elems ids hha hfa =>
    rw [hr] at hha
    exact HObj.noConfusion (Option.some.inj hha)
  | obj r2 props0 pairs hho hfor =>
    rw [hr] at hho
    obtain rfl := HObj.obj.inj (Option.some.inj hho)
    have hlookj : lookupA sf.table j = some (DNode.obj pairs) :=
      mem_lookupA_of_nodup hwf.table_nodup hdmem
    have hk1f : (k1, JSVal.prim p) ∈ props.filter (fun kv => kv.1 ≠ "checker") :=
      List.mem_filter.mpr ⟨hk1, by simp [hk1c]⟩
    have hk2f : (k2, JSVal.prim p) ∈ props.filter (fun kv => kv.1 ≠ "checker") :=
      List.mem_filter.mpr ⟨hk2, by simp [hk2c]⟩
    obtain ⟨⟨k1b, q1⟩, hq1mem, hk1b, hq1look⟩ := forall₂_mem_left hfor hk1f
    obtain ⟨⟨k2b, q2⟩, hq2mem, hk2b, hq2look⟩ := forall₂_mem_left hfor hk2f
    simp only [] at hk1b hk2b hq1look hq2look
    obtain rfl := hk1b
    obtain rfl := hk2b
    obtain rfl : q1 = q2 := Option.some.inj (hq1look.symm.trans hq2look)
    have hpmem : (JSVal.prim p, q1) ∈ sf.cache := lookupA_mem hq1look
    have hpids : q1 ∈ sf.cache.map Prod.snd := List.mem_map.mpr ⟨_, hpmem, rfl⟩
    have hptab : q1 ∈ sf.table.map Prod.fst := hpost.covered q1 hpids (by simp)
    obtain ⟨⟨q3, d2⟩, hd2mem, hq3⟩ := List.mem_map.mp hptab
    simp only [] at hq3
    rw [hq3] at hd2mem
    obtain ⟨w2, hw2look, hw2enc⟩ := hwf.table_enc (q1, d2) hd2mem
    have hw2mem : (w2, q1) ∈ sf.cache := lookupA_mem hw2look
    have hw2eq : w2 = JSVal.prim p := nodup_ids_key_eq hwf.ids_nodup hw2mem hpmem
    subst hw2eq
    cases hw2enc with
    | prim p2 =>
      exact ⟨pairs, q1, hlookj, hq1look, hq1mem, hq2mem,
        mem_lookupA_of_nodup hwf.table_nodup hd2mem⟩

/-- C10 (witness): dehydrating `{ a: 'x', b: 'x' }` gives both
properties the single id 1 and the single table entry `1 ↦ 'x'`. -/
theorem dehydrate_sharedPrimIds_witness :
    dehydrateRun
        [(0, HObj.obj [("a", JSVal.prim (JSPrim.str "x")),
          ("b", JSVal.prim (JSPrim.str "x"))])]
        (JSVal.ref 0) =
      Except.ok (0,
        (⟨[(JSVal.prim (JSPrim.str "x"), 1), (JSVal.ref 0, 0)], 2,
          [(0, DNode.obj [("a", 1), ("b", 1)]),
           (1, DNode.prim (JSPrim.str "x"))]⟩ : DState)) ∧
    (∃ pairs q,
      lookupA [(0, DNode.obj [("a", 1), ("b", 1)]),
        (1, DNode.prim (JSPrim.str "x"))] 0 = some (DNode.obj pairs) ∧
      lookupA [(JSVal.prim (JSPrim.str "x"), 1), (JSVal.ref 0, 0)]
        (JSVal.prim (JSPrim.str "x")) = some q ∧
      ("a", q) ∈ pairs ∧ ("b", q) ∈ pairs ∧
      lookupA [(0, DNode.obj [("a", 1), ("b", 1)]),
        (1, DNode.prim (JSPrim.str "x"))] q = some (DNode.prim (JSPrim.str "x"))) := by
  have hrun :
      dehydrateRun
          [(0, HObj.obj [("a", JSVal.prim (JSPrim.str "x")),
            ("b", JSVal.prim (JSPrim.str "x"))])]
          (JSVal.ref 0) =
        Except.ok (0,
          (⟨[(JSVal.prim (JSPrim.str "x"), 1), (JSVal.ref 0, 0)], 2,
            [(0, DNode.obj [("a", 1), ("b", 1)]),
             (1, DNode.prim (JSPrim.str "x"))]⟩ : DState)) := by
    simp [dehydrateRun, serialize, serializeList, serializeProps, lookupA,
      except_bind_ok, except_map_ok]
  refine ⟨hrun, dehydrate_sharedPrimIds _ _ _ _ 0 0
    [("a", JSVal.prim (JSPrim.str "x")), ("b", JSVal.prim (JSPrim.str "x"))]
    "a" "b" (JSPrim.str "x") hrun ?_ ?_ ?_ ?_ ?_ ?_ ?_⟩
  · rfl
  · simp [lookupA]
  · simp
  · simp
  · decide
  · decide
  · decide

/-- C4 (witness): a concrete race — one snapshot advertises two hosts
under the key, the batch opens two candidate sockets, socket 0
completes its handshake first and wins, socket 1 completes later and is
closed; the run is quiescent and settled exactly once. -/
theorem discovery_exactly_once_witness :
    ∃ o, (DiscoSt.mk true false TimerSt.cleared [] none
      [(0, SockPhase.opened), (1, SockPhase.closedS)] 2
      [DiscoOutcome.success 0]).settleCalls = [o] :=
  (discovery_exactly_once "k"
      [DiscoEv.snapshot [("k", 11), ("k", 22)], DiscoEv.startTask,
       DiscoEv.sockOpen 0, DiscoEv.sockOpen 1]
      (DiscoSt.mk true false TimerSt.cleared [] none
        [(0, SockPhase.opened), (1, SockPhase.closedS)] 2
        [DiscoOutcome.success 0]) rfl).2.1
    ⟨rfl, rfl, fun hc => TimerSt.noConfusion hc⟩

end TypeGlance
